import Mathlib

/-!
Verification of the core of a Graph Edit Distance (GED) engine:
bipartite LSAPE approximation, IPFP refinement, K-best LSAPE enumeration
and the multistart driver.  Machine reals (`double`) are embedded as `ℚ`
(exact arithmetic), node and edge attributes as `ℕ`, and cost matrices as
functions `ℕ → ℕ → ℚ` read only inside their declared bounds.
-/

namespace GedLib

/-- An attributed graph: `size` nodes indexed `0 … size-1`, a node attribute
per index, an optional edge attribute for each ordered index pair
(`none` = no edge; undirected graphs store a symmetric function), and a
directedness flag.  Mirrors the `Graph<NodeAttribute,EdgeAttribute>`
interface consumed by the solvers (`Size`, `operator[]`, `getEdge`,
`isDirected`). -/
structure Graph where
  size : Nat
  nodeLab : Nat → Nat
  edge : Nat → Nat → Option Nat
  directed : Bool

/-- The edit-cost callback: six non-negative real-valued functions on
attributes, mirroring `EditDistanceCost` (`NodeSubstitutionCost`,
`NodeDeletionCost`, `NodeInsertionCost`, `EdgeSubstitutionCost`,
`EdgeDeletionCost`, `EdgeInsertionCost`). -/
structure EditCost where
  nodeSub : Nat → Nat → ℚ
  nodeDel : Nat → ℚ
  nodeIns : Nat → ℚ
  edgeSub : Nat → Nat → ℚ
  edgeDel : Nat → ℚ
  edgeIns : Nat → ℚ

/-- All cost callbacks return non-negative values (§6 of the spec). -/
def EditCost.NonNeg (cf : EditCost) : Prop :=
  (∀ a b, 0 ≤ cf.nodeSub a b) ∧ (∀ a, 0 ≤ cf.nodeDel a) ∧ (∀ a, 0 ≤ cf.nodeIns a) ∧
  (∀ a b, 0 ≤ cf.edgeSub a b) ∧ (∀ a, 0 ≤ cf.edgeDel a) ∧ (∀ a, 0 ≤ cf.edgeIns a)

/-- A graph is loopless when no node carries an edge to itself. -/
def Graph.Loopless (g : Graph) : Prop := ∀ i, g.edge i i = none

/-- An undirected graph stores its edge function symmetrically. -/
def Graph.Symm (g : Graph) : Prop := ∀ i j, g.edge i j = g.edge j i

/-- `NodeCostMatrix` of `IPFPGraphEditDistance`: the node-only
`(n+1) × (m+1)` LSAPE matrix; `C[i,j]` substitution, `C[i,m]` deletion,
`C[n,j]` insertion, `C[n,m] = 0`. -/
def nodeCostMatrix (cf : EditCost) (g1 g2 : Graph) : Nat → Nat → ℚ := fun i j =>
  if i < g1.size ∧ j < g2.size then cf.nodeSub (g1.nodeLab i) (g2.nodeLab j)
  else if i < g1.size ∧ j = g2.size then cf.nodeDel (g1.nodeLab i)
  else if i = g1.size ∧ j < g2.size then cf.nodeIns (g2.nodeLab j)
  else 0

/-- The edge-edit cost of an optional pair of edges, as selected inside
`QuadraticTerm`: substitution when both edges exist, deletion when only the
first, insertion when only the second, `0` otherwise. -/
def edgeCost (cf : EditCost) : Option Nat → Option Nat → ℚ
  | some a, some b => cf.edgeSub a b
  | some a, none => cf.edgeDel a
  | none, some b => cf.edgeIns b
  | none, none => 0

/-- One entry of the accumulation loop of
`IPFPGraphEditDistance::QuadraticTerm` (mappings-list overload), before the
final `*= 0.5` of the undirected case: the sum over the mapping list of
`edgecost((i,j),(k,l)) * value`, guarded by
`((i ≠ j) ∨ i ≥ n) ∧ ((k ≠ l) ∨ k ≥ m)`, where the `g1` edge is looked up
only when `i < n ∧ j < n` and the `g2` edge only when `k < m ∧ l < m`. -/
def quadTermEntryRaw (cf : EditCost) (g1 g2 : Graph)
    (mappings : List (Nat × Nat × ℚ)) (j l : Nat) : ℚ :=
  (mappings.map (fun p =>
    let i := p.1
    let k := p.2.1
    if (i ≠ j ∨ g1.size ≤ i) ∧ (k ≠ l ∨ g2.size ≤ k) then
      edgeCost cf (if i < g1.size ∧ j < g1.size then g1.edge i j else none)
        (if k < g2.size ∧ l < g2.size then g2.edge k l else none) * p.2.2
    else 0)).sum

/-- One entry of `QuadraticTerm`, including the halving applied by the line
`if (!this->_directed) quadraticTerm[sub2ind(j,l,n+1)] *= 0.5;`, where the
`directed` flag is the one stored by the caller. -/
def quadTermEntry (directed : Bool) (cf : EditCost) (g1 g2 : Graph)
    (mappings : List (Nat × Nat × ℚ)) (j l : Nat) : ℚ :=
  if directed = false then quadTermEntryRaw cf g1 g2 mappings j l * (1/2)
  else quadTermEntryRaw cf g1 g2 mappings j l

/-- `IPFPalgorithm` sets `_directed = g1->isDirected() && g2->isDirected()`;
`QuadraticTerm` then reads that member.  This is the quadratic-term matrix
as the IPFP driver computes it. -/
def ipfpQuadTerm (cf : EditCost) (g1 g2 : Graph)
    (mappings : List (Nat × Nat × ℚ)) : Nat → Nat → ℚ :=
  quadTermEntry (g1.directed && g2.directed) cf g1 g2 mappings

/-- The mapping list rebuilt from `(G1_to_G2, G2_to_G1)` by the
`QuadraticTerm(g1,g2,G1_to_G2,G2_to_G1,XkD)` overload: pairs `(i, fwd i)`
with weight `1` for every `i < n`, then pairs `(rev j, j)` with weight `1`
for every `j < m` with `rev j ≥ n`. -/
def mappingPairs (n m : Nat) (fwd rev : Nat → Nat) : List (Nat × Nat × ℚ) :=
  (List.range n).map (fun i => (i, fwd i, (1 : ℚ)))
    ++ ((List.range m).filter (fun j => n ≤ rev j)).map (fun j => (rev j, j, (1 : ℚ)))

/-- The mapping list rebuilt from a relaxed matrix by the
`QuadraticTerm(g1,g2,Matrix,XkD)` overload: all cells of the
`(n+1) × (m+1)` region whose value is `> 0`, row-major. -/
def matrixPairs (n m : Nat) (X : Nat → Nat → ℚ) : List (Nat × Nat × ℚ) :=
  (List.range (n+1)).flatMap (fun i =>
    (List.range (m+1)).filterMap (fun j =>
      if 0 < X i j then some (i, j, X i j) else none))

/-- `linearCost(CostMatrix, G1_to_G2, G2_to_G1, n, m)`: the sparse linear
cost of a mapping pair, `Σ_{i<n} M[i, fwd i] + Σ_{j<m, rev j ≥ n} M[rev j, j]`. -/
def linearCostMap (M : Nat → Nat → ℚ) (fwd rev : Nat → Nat) (n m : Nat) : ℚ :=
  ((List.range n).map (fun i => M i (fwd i))).sum
    + ((List.range m).map (fun j => if n ≤ rev j then M (rev j) j else 0)).sum

/-- `linearCost(CostMatrix, X, n, m)`: the dense inner product
`Σ_{i<n} Σ_{j<m} M[i,j] * X[i,j]` (callers pass `n+1`, `m+1`). -/
def linearCostMat (M X : Nat → Nat → ℚ) (n m : Nat) : ℚ :=
  ((List.range n).map (fun i =>
    ((List.range m).map (fun j => M i j * X i j)).sum)).sum

/-- `mappingsToMatrix`: the `(n+1) × (m+1)` 0/1 matrix of a mapping pair. -/
def mappingsToMatrix (fwd rev : Nat → Nat) (n m : Nat) : Nat → Nat → ℚ := fun a b =>
  if a < n ∧ b = fwd a then 1
  else if b < m ∧ n ≤ rev b ∧ a = rev b then 1
  else 0

/-! ### The LSAPE primal solver, modelled from its external contract -/

/-- All sequences of length `n` over `{0, …, m}`, head-most-significant
lexicographic order.  Candidate forward LSAPE assignments (value `m` = ε). -/
def allSeqs : Nat → Nat → List (List Nat)
  | 0, _ => [[]]
  | n+1, m => (List.range (m+1)).flatMap (fun v => (allSeqs n m).map (fun s => v :: s))

/-- Boolean pairwise-distinctness of a list of naturals. -/
def nodupB : List Nat → Bool
  | [] => true
  | v :: t => (!t.contains v) && nodupB t

/-- A forward sequence is a valid LSAPE assignment when its non-ε values are
pairwise distinct. -/
def validLsapeSeq (m : Nat) (f : List Nat) : Bool :=
  nodupB (f.filter (fun v => decide (v < m)))

/-- The LSAPE primal objective of a forward sequence on an `(n+1) × (m+1)`
cost matrix: assigned cells plus the ε-row cost of every unmatched column. -/
def lsapeSeqCost (C : Nat → Nat → ℚ) (n m : Nat) (f : List Nat) : ℚ :=
  ((List.range n).map (fun i => C i (f.getD i m))).sum
    + ((List.range m).map (fun j => if f.contains j then 0 else C n j)).sum

/-- First element of a list realizing the minimum of `cost` (earlier
elements win ties). -/
def argminFirst {α : Type} (cost : α → ℚ) : List α → Option α
  | [] => none
  | x :: t =>
    match argminFirst cost t with
    | none => some x
    | some y => if cost y < cost x then some y else some x

/-- Modelled from the spec: the external LSAPE primal solver
`hungarianLSAPE(C, n+1, m+1, G1_to_G2, G2_to_G1, u, v, false)` of §4.B,
absent from `src/`.  Contract: it returns a forward/backward assignment
minimizing `Σ C[i,j]·X[i,j]` over row-sub-stochastic `(n+1) × (m+1)` 0/1
matrices with unconstrained ε row/column.  Modelled as exhaustive
minimization with a deterministic (lexicographic-first) tie-break. -/
def hungarianLSAPE (C : Nat → Nat → ℚ) (n m : Nat) : List Nat :=
  (argminFirst (lsapeSeqCost C n m)
    ((allSeqs n m).filter (validLsapeSeq m))).getD (List.replicate n m)

/-- The forward mapping function of the modelled solver (`G1_to_G2`):
node `i < n` goes to `fwd i`, with `fwd i = m` meaning deletion. -/
def lsapeFwd (C : Nat → Nat → ℚ) (n m : Nat) : Nat → Nat :=
  fun i => (hungarianLSAPE C n m).getD i m

/-- The backward mapping consistent with a forward mapping (`G2_to_G1`):
`rev j = i` when some `i < n` has `fwd i = j`, else `rev j = n` (insertion).
This is the consistency requirement the solver contract places on its two
primal outputs. -/
def revOf (n : Nat) (fwd : Nat → Nat) : Nat → Nat := fun j =>
  ((List.range n).find? (fun i => fwd i = j)).getD n

/-- The optimal LSAPE value on an `(n+1) × (m+1)` cost matrix.  The solver
contract (§4.B) makes it equal to the sum of the returned dual potentials. -/
def lsapeOptCost (C : Nat → Nat → ℚ) (n m : Nat) : ℚ :=
  lsapeSeqCost C n m (hungarianLSAPE C n m)

/-! ### Bipartite GED: star-augmented cost matrix (`BipartiteGraphEditDistance.h`) -/

/-- The incident-edge list of a node: pairs `(neighbour, attribute)` in
index order, mirroring `v->getIncidentEdges()` / `e->Next()` traversal. -/
def incidentEdges (g : Graph) (v : Nat) : List (Nat × Nat) :=
  (List.range g.size).filterMap (fun w => (g.edge v w).map (fun a => (w, a)))

/-- The local `(deg(v1)+1) × (deg(v2)+1)` edge cost matrix `local_C` built
inside `BipartiteGraphEditDistance::SubstitutionCost`: edge substitutions in
the inner block, edge deletions in the last column, edge insertions in the
last row, `0` in the corner. -/
def localEdgeMatrix (cf : EditCost) (g1 g2 : Graph) (v1 v2 : Nat) : Nat → Nat → ℚ :=
  let E1 := incidentEdges g1 v1
  let E2 := incidentEdges g2 v2
  fun i j =>
    if i < E1.length ∧ j < E2.length then
      cf.edgeSub (E1.getD i (0, 0)).2 (E2.getD j (0, 0)).2
    else if i < E1.length ∧ j = E2.length then cf.edgeDel (E1.getD i (0, 0)).2
    else if i = E1.length ∧ j < E2.length then cf.edgeIns (E2.getD j (0, 0)).2
    else 0

/-- `BipartiteGraphEditDistance::SubstitutionCost`: the node substitution
cost plus the optimal LSAPE value of the local edge cost matrix (in the
source, recovered as the sum of the dual potentials returned by
`hungarianLSAPE`, which the solver contract equates with the optimum). -/
def substitutionCost (cf : EditCost) (g1 g2 : Graph) (v1 v2 : Nat) : ℚ :=
  lsapeOptCost (localEdgeMatrix cf g1 g2 v1 v2)
      (incidentEdges g1 v1).length (incidentEdges g2 v2).length
    + cf.nodeSub (g1.nodeLab v1) (g2.nodeLab v2)

/-- `BipartiteGraphEditDistance::DeletionCost`: node deletion plus the sum
of the deletion costs of the incident edges. -/
def deletionCost (cf : EditCost) (g1 : Graph) (v1 : Nat) : ℚ :=
  ((incidentEdges g1 v1).map (fun e => cf.edgeDel e.2)).sum
    + cf.nodeDel (g1.nodeLab v1)

/-- `BipartiteGraphEditDistance::InsertionCost`: node insertion plus the sum
of the insertion costs of the incident edges. -/
def insertionCost (cf : EditCost) (g2 : Graph) (v2 : Nat) : ℚ :=
  ((incidentEdges g2 v2).map (fun e => cf.edgeIns e.2)).sum
    + cf.nodeIns (g2.nodeLab v2)

/-- `BipartiteGraphEditDistance::computeCostMatrix`: the star-augmented
`(n+1) × (m+1)` LSAPE matrix. -/
def computeCostMatrix (cf : EditCost) (g1 g2 : Graph) : Nat → Nat → ℚ := fun i j =>
  if i < g1.size ∧ j < g2.size then substitutionCost cf g1 g2 i j
  else if i < g1.size ∧ j = g2.size then deletionCost cf g1 i
  else if i = g1.size ∧ j < g2.size then insertionCost cf g2 j
  else 0

/-- `BipartiteGraphEditDistance::getOptimalMapping`: build the
star-augmented matrix, solve LSAPE, return the forward/backward mapping. -/
def bipartiteMapping (cf : EditCost) (g1 g2 : Graph) : (Nat → Nat) × (Nat → Nat) :=
  let fwd := lsapeFwd (computeCostMatrix cf g1 g2) g1.size g2.size
  (fwd, revOf g1.size fwd)

/-! ### MultiGed: LSAP lifting, K-best seeds, argmin driver (`MultiGed.h`) -/

/-- `MultiGed::computeCostMatrixLSAP`: the `(n+m) × (n+m)` LSAP lifting of
an `(n+1) × (m+1)` LSAPE matrix.  Upper-left block `C[i,j]`, deletion
diagonal `C_L[i, m+i] = C[i,m]`, insertion diagonal `C_L[n+j, j] = C[n,j]`,
zero bottom-right block, and the `-1.0` sentinel on every other cell. -/
def computeCostMatrixLSAP (C : Nat → Nat → ℚ) (n m : Nat) : Nat → Nat → ℚ := fun i j =>
  if i < n ∧ j < m then C i j
  else if i < n ∧ j = m + i then C i m
  else if n ≤ i ∧ j < m ∧ i = n + j then C n j
  else if n ≤ i ∧ m ≤ j then 0
  else -1

/-- A cell of the LSAP lifting that carries a real cost (not the `-1.0`
sentinel written by `computeCostMatrixLSAP` on impossible pairings). -/
def allowedCell (n m i j : Nat) : Prop :=
  (i < n ∧ j < m) ∨ (i < n ∧ j = m + i) ∨ (n ≤ i ∧ j < m ∧ i = n + j) ∨
    (n ≤ i ∧ m ≤ j)

instance (n m i j : Nat) : Decidable (allowedCell n m i j) := by
  unfold allowedCell; infer_instance

/-- `while (firstEpsNonAssign < n && epsAssign[firstEpsNonAssign]) firstEpsNonAssign++;`
with explicit fuel (the pointer advances at most `n` times). -/
def advanceEps (eps : Nat → Bool) (n : Nat) : Nat → Nat → Nat
  | 0, p => p
  | fuel+1, p => if p < n ∧ eps p = true then advanceEps eps n fuel (p+1) else p

/-- The Y-side rows of `rhoperm` (`MultiGed::getKOptimalMappings`): for each
`j < m` in order, an inserted column `j` keeps `rhoperm[n+j] = j`; a matched
column takes the first ε slot not yet assigned, `rhoperm[n+j] = slot + m`. -/
def ysideList (n m : Nat) (rev : Nat → Nat) :
    List Nat → (Nat → Bool) → Nat → List Nat
  | [], _, _ => []
  | j :: js, eps, ptr =>
    if rev j = n then j :: ysideList n m rev js eps ptr
    else
      let p := advanceEps eps n n ptr
      (p + m) :: ysideList n m rev js (fun i => if i = p then true else eps i) p

/-- The `(n+m)`-permutation `rhoperm` decoded from the initial LSAPE
solution in `MultiGed::getKOptimalMappings`: `rhoperm[i] = fwd i` for a
matched row, `rhoperm[i] = i + m` for a deleted row, and Y-side rows as in
`ysideList` (initial `epsAssign[i] = (fwd i ≥ m)`). -/
def rhoperm (n m : Nat) (fwd rev : Nat → Nat) : List Nat :=
  (List.range n).map (fun i => if fwd i < m then fwd i else i + m)
    ++ ysideList n m rev (List.range m) (fun i => decide (m ≤ fwd i)) 0

/-- The LSAP objective of a permutation sequence on a square cost matrix:
`Σ_i C_L[i, ρ i]`. -/
def lsapSeqCost (CL : Nat → Nat → ℚ) (N : Nat) (ρ : List Nat) : ℚ :=
  ((List.range N).map (fun i => CL i (ρ.getD i 0))).sum

/-- A sequence is a perfect matching of the lifted structure when it is a
permutation of `{0, …, n+m-1}` that uses only allowed (non-sentinel) cells. -/
def liftedMatching (n m : Nat) (ρ : List Nat) : Bool :=
  ρ.length = n + m && nodupB ρ
    && ρ.all (fun v => decide (v < n + m))
    && (List.range (n + m)).all (fun i => decide (allowedCell n m i (ρ.getD i 0)))

/-- All perfect matchings of the lifted structure, in the canonical
(lexicographic) order of `allSeqs`. -/
def allLiftedMatchings (n m : Nat) : List (List Nat) :=
  (allSeqs (n + m) (n + m - 1)).filter (liftedMatching n m)

/-- The optimal LSAP value of the lifting: minimum objective over all
perfect matchings of the lifted structure. -/
def lsapOptCost (CL : Nat → Nat → ℚ) (n m : Nat) : ℚ :=
  ((argminFirst (lsapSeqCost CL (n + m)) (allLiftedMatchings n m)).map
    (lsapSeqCost CL (n + m))).getD 0

/-- Modelled from the spec: the K-best enumerator
`AllPerfectMatchingsEC::enumPerfectMatchings` / `getPerfectMatchings`
(absent from `src/`).  §4.D: starting from the initial matching it emits
sibling matchings obtained by flipping alternating cycles of the equality
digraph, stopping after `k` emissions (`k = -1` means all); every emitted
matching is a perfect matching of `C_L` of optimal cost, none is emitted
twice, and the siblings differ from the initial matching.  Modelled as: all
optimal-cost perfect matchings of the lifting other than the initial one,
in canonical order, truncated to `k` when `k ≥ 0`. -/
def enumPerfectMatchings (CL : Nat → Nat → ℚ) (n m : Nat) (ρ0 : List Nat)
    (k : Int) : List (List Nat) :=
  let sibs := (allLiftedMatchings n m).filter
    (fun ρ => lsapSeqCost CL (n + m) ρ = lsapOptCost CL n m && ρ ≠ ρ0)
  if k < 0 then sibs else sibs.take k.toNat

/-- `MultiGed::getKOptimalMappings(g1, g2, C, k)`: solve LSAPE on `C`,
decode `rhoperm`, enumerate up to `k` further optimal matchings of the
lifting, and return the list with `rhoperm` pushed to the front. -/
def getKOptimalMappings (C : Nat → Nat → ℚ) (n m : Nat) (k : Int) : List (List Nat) :=
  let fwd := lsapeFwd C n m
  let rev := revOf n fwd
  let ρ0 := rhoperm n m fwd rev
  ρ0 :: enumPerfectMatchings (computeCostMatrixLSAP C n m) n m ρ0 k

/-- The decode loop shared by `MultiGed::computeOptimalMapping` and the
multistart drivers: `G1_to_G2[i] = ρ i` when `ρ i < m`, else `m`. -/
def decodeFwd (m : Nat) (ρ : Nat → Nat) : Nat → Nat := fun i =>
  if m ≤ ρ i then m else ρ i

/-- The decode loop for `G2_to_G1`: default `n`; the loop over `i < n`
writes `G2_to_G1[ρ i] = i` (the last such `i` wins); the final loop resets
`G2_to_G1[j] = n` whenever `ρ (n+j) < m`. -/
def decodeRev (n m : Nat) (ρ : Nat → Nat) : Nat → Nat := fun j =>
  if ρ (n + j) < m then n
  else (((List.range n).filter (fun i => ρ i = j)).getLast?).getD n

/-! ### Scoring a mapping (`GedFromMapping`), modelled from the spec -/

/-- The node part of the edit cost of a mapping: substitution or deletion
for every `G1` node, insertion for every unmatched `G2` node. -/
def gedNodeTerm (cf : EditCost) (g1 g2 : Graph) (fwd rev : Nat → Nat) : ℚ :=
  ((List.range g1.size).map (fun i =>
    if fwd i < g2.size then cf.nodeSub (g1.nodeLab i) (g2.nodeLab (fwd i))
    else cf.nodeDel (g1.nodeLab i))).sum
    + ((List.range g2.size).map (fun j =>
      if g1.size ≤ rev j then cf.nodeIns (g2.nodeLab j) else 0)).sum

/-- The image in `G2` of a `G1` node pair under a mapping: an edge is looked
up only when both endpoints are substituted. -/
def mappedEdge (g2 : Graph) (m : Nat) (fwd : Nat → Nat) (i j : Nat) : Option Nat :=
  if fwd i < m ∧ fwd j < m then g2.edge (fwd i) (fwd j) else none

/-- The edge part of the edit cost for a pair of undirected graphs: each
unordered `G1` node pair contributes the edit cost of its edge against the
image edge, and each unordered `G2` node pair with an inserted endpoint
contributes the insertion cost of its edge. -/
def gedEdgeTermUndirected (cf : EditCost) (g1 g2 : Graph) (fwd rev : Nat → Nat) : ℚ :=
  ((List.range g1.size).map (fun j =>
    ((List.range j).map (fun i =>
      edgeCost cf (g1.edge i j) (mappedEdge g2 g2.size fwd i j))).sum)).sum
    + ((List.range g2.size).map (fun l =>
      ((List.range l).map (fun k =>
        if g1.size ≤ rev k ∨ g1.size ≤ rev l then edgeCost cf none (g2.edge k l)
        else 0)).sum)).sum

/-- The edge part of the edit cost for a pair of directed graphs: as in the
undirected case but over ordered node pairs. -/
def gedEdgeTermDirected (cf : EditCost) (g1 g2 : Graph) (fwd rev : Nat → Nat) : ℚ :=
  ((List.range g1.size).map (fun j =>
    ((List.range g1.size).map (fun i =>
      if i ≠ j then edgeCost cf (g1.edge i j) (mappedEdge g2 g2.size fwd i j)
      else 0)).sum)).sum
    + ((List.range g2.size).map (fun l =>
      ((List.range g2.size).map (fun k =>
        if k ≠ l ∧ (g1.size ≤ rev k ∨ g1.size ≤ rev l) then
          edgeCost cf none (g2.edge k l)
        else 0)).sum)).sum

/-- Modelled from the spec: `GraphEditDistance::GedFromMapping`
(`GraphEditDistance.h`, absent from `src/`), the scorer used by
`MultiGed::computeOptimalMapping` and by `mappingCost` (§4.G step 2:
"score the refined mapping by evaluating the GED from the mapping,
accumulating node and edge sub/del/ins costs").  Node costs per mapped /
deleted / inserted node, edge costs per node pair, each edge counted once
(unordered pairs for undirected graphs, ordered pairs for directed ones). -/
def gedFromMapping (cf : EditCost) (g1 g2 : Graph) (fwd rev : Nat → Nat) : ℚ :=
  gedNodeTerm cf g1 g2 fwd rev
    + (if g1.directed && g2.directed then gedEdgeTermDirected cf g1 g2 fwd rev
      else gedEdgeTermUndirected cf g1 g2 fwd rev)

/-- `IPFPGraphEditDistance::mappingCost`: delegate to `GedFromMapping`. -/
def mappingCost (cf : EditCost) (g1 g2 : Graph) (fwd rev : Nat → Nat) : ℚ :=
  gedFromMapping cf g1 g2 fwd rev

/-- `MultiGed::computeOptimalMapping`: decode every enumerated mapping,
score it with `GedFromMapping`, and keep the first strict improvement
(`_ged = -1` sentinel before the first seed). -/
def computeOptimalMapping (cf : EditCost) (g1 g2 : Graph) (C : Nat → Nat → ℚ)
    (k : Int) : ℚ × (Nat → Nat) × (Nat → Nat) :=
  let n := g1.size
  let m := g2.size
  (getKOptimalMappings C n m k).foldl (fun acc ρL =>
    let ρ := fun i => ρL.getD i 0
    let fwd := decodeFwd m ρ
    let rev := decodeRev n m ρ
    let nged := gedFromMapping cf g1 g2 fwd rev
    if acc.1 > nged ∨ acc.1 = -1 then (nged, fwd, rev) else acc)
    (-1, (fun _ => m), (fun _ => n))

/-! ### The IPFP refiner (`IPFPGraphEditDistance.h`) -/

/-- `getAlpha()`: `R.back() - 2 * S[k] + oldLterm`. -/
def getAlpha (R S : List ℚ) (k : Nat) (oldLterm : ℚ) : ℚ :=
  R.getLastD 0 - 2 * S.getD k 0 + oldLterm

/-- `getBeta()`: `S.back() + S[k] - R.back() - oldLterm`. -/
def getBeta (R S : List ℚ) (k : Nat) (oldLterm : ℚ) : ℚ :=
  S.getLastD 0 + S.getD k 0 - R.getLastD 0 - oldLterm

/-- The line-search step length: `t0 = 0`, overwritten with
`-alpha / (2*beta)` when `beta > 0.000001`. -/
def ipfpT0 (alpha beta : ℚ) : ℚ :=
  if 1/1000000 < beta then -alpha / (2 * beta) else 0

/-- The two update branches of an IPFP iteration. -/
inductive IPFPBranch
  | replace
  | lineSearch
deriving DecidableEq

/-- The branch taken by the update `if ((beta < 0.00001) || (t0 >= 1))
memcpy(Xk, bkp1, …) else { line search }`. -/
def ipfpBranch (alpha beta : ℚ) : IPFPBranch :=
  if beta < 1/100000 ∨ 1 ≤ ipfpT0 alpha beta then .replace else .lineSearch

/-- The iteration state of `IPFPalgorithm`: the relaxed assignment `Xk`,
the primal and gradient cost sequences `S` and `R`, the linear terms, and
the iteration counter. -/
structure IPFPState where
  Xk : Nat → Nat → ℚ
  S : List ℚ
  R : List ℚ
  Lterm : ℚ
  oldLterm : ℚ
  k : Nat

/-- Memoization of a matrix region into nested lists (semantically the
identity on the region; keeps concrete evaluation of the iteration
shallow).  Entries outside the region default to `0`. -/
def tabulate (n m : Nat) (f : Nat → Nat → ℚ) : Nat → Nat → ℚ :=
  let rows := (List.range n).map (fun i => (List.range m).map (fun j => f i j))
  fun i j => ((rows.getD i []).getD j 0)

/-- `LinearSubProblem()` of the current iteration: the gradient direction
`2·D(X_k) + C` (tabulated over the `(n+1) × (m+1)` region). -/
def ipfpGradient (cf : EditCost) (g1 g2 : Graph) (st : IPFPState) : Nat → Nat → ℚ :=
  tabulate (g1.size+1) (g2.size+1) (fun i j =>
    2 * ipfpQuadTerm cf g1 g2 (matrixPairs g1.size g2.size st.Xk) i j
      + nodeCostMatrix cf g1 g2 i j)

/-- The forward part of the LSAPE solution of the gradient direction
(the binary extreme point `b_{k+1}`). -/
def ipfpDirFwd (cf : EditCost) (g1 g2 : Graph) (st : IPFPState) : Nat → Nat :=
  lsapeFwd (ipfpGradient cf g1 g2 st) g1.size g2.size

/-- The backward part of the LSAPE solution of the gradient direction. -/
def ipfpDirRev (cf : EditCost) (g1 g2 : Graph) (st : IPFPState) : Nat → Nat :=
  revOf g1.size (ipfpDirFwd cf g1 g2 st)

/-- `R_k`: the value of the gradient subproblem at `b_{k+1}`
(`linearCost(linearSubProblem, G1_to_G2, G2_to_G1, n, m)`). -/
def ipfpRk (cf : EditCost) (g1 g2 : Graph) (st : IPFPState) : ℚ :=
  linearCostMap (ipfpGradient cf g1 g2 st) (ipfpDirFwd cf g1 g2 st)
    (ipfpDirRev cf g1 g2 st) g1.size g2.size

/-- The new linear term `⟨C, b_{k+1}⟩`. -/
def ipfpLnew (cf : EditCost) (g1 g2 : Graph) (st : IPFPState) : ℚ :=
  linearCostMap (nodeCostMatrix cf g1 g2) (ipfpDirFwd cf g1 g2 st)
    (ipfpDirRev cf g1 g2 st) g1.size g2.size

/-- `S_{k+1}` as first pushed: `getCost(G1_to_G2, G2_to_G1, n, m)
= ⟨D(b_{k+1}), b_{k+1}⟩ + ⟨C, b_{k+1}⟩`. -/
def ipfpSk1 (cf : EditCost) (g1 g2 : Graph) (st : IPFPState) : ℚ :=
  linearCostMap
    (ipfpQuadTerm cf g1 g2
      (mappingPairs g1.size g2.size (ipfpDirFwd cf g1 g2 st) (ipfpDirRev cf g1 g2 st)))
    (ipfpDirFwd cf g1 g2 st) (ipfpDirRev cf g1 g2 st) g1.size g2.size
    + ipfpLnew cf g1 g2 st

/-- `getAlpha()` evaluated on the updated `R` and `S` of the iteration. -/
def ipfpAlphaOf (cf : EditCost) (g1 g2 : Graph) (st : IPFPState) : ℚ :=
  getAlpha (st.R ++ [ipfpRk cf g1 g2 st]) (st.S ++ [ipfpSk1 cf g1 g2 st])
    st.k st.Lterm

/-- `getBeta()` evaluated on the updated `R` and `S` of the iteration. -/
def ipfpBetaOf (cf : EditCost) (g1 g2 : Graph) (st : IPFPState) : ℚ :=
  getBeta (st.R ++ [ipfpRk cf g1 g2 st]) (st.S ++ [ipfpSk1 cf g1 g2 st])
    st.k st.Lterm

/-- One iteration of the `while` loop of `IPFPalgorithm`: quadratic term
from the current `Xk`, gradient direction `2·XkD + C`, LSAPE solve giving
the binary point `b_{k+1}`, bookkeeping of `R`, `L`, `S`, then the
replace / line-search update; the returned flag is `flag_continue`. -/
def ipfpStep (cf : EditCost) (g1 g2 : Graph) (eps : ℚ) (st : IPFPState) :
    IPFPState × Bool :=
  let n := g1.size
  let m := g2.size
  let fwd := ipfpDirFwd cf g1 g2 st
  let rev := ipfpDirRev cf g1 g2 st
  let bkp1 := mappingsToMatrix fwd rev n m
  let R2 := st.R ++ [ipfpRk cf g1 g2 st]
  let oldL := st.Lterm
  let L2 := ipfpLnew cf g1 g2 st
  let S2 := st.S ++ [ipfpSk1 cf g1 g2 st]
  let alpha := ipfpAlphaOf cf g1 g2 st
  let beta := ipfpBetaOf cf g1 g2 st
  let flag :=
    if R2.getLastD 0 < 1/10000 then decide (eps < |alpha|)
    else decide (eps < |alpha / R2.getLastD 0|)
  match ipfpBranch alpha beta with
  | .replace =>
    ({ Xk := bkp1, S := S2, R := R2, Lterm := L2, oldLterm := oldL, k := st.k + 1 },
      flag)
  | .lineSearch =>
    let t0 := ipfpT0 alpha beta
    let Xnew := tabulate (n+1) (m+1)
      (fun i j => st.Xk i j + t0 * (bkp1 i j - st.Xk i j))
    let S3 := S2.set (st.k + 1) (st.S.getD st.k 0 - alpha ^ 2 / (4 * beta))
    let L3 := linearCostMat (nodeCostMatrix cf g1 g2) Xnew (n+1) (m+1)
    ({ Xk := Xnew, S := S3, R := R2, Lterm := L3, oldLterm := oldL, k := st.k + 1 },
      flag)

/-- The `while (k < maxIter && flag_continue)` loop of `IPFPalgorithm`. -/
def ipfpLoop (cf : EditCost) (g1 g2 : Graph) (eps : ℚ) :
    Nat → IPFPState → IPFPState
  | 0, st => st
  | fuel+1, st =>
    let r := ipfpStep cf g1 g2 eps st
    if r.2 then ipfpLoop cf g1 g2 eps fuel r.1 else r.1

/-- The initial IPFP state built by `getBetterMapping` / `IPFPalgorithm`
from a seed mapping: `X₀` is the indicator matrix of the seed,
`L₀ = ⟨C, X₀⟩`, `S₀ = ⟨D(X₀), X₀⟩ + L₀`. -/
def ipfpInit (cf : EditCost) (g1 g2 : Graph) (fwd rev : Nat → Nat) : IPFPState :=
  let n := g1.size
  let m := g2.size
  let X0 := mappingsToMatrix fwd rev n m
  let C := nodeCostMatrix cf g1 g2
  let XkD := ipfpQuadTerm cf g1 g2 (matrixPairs n m X0)
  let L0 := linearCostMat C X0 (n+1) (m+1)
  { Xk := X0, S := [linearCostMat XkD X0 (n+1) (m+1) + L0], R := [],
    Lterm := L0, oldLterm := 0, k := 0 }

/-- `IPFPalgorithm` run from a seed mapping. -/
def ipfpAlgorithm (cf : EditCost) (g1 g2 : Graph) (maxIter : Nat) (eps : ℚ)
    (fwd rev : Nat → Nat) : IPFPState :=
  ipfpLoop cf g1 g2 eps maxIter (ipfpInit cf g1 g2 fwd rev)

/-- `IPFPGraphEditDistance::getBetterMapping`: run IPFP from the seed, then
project the final (possibly non-integral) `Xk` to a mapping by solving
LSAPE on `1 - Xk`. -/
def ipfpGetBetterMapping (cf : EditCost) (g1 g2 : Graph) (maxIter : Nat)
    (eps : ℚ) (fwd rev : Nat → Nat) : (Nat → Nat) × (Nat → Nat) :=
  let st := ipfpAlgorithm cf g1 g2 maxIter eps fwd rev
  let f2 := lsapeFwd (tabulate (g1.size+1) (g2.size+1) (fun i j => 1 - st.Xk i j))
    g1.size g2.size
  (f2, revOf g1.size f2)

/-! ### The multistart driver (`MultistartRefinementGraphEditDistance.h`) -/

/-- The refinement interface consumed by the multistart driver
(`MappingRefinement`, declared outside `src/`): an in-place mapping
refiner and the mapping scorer. -/
structure Refinement where
  better : Graph → Graph → (Nat → Nat) → (Nat → Nat) → (Nat → Nat) × (Nat → Nat)
  cost : Graph → Graph → (Nat → Nat) → (Nat → Nat) → ℚ

/-- The IPFP refiner as a `Refinement` (its `mappingCost` delegates to
`GedFromMapping`). -/
def ipfpRefinement (cf : EditCost) (maxIter : Nat) (eps : ℚ) : Refinement where
  better := fun g1 g2 fwd rev => ipfpGetBetterMapping cf g1 g2 maxIter eps fwd rev
  cost := fun g1 g2 fwd rev => mappingCost cf g1 g2 fwd rev

/-- `getBestMappingFromSet`, sequential branch: decode each seed, refine it,
score it, and keep the first strict improvement (`cost = -1` sentinel). -/
def getBestMappingFromSetSeq (alg : Refinement) (g1 g2 : Graph)
    (mappings : List (List Nat)) : ℚ × (Nat → Nat) × (Nat → Nat) :=
  let n := g1.size
  let m := g2.size
  mappings.foldl (fun acc ρL =>
    let ρ := fun i => ρL.getD i 0
    let r := alg.better g1 g2 (decodeFwd m ρ) (decodeRev n m ρ)
    let ncost := alg.cost g1 g2 r.1 r.2
    if acc.1 > ncost ∨ acc.1 = -1 then (ncost, r) else acc)
    (-1, (fun _ => m), (fun _ => n))

/-- The C++ `double` → `int` conversion applied by the OpenMP branch when it
stores a seed's cost into `int* arrayCosts` (truncation toward zero). -/
def cppTrunc (q : ℚ) : ℤ := Int.tdiv q.num q.den

/-- One step of the OpenMP reduction loop
(`if (cost > arrayCosts[i] || cost == -1) { cost = arrayCosts[i]; i_optim = i; }`),
carrying `(cost, i_optim, i)`; `cost` is a `double` compared against the
stored `int`. -/
def parStep (acc : ℚ × Nat × Nat) (c : ℤ) : ℚ × Nat × Nat :=
  if acc.1 > (c : ℚ) ∨ acc.1 = -1 then ((c : ℚ), acc.2.2, acc.2.2 + 1)
  else (acc.1, acc.2.1, acc.2.2 + 1)

/-- The OpenMP reduction of `getBestMappingFromSet`: scan the stored integer
costs with the `cost = -1` sentinel and keep the index of the first strict
improvement (`i_optim`). -/
def parReduceIdx (costs : List ℤ) : Nat :=
  (costs.foldl parStep (-1, 0, 0)).2.1

/-- `getBestMappingFromSet`, OpenMP branch: refine every seed independently,
store every cost as an `int`, reduce to `i_optim`, and return that seed's
refined mapping (the driver keeps no exact cost: only the truncated array). -/
def getBestMappingFromSetPar (alg : Refinement) (g1 g2 : Graph)
    (mappings : List (List Nat)) : ℚ × (Nat → Nat) × (Nat → Nat) :=
  let n := g1.size
  let m := g2.size
  let refined := mappings.map (fun ρL =>
    let ρ := fun i => ρL.getD i 0
    alg.better g1 g2 (decodeFwd m ρ) (decodeRev n m ρ))
  let costs := refined.map (fun r => cppTrunc (alg.cost g1 g2 r.1 r.2))
  let iopt := parReduceIdx costs
  (((costs.getD iopt 0 : ℤ) : ℚ), (refined.getD iopt ((fun _ => m), (fun _ => n))))

/-- The full multistart pipeline `ged(g1, g2, K)` (§6), sequential mode:
seeds from the K-best enumeration on the star-augmented cost matrix, each
refined by IPFP, reduced by argmin over `mappingCost`. -/
def multistartGed (cf : EditCost) (g1 g2 : Graph) (maxIter : Nat) (eps : ℚ)
    (k : Int) : ℚ × (Nat → Nat) × (Nat → Nat) :=
  getBestMappingFromSetSeq (ipfpRefinement cf maxIter eps) g1 g2
    (getKOptimalMappings (computeCostMatrix cf g1 g2) g1.size g2.size k)

/-- `bipartiteGed(g1, g2)` (§6): the edit cost of the mapping returned by
the LSAPE-only bipartite approximation. -/
def bipartiteGedCost (cf : EditCost) (g1 g2 : Graph) : ℚ :=
  gedFromMapping cf g1 g2 (bipartiteMapping cf g1 g2).1 (bipartiteMapping cf g1 g2).2

/-! ### Concrete instances used in counterexamples and witnesses -/

/-- A concrete cost callback with constant positive costs. -/
def cfEx : EditCost where
  nodeSub := fun _ _ => 1
  nodeDel := fun _ => 1
  nodeIns := fun _ => 1
  edgeSub := fun _ _ => 2
  edgeDel := fun _ => 3
  edgeIns := fun _ => 4

/-- Two nodes joined by an undirected edge with attribute `7`. -/
def gU2 : Graph where
  size := 2
  nodeLab := fun _ => 0
  edge := fun i j => if (i = 0 ∧ j = 1) ∨ (i = 1 ∧ j = 0) then some 7 else none
  directed := false

/-- Two nodes joined by a single directed edge `0 → 1` with attribute `5`. -/
def gD2 : Graph where
  size := 2
  nodeLab := fun _ => 0
  edge := fun i j => if i = 0 ∧ j = 1 then some 5 else none
  directed := true

/-! ### C2: the undirected halving of the quadratic term -/

/-- C2 counterexample.  The claim says the `1/2` factor is applied to `D(X)`
exactly when both graphs are undirected and that a mixed pair is rejected at
the driver boundary.  In the code `_directed = g1->isDirected() &&
g2->isDirected()` and `QuadraticTerm` halves whenever `!_directed`, so the
mixed pair `gU2` (undirected) / `gD2` (directed) is processed, not rejected,
and its quadratic term entry `(0,0)` is halved: it equals the raw guarded
sum `3` multiplied by `1/2`. -/
theorem C2_mixed_pair_halved_counterexample :
    gU2.directed = false ∧ gD2.directed = true ∧
    quadTermEntryRaw cfEx gU2 gD2 (mappingPairs 2 2 id id) 0 0 = 3 ∧
    ipfpQuadTerm cfEx gU2 gD2 (mappingPairs 2 2 id id) 0 0 = 3 * (1/2) := by
  refine ⟨rfl, rfl, ?_, ?_⟩ <;>
    norm_num [ipfpQuadTerm, quadTermEntry, quadTermEntryRaw, mappingPairs,
      edgeCost, gU2, gD2, cfEx, List.range_succ]

/-- C2 amended: every entry of the quadratic term computed by the IPFP
driver carries the `1/2` factor exactly when the two graphs are *not both
directed* (so a mixed pair is halved like an undirected one), and the mixed
pair is processed rather than rejected. -/
theorem C2_halving_iff_not_both_directed (cf : EditCost) (g1 g2 : Graph)
    (mappings : List (Nat × Nat × ℚ)) (j l : Nat) :
    ipfpQuadTerm cf g1 g2 mappings j l =
      (if g1.directed = true ∧ g2.directed = true then
        quadTermEntryRaw cf g1 g2 mappings j l
      else quadTermEntryRaw cf g1 g2 mappings j l * (1/2)) := by
  unfold ipfpQuadTerm quadTermEntry
  cases h1 : g1.directed <;> cases h2 : g2.directed <;> simp

/-! ### C3: the IPFP iteration bookkeeping and its branch boundary -/

/-- C3 counterexample.  The claim places the state `β = 10⁻⁵` in the REPLACE
branch (`β ≤ 10⁻⁵ or t₀ ≥ 1`).  The code tests `beta < 0.00001` strictly, so
with `R = [-1/100000]`, `S = [0,0]`, `k = 0`, `L_old = 0` — which give
`α = -1/100000` and `β = 1/100000` exactly, hence `t₀ = 1/2 < 1` — the code
takes the line-search branch. -/
theorem C3_branch_boundary_counterexample :
    getAlpha [-(1/100000)] [0, 0] 0 0 = -(1/100000) ∧
    getBeta [-(1/100000)] [0, 0] 0 0 = 1/100000 ∧
    ipfpBranch (getAlpha [-(1/100000)] [0, 0] 0 0)
      (getBeta [-(1/100000)] [0, 0] 0 0) = IPFPBranch.lineSearch := by
  have ha : getAlpha [-(1/100000)] [0, 0] 0 0 = -(1/100000) := by
    norm_num [getAlpha]
  have hb : getBeta [-(1/100000)] [0, 0] 0 0 = 1/100000 := by
    norm_num [getBeta]
  refine ⟨ha, hb, ?_⟩
  rw [ha, hb]
  norm_num [ipfpBranch, ipfpT0]

/-- C3 amended.  In every IPFP iteration, `α` and `β` equal the claimed
formulas `R_k - 2·S_k + L_old` and `S_{k+1} + S_k - R_k - L_old`; the step
`t₀ = -α/(2β)` is computed only when `β > 10⁻⁶`; the iterate is replaced by
`b_{k+1}` when `β < 10⁻⁵` (strictly — not `β ≤ 10⁻⁵`) or `t₀ ≥ 1`; otherwise
the line-search update `X_{k+1} = X_k + t₀·(b_{k+1} - X_k)` is applied
together with `S_{k+1} := S_k - α²/(4β)` and `L_{k+1} := ⟨C, X_{k+1}⟩`. -/
theorem C3_iteration_amended (cf : EditCost) (g1 g2 : Graph) (eps : ℚ)
    (st : IPFPState) (hS : st.S.length = st.k + 1) :
    ipfpAlphaOf cf g1 g2 st
      = ipfpRk cf g1 g2 st - 2 * st.S.getD st.k 0 + st.Lterm ∧
    ipfpBetaOf cf g1 g2 st
      = ipfpSk1 cf g1 g2 st + st.S.getD st.k 0 - ipfpRk cf g1 g2 st - st.Lterm ∧
    (1/1000000 < ipfpBetaOf cf g1 g2 st →
      ipfpT0 (ipfpAlphaOf cf g1 g2 st) (ipfpBetaOf cf g1 g2 st)
        = -(ipfpAlphaOf cf g1 g2 st) / (2 * ipfpBetaOf cf g1 g2 st)) ∧
    (ipfpBetaOf cf g1 g2 st < 1/100000 ∨
        1 ≤ ipfpT0 (ipfpAlphaOf cf g1 g2 st) (ipfpBetaOf cf g1 g2 st) →
      (ipfpStep cf g1 g2 eps st).1.Xk
        = mappingsToMatrix (ipfpDirFwd cf g1 g2 st) (ipfpDirRev cf g1 g2 st)
            g1.size g2.size) ∧
    (¬ (ipfpBetaOf cf g1 g2 st < 1/100000 ∨
        1 ≤ ipfpT0 (ipfpAlphaOf cf g1 g2 st) (ipfpBetaOf cf g1 g2 st)) →
      (ipfpStep cf g1 g2 eps st).1.Xk
        = tabulate (g1.size+1) (g2.size+1) (fun i j =>
            st.Xk i j + ipfpT0 (ipfpAlphaOf cf g1 g2 st) (ipfpBetaOf cf g1 g2 st)
              * (mappingsToMatrix (ipfpDirFwd cf g1 g2 st) (ipfpDirRev cf g1 g2 st)
                  g1.size g2.size i j - st.Xk i j)) ∧
      (ipfpStep cf g1 g2 eps st).1.S
        = (st.S ++ [ipfpSk1 cf g1 g2 st]).set (st.k + 1)
            (st.S.getD st.k 0
              - ipfpAlphaOf cf g1 g2 st ^ 2 / (4 * ipfpBetaOf cf g1 g2 st)) ∧
      (ipfpStep cf g1 g2 eps st).1.Lterm
        = linearCostMat (nodeCostMatrix cf g1 g2) ((ipfpStep cf g1 g2 eps st).1.Xk)
            (g1.size+1) (g2.size+1)) := by
  have hk : st.k < st.S.length := by omega
  have hgetS : (st.S ++ [ipfpSk1 cf g1 g2 st]).getD st.k 0 = st.S.getD st.k 0 :=
    List.getD_append _ _ _ _ hk
  have hlastS : (st.S ++ [ipfpSk1 cf g1 g2 st]).getLastD 0 = ipfpSk1 cf g1 g2 st := by
    simp [List.getLastD_concat]
  have hlastR : (st.R ++ [ipfpRk cf g1 g2 st]).getLastD 0 = ipfpRk cf g1 g2 st := by
    simp [List.getLastD_concat]
  refine ⟨?_, ?_, ?_, ?_, ?_⟩
  · rw [ipfpAlphaOf, getAlpha, hgetS, hlastR]
  · rw [ipfpBetaOf, getBeta, hgetS, hlastS, hlastR]
  · intro h
    rw [ipfpT0, if_pos h]
  · intro h
    have hb : ipfpBranch (ipfpAlphaOf cf g1 g2 st) (ipfpBetaOf cf g1 g2 st)
        = IPFPBranch.replace := by
      rw [ipfpBranch, if_pos h]
    simp only [ipfpStep, ipfpAlphaOf, ipfpBetaOf] at hb ⊢
    rw [hb]
  · intro h
    have hb : ipfpBranch (ipfpAlphaOf cf g1 g2 st) (ipfpBetaOf cf g1 g2 st)
        = IPFPBranch.lineSearch := by
      rw [ipfpBranch, if_neg h]
    simp only [ipfpStep, ipfpAlphaOf, ipfpBetaOf] at hb ⊢
    rw [hb]
    refine ⟨rfl, rfl, rfl⟩

/-- A concrete IPFP state (the initial state of a run on `gU2` vs `gU2`
from the identity seed has `S.length = 1 = k + 1`). -/
def stEx : IPFPState :=
  { Xk := mappingsToMatrix id id 2 2, S := [0], R := [], Lterm := 0,
    oldLterm := 0, k := 0 }

/-- Witness for the C3 amended theorem at the concrete state `stEx`. -/
theorem C3_iteration_amended_witness :
    stEx.S.length = stEx.k + 1 ∧
    (ipfpAlphaOf cfEx gU2 gU2 stEx
      = ipfpRk cfEx gU2 gU2 stEx - 2 * stEx.S.getD stEx.k 0 + stEx.Lterm ∧
    ipfpBetaOf cfEx gU2 gU2 stEx
      = ipfpSk1 cfEx gU2 gU2 stEx + stEx.S.getD stEx.k 0 - ipfpRk cfEx gU2 gU2 stEx
        - stEx.Lterm ∧
    (1/1000000 < ipfpBetaOf cfEx gU2 gU2 stEx →
      ipfpT0 (ipfpAlphaOf cfEx gU2 gU2 stEx) (ipfpBetaOf cfEx gU2 gU2 stEx)
        = -(ipfpAlphaOf cfEx gU2 gU2 stEx) / (2 * ipfpBetaOf cfEx gU2 gU2 stEx)) ∧
    (ipfpBetaOf cfEx gU2 gU2 stEx < 1/100000 ∨
        1 ≤ ipfpT0 (ipfpAlphaOf cfEx gU2 gU2 stEx) (ipfpBetaOf cfEx gU2 gU2 stEx) →
      (ipfpStep cfEx gU2 gU2 1 stEx).1.Xk
        = mappingsToMatrix (ipfpDirFwd cfEx gU2 gU2 stEx) (ipfpDirRev cfEx gU2 gU2 stEx)
            gU2.size gU2.size) ∧
    (¬ (ipfpBetaOf cfEx gU2 gU2 stEx < 1/100000 ∨
        1 ≤ ipfpT0 (ipfpAlphaOf cfEx gU2 gU2 stEx) (ipfpBetaOf cfEx gU2 gU2 stEx)) →
      (ipfpStep cfEx gU2 gU2 1 stEx).1.Xk
        = tabulate (gU2.size+1) (gU2.size+1) (fun i j =>
            stEx.Xk i j
              + ipfpT0 (ipfpAlphaOf cfEx gU2 gU2 stEx) (ipfpBetaOf cfEx gU2 gU2 stEx)
              * (mappingsToMatrix (ipfpDirFwd cfEx gU2 gU2 stEx)
                  (ipfpDirRev cfEx gU2 gU2 stEx) gU2.size gU2.size i j
                  - stEx.Xk i j)) ∧
      (ipfpStep cfEx gU2 gU2 1 stEx).1.S
        = (stEx.S ++ [ipfpSk1 cfEx gU2 gU2 stEx]).set (stEx.k + 1)
            (stEx.S.getD stEx.k 0
              - ipfpAlphaOf cfEx gU2 gU2 stEx ^ 2 / (4 * ipfpBetaOf cfEx gU2 gU2 stEx)) ∧
      (ipfpStep cfEx gU2 gU2 1 stEx).1.Lterm
        = linearCostMat (nodeCostMatrix cfEx gU2 gU2)
            ((ipfpStep cfEx gU2 gU2 1 stEx).1.Xk) (gU2.size+1) (gU2.size+1))) :=
  ⟨rfl, C3_iteration_amended cfEx gU2 gU2 1 stEx rfl⟩

/-! ### C5: consistency of the decoded mapping pairs -/

/-- The §3 mapping invariants: matched nodes point at each other. -/
def ConsistentPair (n m : Nat) (fwd rev : Nat → Nat) : Prop :=
  (∀ i, i < n → fwd i < m → rev (fwd i) = i) ∧
  (∀ j, j < m → rev j < n → fwd (rev j) = j)

theorem nodupB_iff (l : List Nat) : nodupB l = true ↔ l.Nodup := by
  induction l with
  | nil => simp [nodupB]
  | cons v t ih =>
    simp [nodupB, List.nodup_cons, ih, List.elem_iff, Bool.and_eq_true, not_or]

theorem nodupB_getD_inj {l : List Nat} (h : nodupB l = true) {a b : Nat}
    (ha : a < l.length) (hb : b < l.length) (he : l.getD a 0 = l.getD b 0) :
    a = b := by
  rw [List.getD_eq_get l 0 ha, List.getD_eq_get l 0 hb] at he
  have := List.nodup_iff_injective_get.mp ((nodupB_iff l).mp h) he
  exact congrArg Fin.val this

theorem getLast?_of_all_eq {l : List Nat} {i : Nat} (hne : l ≠ [])
    (h : ∀ x ∈ l, x = i) : l.getLast? = some i := by
  induction l with
  | nil => exact absurd rfl hne
  | cons v t ih =>
    cases t with
    | nil => simpa using h v (by simp)
    | cons w s =>
      rw [List.getLast?_cons_cons]
      exact ih (by simp) (fun x hx => h x (by simp [hx]))

/-- The decode loops are consistent on any map that is injective below
`n + m` and respects the allowed cells of the lifting. -/
theorem decode_consistent_aux (n m : Nat) (ρ : Nat → Nat)
    (hinj : ∀ a b, a < n + m → b < n + m → ρ a = ρ b → a = b)
    (hall : ∀ i, i < n + m → allowedCell n m i (ρ i)) :
    ConsistentPair n m (decodeFwd m ρ) (decodeRev n m ρ) := by
  constructor
  · intro i hi hf
    -- matched `i`: `decodeFwd i = ρ i < m`
    have hρi : ¬ m ≤ ρ i := by
      by_contra hge
      simp only [decodeFwd, if_pos hge] at hf
      omega
    have hfi : decodeFwd m ρ i = ρ i := by simp [decodeFwd, hρi]
    rw [hfi]
    have hρim : ρ i < m := by omega
    -- the Y-side row `n + ρ i` cannot carry a real column
    have hyrow : ¬ ρ (n + ρ i) < m := by
      intro hylt
      have hcell := hall (n + ρ i) (by omega)
      have heq : ρ (n + ρ i) = ρ i := by
        rcases hcell with h1 | h2 | h3 | h4
        · omega
        · omega
        · omega
        · omega
      have := hinj i (n + ρ i) (by omega) (by omega) heq.symm
      omega
    rw [decodeRev, if_neg hyrow]
    have hmem : i ∈ (List.range n).filter (fun x => ρ x = ρ i) := by
      simp [List.mem_filter, List.mem_range, hi]
    have hlast : ((List.range n).filter (fun x => ρ x = ρ i)).getLast? = some i := by
      refine getLast?_of_all_eq (List.ne_nil_of_mem hmem) ?_
      intro x hx
      simp only [List.mem_filter, List.mem_range, decide_eq_true_eq] at hx
      exact hinj x i (by omega) (by omega) hx.2
    rw [hlast]
    rfl
  · intro j hj hr
    by_cases hylt : ρ (n + j) < m
    · simp only [decodeRev, if_pos hylt] at hr
      omega
    · simp only [decodeRev, if_neg hylt] at hr
      rcases hlq : ((List.range n).filter (fun x => ρ x = j)).getLast? with _ | i
      · rw [hlq, Option.getD_none] at hr
        omega
      · rw [hlq] at hr
        simp only [Option.getD_some] at hr
        have hmem := List.mem_of_mem_getLast? hlq
        simp only [List.mem_filter, List.mem_range, decide_eq_true_eq] at hmem
        have hrv : decodeRev n m ρ j = i := by
          simp only [decodeRev, if_neg hylt, hlq, Option.getD_some]
        rw [hrv, decodeFwd, if_neg (by omega)]
        exact hmem.2

/-- C5.  Every pair produced by the driver decode loops from a perfect
matching of the lifted structure (the only inputs the drivers feed them:
`rhoperm` and the enumerated sibling matchings) satisfies the §3
consistency invariants. -/
theorem C5_decoded_pair_consistent (n m : Nat) (ρL : List Nat)
    (h : liftedMatching n m ρL = true) :
    ConsistentPair n m (decodeFwd m (fun i => ρL.getD i 0))
      (decodeRev n m (fun i => ρL.getD i 0)) := by
  have hu := h
  unfold liftedMatching at hu
  simp only [Bool.and_eq_true, List.all_eq_true, decide_eq_true_eq] at hu
  have hlen : ρL.length = n + m := hu.1.1.1
  have hnd : nodupB ρL = true := hu.1.1.2
  refine decode_consistent_aux n m _ ?_ ?_
  · intro a b ha hb he
    exact nodupB_getD_inj hnd (by omega) (by omega) he
  · intro i hi
    exact hu.2 i (List.mem_range.mpr hi)

/-- Witness for C5 at the concrete matching `[0, 3, 2, 1]` (`n = m = 2`). -/
theorem C5_decoded_pair_consistent_witness :
    liftedMatching 2 2 [0, 3, 2, 1] = true ∧
    ConsistentPair 2 2 (decodeFwd 2 (fun i => [0, 3, 2, 1].getD i 0))
      (decodeRev 2 2 (fun i => [0, 3, 2, 1].getD i 0)) :=
  ⟨by decide, C5_decoded_pair_consistent 2 2 [0, 3, 2, 1] (by decide)⟩

/-! ### C6: the argmin reduction of the multistart driver -/

/-- The accumulator update shared by the sequential loop and the OpenMP
reduction: keep the incumbent unless the candidate is strictly cheaper or
the sentinel `-1` is still in place. -/
def selectStep {α : Type} (acc : ℚ × α) (p : ℚ × α) : ℚ × α :=
  if acc.1 > p.1 ∨ acc.1 = -1 then p else acc

theorem getBestSeq_eq_selectFold (alg : Refinement) (g1 g2 : Graph)
    (mappings : List (List Nat)) :
    getBestMappingFromSetSeq alg g1 g2 mappings
      = (mappings.map (fun ρL =>
          let ρ := fun i => ρL.getD i 0
          let r := alg.better g1 g2 (decodeFwd g2.size ρ) (decodeRev g1.size g2.size ρ)
          (alg.cost g1 g2 r.1 r.2, r))).foldl selectStep
          (-1, (fun _ => g2.size), (fun _ => g1.size)) := by
  unfold getBestMappingFromSetSeq selectStep
  rw [List.foldl_map]

theorem selectFold_from {α : Type} (d : ℚ × α) (t : List (ℚ × α)) (acc : ℚ × α)
    (hacc : 0 ≤ acc.1) (h : ∀ p ∈ t, 0 ≤ p.1) :
    (t.foldl selectStep acc = acc ∧ ∀ p ∈ t, acc.1 ≤ p.1) ∨
    (∃ j, j < t.length ∧ t.foldl selectStep acc = t.getD j d ∧
      (t.getD j d).1 < acc.1 ∧ (∀ p ∈ t, (t.getD j d).1 ≤ p.1) ∧
      ∀ i, i < j → (t.getD j d).1 < (t.getD i d).1) := by
  induction t generalizing acc with
  | nil => left; exact ⟨rfl, by simp⟩
  | cons p t ih =>
    have hp : 0 ≤ p.1 := h p (by simp)
    have ht : ∀ q ∈ t, 0 ≤ q.1 := fun q hq => h q (by simp [hq])
    by_cases hlt : p.1 < acc.1
    · have hstep : selectStep acc p = p := by
        unfold selectStep
        rw [if_pos (Or.inl hlt)]
      rw [List.foldl_cons, hstep]
      rcases ih p hp ht with ⟨heq, hle⟩ | ⟨j, hj, heq, hjlt, hjle, hjfirst⟩
      · right
        refine ⟨0, by simp, by simpa using heq, by simpa using hlt, ?_, ?_⟩
        · intro q hq
          rcases List.mem_cons.mp hq with hq | hq
          · simp [hq]
          · simpa using hle q hq
        · intro i hi
          omega
      · right
        refine ⟨j + 1, by simpa using hj, by simpa using heq, ?_, ?_, ?_⟩
        · simp only [List.getD_cons_succ]
          linarith
        · intro q hq
          rcases List.mem_cons.mp hq with hq | hq
          · simp only [List.getD_cons_succ, hq]
            linarith
          · simpa using hjle q hq
        · intro i hi
          match i with
          | 0 =>
            simp only [List.getD_cons_succ, List.getD_cons_zero]
            linarith
          | Nat.succ iw =>
            simp only [List.getD_cons_succ]
            exact hjfirst iw (by omega)
    · have hstep : selectStep acc p = acc := by
        unfold selectStep
        rw [if_neg]
        push_neg
        refine ⟨by linarith, ?_⟩
        intro hc
        rw [hc] at hacc
        norm_num at hacc
      rw [List.foldl_cons, hstep]
      rcases ih acc hacc ht with ⟨heq, hle⟩ | ⟨j, hj, heq, hjlt, hjle, hjfirst⟩
      · left
        refine ⟨heq, ?_⟩
        intro q hq
        rcases List.mem_cons.mp hq with hq | hq
        · rw [hq]; linarith
        · exact hle q hq
      · right
        refine ⟨j + 1, by simpa using hj, by simpa using heq,
          by simpa using hjlt, ?_, ?_⟩
        · intro q hq
          rcases List.mem_cons.mp hq with hq | hq
          · simp only [List.getD_cons_succ, hq]
            linarith
          · simpa using hjle q hq
        · intro i hi
          match i with
          | 0 =>
            simp only [List.getD_cons_succ, List.getD_cons_zero]
            linarith
          | Nat.succ iw =>
            simp only [List.getD_cons_succ]
            exact hjfirst iw (by omega)

/-- From the `-1` sentinel, the selection fold picks the first element
realizing the minimum cost: minimal among all, strictly below every
earlier element. -/
theorem selectFold_spec {α : Type} (l : List (ℚ × α)) (d : ℚ × α)
    (h : ∀ p ∈ l, 0 ≤ p.1) (hd : d.1 = -1) (hne : l ≠ []) :
    ∃ j, j < l.length ∧ l.foldl selectStep d = l.getD j d ∧
      (∀ p ∈ l, (l.getD j d).1 ≤ p.1) ∧
      ∀ i, i < j → (l.getD j d).1 < (l.getD i d).1 := by
  match l, hne with
  | p :: t, _ =>
    have hp : 0 ≤ p.1 := h p (by simp)
    have ht : ∀ q ∈ t, 0 ≤ q.1 := fun q hq => h q (by simp [hq])
    have hstep : selectStep d p = p := by
      unfold selectStep
      rw [if_pos (Or.inr hd)]
    rw [List.foldl_cons, hstep]
    rcases selectFold_from d t p hp ht with ⟨heq, hle⟩ | ⟨j, hj, heq, hjlt, hjle, hjfirst⟩
    · refine ⟨0, by simp, by simpa using heq, ?_, ?_⟩
      · intro q hq
        rcases List.mem_cons.mp hq with hq | hq
        · simp [hq]
        · simpa using hle q hq
      · intro i hi
        omega
    · refine ⟨j + 1, by simpa using hj, by simpa using heq, ?_, ?_⟩
      · intro q hq
        rcases List.mem_cons.mp hq with hq | hq
        · simp only [List.getD_cons_succ, hq]
          linarith
        · simpa using hjle q hq
      · intro i hi
        match i with
        | 0 =>
          simp only [List.getD_cons_succ, List.getD_cons_zero]
          linarith
        | Nat.succ iw =>
          simp only [List.getD_cons_succ]
          exact hjfirst iw (by omega)

/-- The refined pair a seed produces inside `getBestMappingFromSet`:
decode, then run the refinement method. -/
def seedRefined (alg : Refinement) (g1 g2 : Graph) (ρL : List Nat) :
    (Nat → Nat) × (Nat → Nat) :=
  alg.better g1 g2 (decodeFwd g2.size (fun i => ρL.getD i 0))
    (decodeRev g1.size g2.size (fun i => ρL.getD i 0))

/-- The cost a seed produces inside `getBestMappingFromSet`:
`mappingCost` of the refined pair. -/
def seedCost (alg : Refinement) (g1 g2 : Graph) (ρL : List Nat) : ℚ :=
  alg.cost g1 g2 (seedRefined alg g1 g2 ρL).1 (seedRefined alg g1 g2 ρL).2

theorem getBestSeq_eq_fold (alg : Refinement) (g1 g2 : Graph)
    (mappings : List (List Nat)) :
    getBestMappingFromSetSeq alg g1 g2 mappings
      = (mappings.map (fun ρL => (seedCost alg g1 g2 ρL, seedRefined alg g1 g2 ρL))).foldl
          selectStep (-1, (fun _ => g2.size), (fun _ => g1.size)) := by
  unfold getBestMappingFromSetSeq selectStep seedCost seedRefined
  rw [List.foldl_map]

theorem parReduce_general (costs : List ℤ) (a : ℚ) (io i0 : Nat) :
    costs.foldl parStep (a, io, i0)
      = (((costs.enumFrom i0).map (fun p => ((p.2 : ℚ), p.1))).foldl selectStep (a, io)
          |>.1,
        ((costs.enumFrom i0).map (fun p => ((p.2 : ℚ), p.1))).foldl selectStep (a, io)
          |>.2,
        i0 + costs.length) := by
  induction costs generalizing a io i0 with
  | nil => simp
  | cons c t ih =>
    rw [List.foldl_cons]
    have henum : (c :: t).enumFrom i0 = (i0, c) :: t.enumFrom (i0 + 1) := rfl
    rw [henum, List.map_cons, List.foldl_cons]
    by_cases hcond : a > (c : ℚ) ∨ a = -1
    · have hstep : parStep (a, io, i0) c = ((c : ℚ), i0, i0 + 1) := by
        unfold parStep
        rw [if_pos (by simpa using hcond)]
      have hsel : selectStep (a, io) ((c : ℚ), i0) = ((c : ℚ), i0) := by
        unfold selectStep
        rw [if_pos (by simpa using hcond)]
      rw [hstep, hsel, ih]
      simp only [List.length_cons]
      refine congrArg _ (congrArg _ ?_)
      omega
    · have hstep : parStep (a, io, i0) c = (a, io, i0 + 1) := by
        unfold parStep
        rw [if_neg (by simpa using hcond)]
      have hsel : selectStep (a, io) ((c : ℚ), i0) = (a, io) := by
        unfold selectStep
        rw [if_neg (by simpa using hcond)]
      rw [hstep, hsel, ih]
      simp only [List.length_cons]
      refine congrArg _ (congrArg _ ?_)
      omega

theorem parReduceIdx_eq_fold (costs : List ℤ) :
    parReduceIdx costs
      = ((costs.enum.map (fun p => ((p.2 : ℚ), p.1))).foldl selectStep
          ((-1 : ℚ), 0)).2 := by
  unfold parReduceIdx
  rw [parReduce_general]
  rfl

theorem getBestPar_eq (alg : Refinement) (g1 g2 : Graph)
    (mappings : List (List Nat)) :
    getBestMappingFromSetPar alg g1 g2 mappings
      = (let costs := mappings.map (fun ρL => cppTrunc (seedCost alg g1 g2 ρL))
         let iopt := parReduceIdx costs
         (((costs.getD iopt 0 : ℤ) : ℚ),
          (mappings.map (seedRefined alg g1 g2)).getD iopt
            ((fun _ => g2.size), (fun _ => g1.size)))) := by
  unfold getBestMappingFromSetPar seedCost seedRefined
  simp only [List.map_map, Function.comp_def]

/-- C6 amended.  For non-negative seed costs, the sequential branch of
`getBestMappingFromSet` returns the refined mapping of minimum exact
`mappingCost`, breaking ties by the lowest seed index; the OpenMP branch
stores each cost as a C `int` (truncation toward zero) and its reduction
returns the refined mapping whose *truncated* cost is the first minimum, so
the two modes can select different seeds. -/
theorem C6_argmin_amended (alg : Refinement) (g1 g2 : Graph)
    (mappings : List (List Nat)) (hne : mappings ≠ [])
    (hnn : ∀ ρL ∈ mappings, 0 ≤ seedCost alg g1 g2 ρL) :
    (∃ j, j < mappings.length ∧
      getBestMappingFromSetSeq alg g1 g2 mappings
        = (seedCost alg g1 g2 (mappings.getD j []),
            seedRefined alg g1 g2 (mappings.getD j [])) ∧
      (∀ i, i < mappings.length →
        seedCost alg g1 g2 (mappings.getD j []) ≤ seedCost alg g1 g2 (mappings.getD i [])) ∧
      (∀ i, i < j →
        seedCost alg g1 g2 (mappings.getD j []) < seedCost alg g1 g2 (mappings.getD i []))) ∧
    (∃ j, j < mappings.length ∧
      (getBestMappingFromSetPar alg g1 g2 mappings).2
        = seedRefined alg g1 g2 (mappings.getD j []) ∧
      (∀ i, i < mappings.length →
        cppTrunc (seedCost alg g1 g2 (mappings.getD j []))
          ≤ cppTrunc (seedCost alg g1 g2 (mappings.getD i []))) ∧
      (∀ i, i < j →
        cppTrunc (seedCost alg g1 g2 (mappings.getD j []))
          < cppTrunc (seedCost alg g1 g2 (mappings.getD i [])))) := by
  have hlen0 : 0 < mappings.length := List.length_pos.mpr hne
  constructor
  · -- sequential branch
    set l := mappings.map (fun ρL => (seedCost alg g1 g2 ρL, seedRefined alg g1 g2 ρL))
      with hl
    have hlne : l ≠ [] := by
      simp [hl, hne]
    have hlnn : ∀ p ∈ l, 0 ≤ p.1 := by
      intro p hp
      rcases List.mem_map.mp hp with ⟨ρL, hm, hpe⟩
      rw [← hpe]
      exact hnn ρL hm
    obtain ⟨j, hj, heq, hle, hfirst⟩ := selectFold_spec l
      (-1, (fun _ => g2.size), (fun _ => g1.size)) hlnn rfl hlne
    have hjm : j < mappings.length := by simpa [hl] using hj
    have hgd : ∀ i, i < mappings.length → l.getD i
        (-1, (fun _ => g2.size), (fun _ => g1.size))
        = (seedCost alg g1 g2 (mappings.getD i []),
            seedRefined alg g1 g2 (mappings.getD i [])) := by
      intro i hi
      rw [List.getD_eq_getElem _ _ (by simpa [hl] using hi),
        List.getD_eq_getElem _ _ hi]
      simp [hl]
    refine ⟨j, hjm, ?_, ?_, ?_⟩
    · rw [getBestSeq_eq_fold, ← hl, heq, hgd j hjm]
    · intro i hi
      have := hle (l.getD i (-1, (fun _ => g2.size), (fun _ => g1.size)))
        (by
          rw [List.getD_eq_getElem _ _ (by simpa [hl] using hi)]
          exact List.getElem_mem _)
      rwa [hgd j hjm, hgd i hi] at this
    · intro i hi
      have := hfirst i hi
      rwa [hgd j hjm, hgd i (by omega)] at this
  · -- OpenMP branch
    set costs := mappings.map (fun ρL => cppTrunc (seedCost alg g1 g2 ρL)) with hc
    set l := costs.enum.map (fun p => ((p.2 : ℚ), p.1)) with hl
    have hlne : l ≠ [] := by
      simp [hl, hc, hne]
    have hlnn : ∀ p ∈ l, 0 ≤ p.1 := by
      intro p hp
      rcases List.mem_map.mp hp with ⟨⟨i, c⟩, hm, hpe⟩
      have hcm : c ∈ costs := List.snd_mem_of_mem_enum hm
      rcases List.mem_map.mp (by simpa [hc] using hcm) with ⟨ρL, hρm, hce⟩
      rw [← hpe]
      have h0 : 0 ≤ c := by
        rw [← hce]
        exact Int.tdiv_nonneg (Rat.num_nonneg.mpr (hnn ρL hρm)) (by positivity)
      simpa using (by exact_mod_cast h0 : (0 : ℚ) ≤ (c : ℚ))
    obtain ⟨j, hj, heq, hle, hfirst⟩ := selectFold_spec l ((-1 : ℚ), 0) hlnn rfl hlne
    have hjc : j < costs.length := by simpa [hl] using hj
    have hjm : j < mappings.length := by simpa [hc] using hjc
    have hgd : ∀ i, i < mappings.length → l.getD i ((-1 : ℚ), 0)
        = ((cppTrunc (seedCost alg g1 g2 (mappings.getD i [])) : ℚ), i) := by
      intro i hi
      have hic : i < costs.length := by simpa [hc] using hi
      have hil : i < l.length := by simpa [hl] using hic
      rw [List.getD_eq_getElem _ _ hil, List.getD_eq_getElem _ _ hi]
      simp [hl, hc]
    have hcostsgd : ∀ i, i < mappings.length →
        costs.getD i 0 = cppTrunc (seedCost alg g1 g2 (mappings.getD i [])) := by
      intro i hi
      rw [List.getD_eq_getElem _ _ (by simpa [hc] using hi),
        List.getD_eq_getElem _ _ hi]
      simp [hc]
    have hidx : parReduceIdx costs = j := by
      rw [parReduceIdx_eq_fold, ← hl, heq, hgd j hjm]
    refine ⟨j, hjm, ?_, ?_, ?_⟩
    · rw [getBestPar_eq]
      simp only [← hc, hidx]
      rw [List.getD_eq_getElem _ _ (by simpa using hjm), List.getElem_map]
      rw [List.getD_eq_getElem _ _ hjm]
    · intro i hi
      have hstep := hle (l.getD i ((-1 : ℚ), 0))
        (by
          rw [List.getD_eq_getElem _ _ (by simpa [hl, hc] using hi)]
          exact List.getElem_mem _)
      rw [hgd j hjm, hgd i hi] at hstep
      have h2 : ((cppTrunc (seedCost alg g1 g2 (mappings.getD j [])) : ℚ))
          ≤ ((cppTrunc (seedCost alg g1 g2 (mappings.getD i [])) : ℚ)) := by
        simpa using hstep
      exact_mod_cast h2
    · intro i hi
      have hstep := hfirst i hi
      rw [hgd j hjm, hgd i (by omega)] at hstep
      have h2 : ((cppTrunc (seedCost alg g1 g2 (mappings.getD j [])) : ℚ))
          < ((cppTrunc (seedCost alg g1 g2 (mappings.getD i [])) : ℚ)) := by
        simpa using hstep
      exact_mod_cast h2

/-- A single unlabeled node with no edges. -/
def gOne : Graph where
  size := 1
  nodeLab := fun _ => 0
  edge := fun _ _ => none
  directed := false

/-- A cost callback with fractional node costs: substitution `19/10`,
deletion and insertion `3/5` each. -/
def cfC6 : EditCost where
  nodeSub := fun _ _ => 19/10
  nodeDel := fun _ => 3/5
  nodeIns := fun _ => 3/5
  edgeSub := fun _ _ => 0
  edgeDel := fun _ => 0
  edgeIns := fun _ => 0

/-- The identity refinement scored by `GedFromMapping` under `cfC6`
(a legal `MappingRefinement`: `getBetterMapping` keeps the seed). -/
def refC6 : Refinement where
  better := fun _ _ f r => (f, r)
  cost := fun g1 g2 f r => gedFromMapping cfC6 g1 g2 f r

/-- C6 counterexample.  On the seeds `[0,1]` (substitution, cost `19/10`)
and `[1,0]` (deletion + insertion, cost `6/5`), the sequential branch
returns the minimum cost `6/5`, but the OpenMP branch truncates both costs
to the `int` `1`, ties them, keeps the lower index, and returns the seed
whose true `mappingCost` is `19/10` — not the minimum.  The two execution
modes disagree. -/
theorem C6_parallel_truncation_counterexample :
    (getBestMappingFromSetSeq refC6 gOne gOne [[0, 1], [1, 0]]).1 = 6/5 ∧
    refC6.cost gOne gOne
      (getBestMappingFromSetPar refC6 gOne gOne [[0, 1], [1, 0]]).2.1
      (getBestMappingFromSetPar refC6 gOne gOne [[0, 1], [1, 0]]).2.2 = 19/10 ∧
    (6/5 : ℚ) < 19/10 := by
  have hs1 : seedCost refC6 gOne gOne [0, 1] = 19/10 := by
    norm_num [seedCost, seedRefined, refC6, gedFromMapping, gedNodeTerm,
      gedEdgeTermUndirected, decodeFwd, decodeRev, gOne, cfC6, List.range_succ]
  have hs2 : seedCost refC6 gOne gOne [1, 0] = 6/5 := by
    norm_num [seedCost, seedRefined, refC6, gedFromMapping, gedNodeTerm,
      gedEdgeTermUndirected, decodeFwd, decodeRev, gOne, cfC6, List.range_succ]
  have ht1 : cppTrunc (19/10 : ℚ) = 1 := by
    norm_num [cppTrunc]
    decide
  have ht2 : cppTrunc (6/5 : ℚ) = 1 := by
    norm_num [cppTrunc]
    decide
  refine ⟨?_, ?_, by norm_num⟩
  · rw [getBestSeq_eq_fold]
    simp only [List.map_cons, List.map_nil, hs1, hs2]
    rw [List.foldl_cons, List.foldl_cons, List.foldl_nil]
    have h1 : selectStep ((-1 : ℚ), (fun _ => gOne.size), (fun _ => gOne.size))
        (19/10, seedRefined refC6 gOne gOne [0, 1])
        = (19/10, seedRefined refC6 gOne gOne [0, 1]) := by
      unfold selectStep
      rw [if_pos (Or.inr rfl)]
    rw [h1]
    have h2 : selectStep ((19/10 : ℚ), seedRefined refC6 gOne gOne [0, 1])
        (6/5, seedRefined refC6 gOne gOne [1, 0])
        = (6/5, seedRefined refC6 gOne gOne [1, 0]) := by
      unfold selectStep
      rw [if_pos (Or.inl (by norm_num))]
    rw [h2]
  · rw [getBestPar_eq]
    simp only [List.map_cons, List.map_nil, hs1, hs2, ht1, ht2]
    have hidx : parReduceIdx [1, 1] = 0 := by
      unfold parReduceIdx parStep
      norm_num
    rw [hidx]
    simp only [List.getD_cons_zero]
    exact hs1

/-- Witness for the C6 amended theorem on the concrete seed set
`[[0,1],[1,0]]` with the identity refinement `refC6`. -/
theorem C6_argmin_amended_witness :
    (([[0, 1], [1, 0]] : List (List Nat)) ≠ [] ∧
      ∀ ρL ∈ ([[0, 1], [1, 0]] : List (List Nat)), 0 ≤ seedCost refC6 gOne gOne ρL) ∧
    ((∃ j, j < ([[0, 1], [1, 0]] : List (List Nat)).length ∧
      getBestMappingFromSetSeq refC6 gOne gOne [[0, 1], [1, 0]]
        = (seedCost refC6 gOne gOne (([[0, 1], [1, 0]] : List (List Nat)).getD j []),
            seedRefined refC6 gOne gOne (([[0, 1], [1, 0]] : List (List Nat)).getD j [])) ∧
      (∀ i, i < ([[0, 1], [1, 0]] : List (List Nat)).length →
        seedCost refC6 gOne gOne (([[0, 1], [1, 0]] : List (List Nat)).getD j [])
          ≤ seedCost refC6 gOne gOne (([[0, 1], [1, 0]] : List (List Nat)).getD i [])) ∧
      (∀ i, i < j →
        seedCost refC6 gOne gOne (([[0, 1], [1, 0]] : List (List Nat)).getD j [])
          < seedCost refC6 gOne gOne (([[0, 1], [1, 0]] : List (List Nat)).getD i []))) ∧
    (∃ j, j < ([[0, 1], [1, 0]] : List (List Nat)).length ∧
      (getBestMappingFromSetPar refC6 gOne gOne [[0, 1], [1, 0]]).2
        = seedRefined refC6 gOne gOne (([[0, 1], [1, 0]] : List (List Nat)).getD j []) ∧
      (∀ i, i < ([[0, 1], [1, 0]] : List (List Nat)).length →
        cppTrunc (seedCost refC6 gOne gOne (([[0, 1], [1, 0]] : List (List Nat)).getD j []))
          ≤ cppTrunc (seedCost refC6 gOne gOne (([[0, 1], [1, 0]] : List (List Nat)).getD i []))) ∧
      (∀ i, i < j →
        cppTrunc (seedCost refC6 gOne gOne (([[0, 1], [1, 0]] : List (List Nat)).getD j []))
          < cppTrunc (seedCost refC6 gOne gOne (([[0, 1], [1, 0]] : List (List Nat)).getD i []))))) := by
  have hs1 : seedCost refC6 gOne gOne [0, 1] = 19/10 := by
    norm_num [seedCost, seedRefined, refC6, gedFromMapping, gedNodeTerm,
      gedEdgeTermUndirected, decodeFwd, decodeRev, gOne, cfC6, List.range_succ]
  have hs2 : seedCost refC6 gOne gOne [1, 0] = 6/5 := by
    norm_num [seedCost, seedRefined, refC6, gedFromMapping, gedNodeTerm,
      gedEdgeTermUndirected, decodeFwd, decodeRev, gOne, cfC6, List.range_succ]
  have hnn : ∀ ρL ∈ ([[0, 1], [1, 0]] : List (List Nat)),
      0 ≤ seedCost refC6 gOne gOne ρL := by
    intro ρL hρ
    rcases List.mem_cons.mp hρ with hρ | hρ
    · rw [hρ, hs1]; norm_num
    · rcases List.mem_cons.mp hρ with hρ | hρ
      · rw [hρ, hs2]; norm_num
      · simp at hρ
  exact ⟨⟨by simp, hnn⟩,
    C6_argmin_amended refC6 gOne gOne [[0, 1], [1, 0]] (by simp) hnn⟩

/-! ### C9 / C10: behaviour of `getKOptimalMappings` for every K -/

/-- A `(1+1) × (1+1)` LSAPE matrix with a unique optimal solution
(substitute, cost 1). -/
def CexC9 : Nat → Nat → ℚ := fun i j =>
  if i = 0 ∧ j = 0 then 1
  else if i = 0 ∧ j = 1 then 5
  else if i = 1 ∧ j = 0 then 5
  else 0

/-- The `getD` entries of `rhoperm` on the X side. -/
theorem rhoperm_getD_lt (n m : Nat) (fwd rev : Nat → Nat) (i : Nat) (hi : i < n) :
    (rhoperm n m fwd rev).getD i 0 = if fwd i < m then fwd i else i + m := by
  unfold rhoperm
  rw [List.getD_append _ _ _ _ (by simpa using hi)]
  rw [List.getD_eq_getElem _ _ (by simpa using hi)]
  simp

/-- C9 counterexample.  With `K = 0` no budget error is raised: the
enumeration returns the baseline seed `rhoperm = [0, 1]` and the driver
produces the result `1` (the node substitution cost), so a result *is*
produced for `K ≤ 0`. -/
theorem C9_no_budget_error_counterexample :
    getKOptimalMappings CexC9 1 1 0 = [[0, 1]] ∧
    (computeOptimalMapping cfEx gOne gOne CexC9 0).1 = 1 := by
  have hsolve : hungarianLSAPE CexC9 1 1 = [0] := by
    norm_num [hungarianLSAPE, allSeqs, argminFirst, validLsapeSeq, nodupB,
      lsapeSeqCost, CexC9, List.range_succ, List.filter]
  have hfwd : lsapeFwd CexC9 1 1 = fun i => [0].getD i 1 := by
    unfold lsapeFwd
    rw [hsolve]
  have hρ0 : rhoperm 1 1 (lsapeFwd CexC9 1 1) (revOf 1 (lsapeFwd CexC9 1 1))
      = [0, 1] := by
    rw [hfwd]
    norm_num [rhoperm, ysideList, revOf, advanceEps, List.range_succ, List.find?]
  have hK : getKOptimalMappings CexC9 1 1 0 = [[0, 1]] := by
    simp only [getKOptimalMappings, enumPerfectMatchings]
    rw [hρ0]
    norm_num
  refine ⟨hK, ?_⟩
  simp only [computeOptimalMapping, gOne]
  rw [hK]
  norm_num [decodeFwd, decodeRev, gedFromMapping, gedNodeTerm,
    gedEdgeTermUndirected, mappedEdge, edgeCost, cfEx, List.range_succ,
    List.find?, List.foldl]

/-- C9 amended.  `K ≤ 0` raises no error of any kind: `getKOptimalMappings`
still returns a list headed by the LSAPE baseline `rhoperm` (for `K = 0` it
is exactly the baseline; `K = -1` enumerates all sibling matchings), and
the driver evaluates it and produces a result. -/
theorem C9_k_nonpositive_amended (C : Nat → Nat → ℚ) (n m : Nat) (k : Int)
    (hk : k ≤ 0) :
    getKOptimalMappings C n m k ≠ [] ∧
    (getKOptimalMappings C n m k).head?
      = some (rhoperm n m (lsapeFwd C n m) (revOf n (lsapeFwd C n m))) ∧
    (k = 0 → getKOptimalMappings C n m k
      = [rhoperm n m (lsapeFwd C n m) (revOf n (lsapeFwd C n m))]) := by
  refine ⟨by simp [getKOptimalMappings], by simp [getKOptimalMappings], ?_⟩
  intro h0
  subst h0
  unfold getKOptimalMappings enumPerfectMatchings
  norm_num

/-- Witness for the C9 amended theorem at `CexC9`, `n = m = 1`, `K = 0`. -/
theorem C9_k_nonpositive_amended_witness :
    (0 : Int) ≤ 0 ∧
    (getKOptimalMappings CexC9 1 1 0 ≠ [] ∧
    (getKOptimalMappings CexC9 1 1 0).head?
      = some (rhoperm 1 1 (lsapeFwd CexC9 1 1) (revOf 1 (lsapeFwd CexC9 1 1))) ∧
    ((0 : Int) = 0 → getKOptimalMappings CexC9 1 1 0
      = [rhoperm 1 1 (lsapeFwd CexC9 1 1) (revOf 1 (lsapeFwd CexC9 1 1))])) :=
  ⟨le_refl 0, C9_k_nonpositive_amended CexC9 1 1 0 (le_refl 0)⟩

/-- C10.  For every cost matrix and every `k` (including `k ≤ 0` and
`k = -1`), `getKOptimalMappings` returns a non-empty list whose first
element is `rhoperm` decoded from the initial `hungarianLSAPE` solution;
on the X side every matched row `i` keeps its column and every deleted row
`i` is assigned to column `m + i`. -/
theorem C10_first_seed_is_baseline (C : Nat → Nat → ℚ) (n m : Nat) (k : Int) :
    getKOptimalMappings C n m k ≠ [] ∧
    (getKOptimalMappings C n m k).head?
      = some (rhoperm n m (lsapeFwd C n m) (revOf n (lsapeFwd C n m))) ∧
    (∀ i, i < n →
      (m ≤ lsapeFwd C n m i →
        (rhoperm n m (lsapeFwd C n m) (revOf n (lsapeFwd C n m))).getD i 0 = i + m) ∧
      (lsapeFwd C n m i < m →
        (rhoperm n m (lsapeFwd C n m) (revOf n (lsapeFwd C n m))).getD i 0
          = lsapeFwd C n m i)) := by
  refine ⟨by simp [getKOptimalMappings], by simp [getKOptimalMappings], ?_⟩
  intro i hi
  constructor
  · intro hdel
    rw [rhoperm_getD_lt n m _ _ i hi, if_neg (by omega)]
  · intro hsub
    rw [rhoperm_getD_lt n m _ _ i hi, if_pos hsub]

/-- Witness for C10 at `CexC9`, `n = m = 1`, `k = -1`. -/
theorem C10_first_seed_is_baseline_witness :
    getKOptimalMappings CexC9 1 1 (-1) ≠ [] ∧
    (getKOptimalMappings CexC9 1 1 (-1)).head?
      = some (rhoperm 1 1 (lsapeFwd CexC9 1 1) (revOf 1 (lsapeFwd CexC9 1 1))) ∧
    (∀ i, i < 1 →
      (1 ≤ lsapeFwd CexC9 1 1 i →
        (rhoperm 1 1 (lsapeFwd CexC9 1 1) (revOf 1 (lsapeFwd CexC9 1 1))).getD i 0
          = i + 1) ∧
      (lsapeFwd CexC9 1 1 i < 1 →
        (rhoperm 1 1 (lsapeFwd CexC9 1 1) (revOf 1 (lsapeFwd CexC9 1 1))).getD i 0
          = lsapeFwd CexC9 1 1 i)) :=
  C10_first_seed_is_baseline CexC9 1 1 (-1)

/-! ### C4: structure of the K-best seed list -/

theorem allSeqs_mem_iff (n m : Nat) (s : List Nat) :
    s ∈ allSeqs n m ↔ s.length = n ∧ ∀ v ∈ s, v ≤ m := by
  induction n generalizing s with
  | zero =>
    simp only [allSeqs, List.mem_singleton]
    constructor
    · rintro rfl
      simp
    · rintro ⟨hl, _⟩
      exact List.eq_nil_of_length_eq_zero hl
  | succ n ih =>
    simp only [allSeqs, List.mem_flatMap, List.mem_map, List.mem_range]
    constructor
    · rintro ⟨v, hv, t, ht, rfl⟩
      rcases (ih t).mp ht with ⟨hl, hb⟩
      refine ⟨by simp [hl], ?_⟩
      intro w hw
      rcases List.mem_cons.mp hw with hw | hw
      · omega
      · exact hb w hw
    · rintro ⟨hl, hb⟩
      match s, hl with
      | v :: t, hl =>
        refine ⟨v, by have := hb v (by simp); omega, t, ?_, rfl⟩
        exact (ih t).mpr ⟨by simpa using hl, fun w hw => hb w (by simp [hw])⟩

theorem allSeqs_nodup (n m : Nat) : (allSeqs n m).Nodup := by
  induction n with
  | zero => simp [allSeqs]
  | succ n ih =>
    unfold allSeqs
    refine List.nodup_flatMap.mpr ⟨?_, ?_⟩
    · intro v _
      exact List.Nodup.map (fun a b h => by injection h) ih
    · refine List.Pairwise.imp_of_mem ?_ (List.nodup_range _)
      intro v w _ _ hvw
      intro s hs hs'
      rcases List.mem_map.mp hs with ⟨a, _, rfl⟩
      rcases List.mem_map.mp hs' with ⟨b, _, he⟩
      injection he with h1 _
      exact hvw h1.symm

theorem argminFirst_spec {α : Type} (cost : α → ℚ) (l : List α) (hne : l ≠ []) :
    ∃ y, argminFirst cost l = some y ∧ y ∈ l ∧ ∀ x ∈ l, cost y ≤ cost x := by
  induction l with
  | nil => exact absurd rfl hne
  | cons x t ih =>
    by_cases hte : t = []
    · subst hte
      exact ⟨x, rfl, by simp, by simp⟩
    · rcases ih hte with ⟨y, hy, hym, hyle⟩
      have hred : argminFirst cost (x :: t)
          = if cost y < cost x then some y else some x := by
        unfold argminFirst
        rw [hy]
      rw [hred]
      by_cases hc : cost y < cost x
      · rw [if_pos hc]
        refine ⟨y, rfl, by simp [hym], ?_⟩
        intro z hz
        rcases List.mem_cons.mp hz with hz | hz
        · rw [hz]; linarith
        · exact hyle z hz
      · rw [if_neg hc]
        refine ⟨x, rfl, by simp, ?_⟩
        intro z hz
        rcases List.mem_cons.mp hz with hz | hz
        · rw [hz]
        · have := hyle z hz
          linarith

/-- The solver's candidate pool always contains the all-ε sequence, so the
modelled solver returns a member of the pool. -/
theorem hungarianLSAPE_mem (C : Nat → Nat → ℚ) (n m : Nat) :
    hungarianLSAPE C n m ∈ (allSeqs n m).filter (validLsapeSeq m) ∧
    ∀ s ∈ (allSeqs n m).filter (validLsapeSeq m),
      lsapeSeqCost C n m (hungarianLSAPE C n m) ≤ lsapeSeqCost C n m s := by
  have hrep : List.replicate n m ∈ (allSeqs n m).filter (validLsapeSeq m) := by
    rw [List.mem_filter]
    constructor
    · rw [allSeqs_mem_iff]
      constructor
      · simp
      · intro v hv
        rw [List.eq_of_mem_replicate hv]
    · unfold validLsapeSeq
      have : (List.replicate n m).filter (fun v => decide (v < m)) = [] := by
        apply List.filter_eq_nil_iff.mpr
        intro v hv
        rw [List.eq_of_mem_replicate hv]
        simp
      rw [this]
      rfl
  have hne : (allSeqs n m).filter (validLsapeSeq m) ≠ [] :=
    List.ne_nil_of_mem hrep
  rcases argminFirst_spec (lsapeSeqCost C n m) _ hne with ⟨y, hy, hym, hyle⟩
  unfold hungarianLSAPE
  rw [hy]
  exact ⟨hym, hyle⟩

/-- `filter`-level distinctness transfers to a pairwise guard on the whole
list. -/
theorem pairwise_of_filter_nodup {l : List Nat} {p : Nat → Bool}
    (h : (l.filter p).Nodup) :
    l.Pairwise (fun a b => p a = true → p b = true → a ≠ b) := by
  induction l with
  | nil => simp
  | cons v t ih =>
    by_cases hv : p v = true
    · rw [List.filter_cons_of_pos hv] at h
      rcases List.nodup_cons.mp h with ⟨hnm, hnd⟩
      refine List.pairwise_cons.mpr ⟨?_, ih hnd⟩
      intro b hb _ hpb hvb
      exact hnm (by rw [hvb]; exact List.mem_filter.mpr ⟨hb, hpb⟩)
    · rw [List.filter_cons_of_neg hv] at h
      refine List.pairwise_cons.mpr ⟨?_, ih h⟩
      intro b _ hpv
      exact absurd hpv hv

/-- The real (non-ε) values of the solver's forward sequence are pairwise
distinct: the modelled solver is injective on matched rows. -/
theorem lsapeFwd_inj (C : Nat → Nat → ℚ) (n m : Nat) :
    ∀ i i', i < n → i' < n → lsapeFwd C n m i < m →
      lsapeFwd C n m i = lsapeFwd C n m i' → i = i' := by
  intro i i' hi hi' him he
  by_contra hne
  rcases hungarianLSAPE_mem C n m with ⟨hmem, _⟩
  rcases List.mem_filter.mp hmem with ⟨hseq, hvalid⟩
  have hlen : (hungarianLSAPE C n m).length = n :=
    ((allSeqs_mem_iff n m _).mp hseq).1
  have hpw := pairwise_of_filter_nodup
    ((nodupB_iff _).mp (by simpa [validLsapeSeq] using hvalid))
  rw [List.pairwise_iff_get] at hpw
  have hfg : ∀ j (hj : j < n),
      lsapeFwd C n m j = (hungarianLSAPE C n m).get ⟨j, by omega⟩ := by
    intro j hj
    unfold lsapeFwd
    exact List.getD_eq_get _ _ (by omega)
  rw [hfg i hi, hfg i' hi'] at he
  rw [hfg i hi] at him
  rcases Nat.lt_or_ge i i' with hlt | hge
  · exact hpw ⟨i, by omega⟩ ⟨i', by omega⟩ hlt (decide_eq_true him)
      (decide_eq_true (he ▸ him)) he
  · have hlt : i' < i := by omega
    exact hpw ⟨i', by omega⟩ ⟨i, by omega⟩ hlt (decide_eq_true (he ▸ him))
      (decide_eq_true him) he.symm

/-- The number of ε slots still free. -/
def freeCount (eps : Nat → Bool) (n : Nat) : Nat :=
  ((Finset.range n).filter (fun i => eps i = false)).card

theorem freeCount_update (eps : Nat → Bool) (n p : Nat) (hp : p < n)
    (hfree : eps p = false) :
    freeCount (fun i => if i = p then true else eps i) n = freeCount eps n - 1 := by
  unfold freeCount
  have hset : (Finset.range n).filter
      (fun i => (if i = p then true else eps i) = false)
      = ((Finset.range n).filter (fun i => eps i = false)).erase p := by
    ext x
    simp only [Finset.mem_filter, Finset.mem_erase, Finset.mem_range]
    constructor
    · rintro ⟨hx, hcond⟩
      by_cases hxp : x = p
      · rw [if_pos hxp] at hcond
        exact absurd hcond (by simp)
      · rw [if_neg hxp] at hcond
        exact ⟨hxp, hx, hcond⟩
    · rintro ⟨hxp, hx, hcond⟩
      exact ⟨hx, by rw [if_neg hxp]; exact hcond⟩
  rw [hset, Finset.card_erase_of_mem]
  exact Finset.mem_filter.mpr ⟨Finset.mem_range.mpr hp, hfree⟩

theorem freeCount_pos_exists (eps : Nat → Bool) (n : Nat)
    (h : 0 < freeCount eps n) : ∃ q, q < n ∧ eps q = false := by
  unfold freeCount at h
  rcases Finset.card_pos.mp h with ⟨q, hq⟩
  rcases Finset.mem_filter.mp hq with ⟨hqr, hqe⟩
  exact ⟨q, Finset.mem_range.mp hqr, hqe⟩

theorem advanceEps_spec (eps : Nat → Bool) (n : Nat) :
    ∀ fuel p, n ≤ fuel + p →
      p ≤ advanceEps eps n fuel p ∧
      (∀ i, p ≤ i → i < advanceEps eps n fuel p → eps i = true) ∧
      (advanceEps eps n fuel p < n → eps (advanceEps eps n fuel p) = false) := by
  intro fuel
  induction fuel with
  | zero =>
    intro p hp
    unfold advanceEps
    exact ⟨le_refl p, fun i h1 h2 => absurd h2 (by omega), fun h => by omega⟩
  | succ fuel ih =>
    intro p hp
    unfold advanceEps
    by_cases hc : p < n ∧ eps p = true
    · rw [if_pos hc]
      rcases ih (p + 1) (by omega) with ⟨h1, h2, h3⟩
      refine ⟨by omega, ?_, h3⟩
      intro i hi1 hi2
      rcases Nat.eq_or_lt_of_le hi1 with hi | hi
      · rw [← hi]; exact hc.2
      · exact h2 i (by omega) hi2
    · rw [if_neg hc]
      refine ⟨le_refl p, fun i h1 h2 => absurd h2 (by omega), ?_⟩
      intro hn
      push_neg at hc
      simpa using hc hn

theorem ysideList_length (n m : Nat) (rev : Nat → Nat) :
    ∀ (js : List Nat) (eps : Nat → Bool) (ptr : Nat),
      (ysideList n m rev js eps ptr).length = js.length := by
  intro js
  induction js with
  | nil => intro eps ptr; rfl
  | cons j js ih =>
    intro eps ptr
    unfold ysideList
    by_cases hc : rev j = n
    · rw [if_pos hc]
      simp [ih]
    · rw [if_neg hc]
      simp [ih]

theorem ysideList_spec (n m : Nat) (rev : Nat → Nat) :
    ∀ (js : List Nat) (eps : Nat → Bool) (ptr : Nat),
      (∀ i, i < ptr → eps i = true) →
      ((js.filter (fun j => decide (rev j ≠ n))).length ≤ freeCount eps n) →
      ∀ idx, idx < js.length →
        (rev (js.getD idx 0) = n ∧
          (ysideList n m rev js eps ptr).getD idx 0 = js.getD idx 0) ∨
        (rev (js.getD idx 0) ≠ n ∧ ∃ p, p < n ∧ eps p = false ∧
          (ysideList n m rev js eps ptr).getD idx 0 = p + m) := by
  intro js
  induction js with
  | nil => intro eps ptr _ _ idx hidx; simp at hidx
  | cons j js ih =>
    intro eps ptr hptr hfree idx hidx
    unfold ysideList
    by_cases hc : rev j = n
    · rw [if_pos hc]
      match idx with
      | 0 => exact Or.inl ⟨by simpa using hc, by simp⟩
      | Nat.succ idx =>
        have hfree' : (js.filter (fun j => decide (rev j ≠ n))).length
            ≤ freeCount eps n := by
          have : ((j :: js).filter (fun j => decide (rev j ≠ n)))
              = js.filter (fun j => decide (rev j ≠ n)) := by
            rw [List.filter_cons_of_neg (by simpa using hc)]
          rw [this] at hfree
          exact hfree
        have := ih eps ptr hptr hfree' idx (by simpa using hidx)
        simpa using this
    · rw [if_neg hc]
      have hcount : ((j :: js).filter (fun j => decide (rev j ≠ n)))
          = j :: js.filter (fun j => decide (rev j ≠ n)) := by
        rw [List.filter_cons_of_pos (by simpa using hc)]
      rw [hcount] at hfree
      simp only [List.length_cons] at hfree
      have hpos : 0 < freeCount eps n := by omega
      rcases freeCount_pos_exists eps n hpos with ⟨q, hqn, hqe⟩
      have hqptr : ptr ≤ q := by
        by_contra hlt
        have := hptr q (by omega)
        rw [this] at hqe
        exact absurd hqe (by simp)
      rcases advanceEps_spec eps n n ptr (by omega) with ⟨ha1, ha2, ha3⟩
      have hpn : advanceEps eps n n ptr ≤ q := by
        by_contra hgt
        have := ha2 q hqptr (by omega)
        rw [this] at hqe
        exact absurd hqe (by simp)
      have hplt : advanceEps eps n n ptr < n := by omega
      have hpe : eps (advanceEps eps n n ptr) = false := ha3 hplt
      match idx with
      | 0 =>
        exact Or.inr ⟨by simpa using hc,
          advanceEps eps n n ptr, hplt, hpe, by simp⟩
      | Nat.succ idx =>
        set p := advanceEps eps n n ptr with hpdef
        have hptr' : ∀ i, i < p → (fun i => if i = p then true else eps i) i
            = true := by
          intro i hi
          simp only
          rw [if_neg (by omega)]
          rcases Nat.lt_or_ge i ptr with hi2 | hi2
          · exact hptr i hi2
          · exact ha2 i hi2 hi
        have hfree' : (js.filter (fun j => decide (rev j ≠ n))).length
            ≤ freeCount (fun i => if i = p then true else eps i) n := by
          rw [freeCount_update eps n p hplt hpe]
          omega
        have := ih (fun i => if i = p then true else eps i) p hptr' hfree' idx
          (by simpa using hidx)
        rcases this with ⟨h1, h2⟩ | ⟨h1, p', hp1, hp2, hp3⟩
        · exact Or.inl ⟨by simpa using h1, by simpa using h2⟩
        · refine Or.inr ⟨by simpa using h1, p', hp1, ?_, by simpa using hp3⟩
          by_cases hpp : p' = p
          · rw [hpp] at hp2
            simp at hp2
          · simpa [hpp] using hp2

theorem ysideList_mem (n m : Nat) (rev : Nat → Nat) :
    ∀ (js : List Nat) (eps : Nat → Bool) (ptr : Nat),
      (∀ i, i < ptr → eps i = true) →
      ((js.filter (fun j => decide (rev j ≠ n))).length ≤ freeCount eps n) →
      ∀ v ∈ ysideList n m rev js eps ptr,
        (v ∈ js ∧ rev v = n) ∨ (∃ p, p < n ∧ eps p = false ∧ v = p + m) := by
  intro js
  induction js with
  | nil => intro eps ptr _ _ v hv; simp [ysideList] at hv
  | cons j js ih =>
    intro eps ptr hptr hfree v hv
    unfold ysideList at hv
    by_cases hc : rev j = n
    · rw [if_pos hc] at hv
      have hfree' : (js.filter (fun j => decide (rev j ≠ n))).length
          ≤ freeCount eps n := by
        rw [List.filter_cons_of_neg (by simpa using hc)] at hfree
        exact hfree
      rcases List.mem_cons.mp hv with hv | hv
      · exact Or.inl ⟨by simp [hv], by rw [hv]; exact hc⟩
      · rcases ih eps ptr hptr hfree' v hv with ⟨h1, h2⟩ | h
        · exact Or.inl ⟨by simp [h1], h2⟩
        · exact Or.inr h
    · rw [if_neg hc] at hv
      simp only at hv
      rw [List.filter_cons_of_pos (by simpa using hc)] at hfree
      simp only [List.length_cons] at hfree
      have hpos : 0 < freeCount eps n := by omega
      rcases freeCount_pos_exists eps n hpos with ⟨q, hqn, hqe⟩
      have hqptr : ptr ≤ q := by
        by_contra hlt
        have := hptr q (by omega)
        rw [this] at hqe
        exact absurd hqe (by simp)
      rcases advanceEps_spec eps n n ptr (by omega) with ⟨ha1, ha2, ha3⟩
      have hpn : advanceEps eps n n ptr ≤ q := by
        by_contra hgt
        have := ha2 q hqptr (by omega)
        rw [this] at hqe
        exact absurd hqe (by simp)
      have hplt : advanceEps eps n n ptr < n := by omega
      have hpe : eps (advanceEps eps n n ptr) = false := ha3 hplt
      set p := advanceEps eps n n ptr with hpdef
      rcases List.mem_cons.mp hv with hv | hv
      · exact Or.inr ⟨p, hplt, hpe, hv⟩
      · have hptr' : ∀ i, i < p → (fun i => if i = p then true else eps i) i
            = true := by
          intro i hi
          simp only
          rw [if_neg (by omega)]
          rcases Nat.lt_or_ge i ptr with hi2 | hi2
          · exact hptr i hi2
          · exact ha2 i hi2 hi
        have hfree' : (js.filter (fun j => decide (rev j ≠ n))).length
            ≤ freeCount (fun i => if i = p then true else eps i) n := by
          rw [freeCount_update eps n p hplt hpe]
          omega
        rcases ih (fun i => if i = p then true else eps i) p hptr' hfree' v hv
          with ⟨h1, h2⟩ | ⟨p', hp1, hp2, hp3⟩
        · exact Or.inl ⟨by simp [h1], h2⟩
        · refine Or.inr ⟨p', hp1, ?_, hp3⟩
          by_cases hpp : p' = p
          · rw [hpp] at hp2
            simp at hp2
          · simpa [hpp] using hp2

theorem ysideList_nodup (n m : Nat) (rev : Nat → Nat) :
    ∀ (js : List Nat) (eps : Nat → Bool) (ptr : Nat),
      (∀ i, i < ptr → eps i = true) →
      ((js.filter (fun j => decide (rev j ≠ n))).length ≤ freeCount eps n) →
      js.Nodup → (∀ j ∈ js, j < m) →
      (ysideList n m rev js eps ptr).Nodup := by
  intro js
  induction js with
  | nil => intro eps ptr _ _ _ _; simp [ysideList]
  | cons j js ih =>
    intro eps ptr hptr hfree hnd hbound
    rcases List.nodup_cons.mp hnd with ⟨hjmem, hnd'⟩
    unfold ysideList
    by_cases hc : rev j = n
    · rw [if_pos hc]
      have hfree' : (js.filter (fun j => decide (rev j ≠ n))).length
          ≤ freeCount eps n := by
        rw [List.filter_cons_of_neg (by simpa using hc)] at hfree
        exact hfree
      refine List.nodup_cons.mpr ⟨?_, ih eps ptr hptr hfree' hnd'
        (fun x hx => hbound x (by simp [hx]))⟩
      intro hmem
      rcases ysideList_mem n m rev js eps ptr hptr hfree' j hmem with
        ⟨h1, _⟩ | ⟨p, _, _, h3⟩
      · exact hjmem h1
      · have := hbound j (by simp)
        omega
    · rw [if_neg hc]
      simp only
      rw [List.filter_cons_of_pos (by simpa using hc)] at hfree
      simp only [List.length_cons] at hfree
      have hpos : 0 < freeCount eps n := by omega
      rcases freeCount_pos_exists eps n hpos with ⟨q, hqn, hqe⟩
      have hqptr : ptr ≤ q := by
        by_contra hlt
        have := hptr q (by omega)
        rw [this] at hqe
        exact absurd hqe (by simp)
      rcases advanceEps_spec eps n n ptr (by omega) with ⟨ha1, ha2, ha3⟩
      have hpn : advanceEps eps n n ptr ≤ q := by
        by_contra hgt
        have := ha2 q hqptr (by omega)
        rw [this] at hqe
        exact absurd hqe (by simp)
      have hplt : advanceEps eps n n ptr < n := by omega
      have hpe : eps (advanceEps eps n n ptr) = false := ha3 hplt
      set p := advanceEps eps n n ptr with hpdef
      have hptr' : ∀ i, i < p → (fun i => if i = p then true else eps i) i
          = true := by
        intro i hi
        simp only
        rw [if_neg (by omega)]
        rcases Nat.lt_or_ge i ptr with hi2 | hi2
        · exact hptr i hi2
        · exact ha2 i hi2 hi
      have hfree' : (js.filter (fun j => decide (rev j ≠ n))).length
          ≤ freeCount (fun i => if i = p then true else eps i) n := by
        rw [freeCount_update eps n p hplt hpe]
        omega
      refine List.nodup_cons.mpr ⟨?_, ih _ p hptr' hfree' hnd'
        (fun x hx => hbound x (by simp [hx]))⟩
      intro hmem
      rcases ysideList_mem n m rev js _ p hptr' hfree' (p + m) hmem with
        ⟨h1, _⟩ | ⟨p', hp1, hp2, hp3⟩
      · have := hbound (p + m) (by simp [h1])
        omega
      · have hppeq : p' = p := by omega
        rw [hppeq] at hp2
        simp at hp2

/-- `revOf` sends a column to a real row exactly when some matched row of
the solver's sequence points at it. -/
theorem revOf_ne_iff (n : Nat) (fwd : Nat → Nat) (j : Nat) :
    revOf n fwd j ≠ n ↔ ∃ i, i < n ∧ fwd i = j := by
  unfold revOf
  rcases hfind : (List.range n).find? (fun i => fwd i = j) with _ | i
  · simp only [Option.getD_none]
    constructor
    · intro h
      exact absurd rfl h
    · rintro ⟨i, hi, hfi⟩
      have := List.find?_eq_none.mp hfind i (List.mem_range.mpr hi)
      simp [hfi] at this
  · simp only [Option.getD_some]
    have hmem := List.mem_range.mp (List.mem_of_find?_eq_some hfind)
    have hprop := List.find?_some hfind
    simp only [decide_eq_true_eq] at hprop
    constructor
    · intro _
      exact ⟨i, hmem, hprop⟩
    · intro _
      omega

/-- The value returned by `revOf` on a matched column is a matched row. -/
theorem revOf_lt (n : Nat) (fwd : Nat → Nat) (j : Nat)
    (h : revOf n fwd j ≠ n) :
    revOf n fwd j < n ∧ fwd (revOf n fwd j) = j := by
  unfold revOf at h ⊢
  rcases hfind : (List.range n).find? (fun i => fwd i = j) with _ | i
  · rw [hfind] at h
    simp at h
  · simp only [Option.getD_some]
    have hmem := List.mem_range.mp (List.mem_of_find?_eq_some hfind)
    have hprop := List.find?_some hfind
    simp only [decide_eq_true_eq] at hprop
    exact ⟨hmem, hprop⟩

theorem rhoperm_length (n m : Nat) (fwd rev : Nat → Nat) :
    (rhoperm n m fwd rev).length = n + m := by
  unfold rhoperm
  rw [List.length_append, List.length_map, List.length_range,
    ysideList_length, List.length_range]

/-- Every value of the solver's forward map is at most `m`. -/
theorem lsapeFwd_le (C : Nat → Nat → ℚ) (n m : Nat) (i : Nat) :
    lsapeFwd C n m i ≤ m := by
  unfold lsapeFwd
  rcases hungarianLSAPE_mem C n m with ⟨hmem, _⟩
  rcases List.mem_filter.mp hmem with ⟨hseq, _⟩
  rcases (allSeqs_mem_iff n m _).mp hseq with ⟨hlen, hbound⟩
  by_cases hi : i < (hungarianLSAPE C n m).length
  · rw [List.getD_eq_get _ _ hi]
    exact hbound _ (List.get_mem _ _ _)
  · rw [List.getD_eq_default _ _ (by omega)]

/-- Initially there are at least as many free ε slots as matched columns:
the matched columns inject into the matched rows. -/
theorem initial_freeCount (C : Nat → Nat → ℚ) (n m : Nat) :
    (((List.range m).filter
        (fun j => decide (revOf n (lsapeFwd C n m) j ≠ n))).length
      ≤ freeCount (fun i => decide (m ≤ lsapeFwd C n m i)) n) := by
  have hbridge : ∀ (k : Nat) (p : Nat → Bool),
      ((List.range k).filter p).length
        = ((Finset.range k).filter (fun i => p i = true)).card := by
    intro k p
    simp [Finset.range, Finset.filter, Finset.card, Multiset.range]
  rw [hbridge]
  unfold freeCount
  set fwd := lsapeFwd C n m with hfwd
  have hsub : (Finset.range m).filter
      (fun j => decide (revOf n fwd j ≠ n) = true)
      ⊆ ((Finset.range n).filter
          (fun i => decide (m ≤ fwd i) = false)).image fwd := by
    intro j hj
    rcases Finset.mem_filter.mp hj with ⟨hjr, hjc⟩
    have hnn : revOf n fwd j ≠ n := by simpa using hjc
    rcases (revOf_ne_iff n fwd j).mp hnn with ⟨i, hi, hfi⟩
    have him : i ∈ (Finset.range n).filter
        (fun i => decide (m ≤ fwd i) = false) := by
      refine Finset.mem_filter.mpr ⟨Finset.mem_range.mpr hi, ?_⟩
      have hlt : fwd i < m := by
        rw [hfi]
        exact Finset.mem_range.mp hjr
      simp only [decide_eq_false_iff_not]
      omega
    exact Finset.mem_image.mpr ⟨i, him, hfi⟩
  have hcard := le_trans (Finset.card_le_card hsub) Finset.card_image_le
  simpa using hcard

/-- The solver's sequence contains a column exactly when some matched row
points at it. -/
theorem sol_contains_iff (C : Nat → Nat → ℚ) (n m j : Nat) :
    (hungarianLSAPE C n m).contains j = true ↔
      ∃ i, i < n ∧ lsapeFwd C n m i = j := by
  rcases hungarianLSAPE_mem C n m with ⟨hmem, _⟩
  rcases List.mem_filter.mp hmem with ⟨hseq, _⟩
  have hlen : (hungarianLSAPE C n m).length = n :=
    ((allSeqs_mem_iff n m _).mp hseq).1
  rw [List.elem_iff, List.mem_iff_getElem]
  constructor
  · rintro ⟨i, hi, he⟩
    refine ⟨i, by omega, ?_⟩
    unfold lsapeFwd
    rw [List.getD_eq_getElem _ _ hi]
    exact he
  · rintro ⟨i, hi, he⟩
    refine ⟨i, by omega, ?_⟩
    unfold lsapeFwd at he
    rw [List.getD_eq_getElem _ _ (by omega)] at he
    exact he

/-- The Y-side entries of `rhoperm`. -/
theorem rhoperm_getD_ge (n m : Nat) (fwd rev : Nat → Nat) (j : Nat) :
    (rhoperm n m fwd rev).getD (n + j) 0
      = (ysideList n m rev (List.range m) (fun i => decide (m ≤ fwd i)) 0).getD
          j 0 := by
  unfold rhoperm
  rw [List.getD_append_right _ _ _ _ (by simp)]
  simp

/-- `rhoperm` is a perfect matching of the lifted structure. -/
theorem rhoperm_liftedMatching (C : Nat → Nat → ℚ) (n m : Nat) :
    liftedMatching n m
      (rhoperm n m (lsapeFwd C n m) (revOf n (lsapeFwd C n m))) = true := by
  set fwd := lsapeFwd C n m with hfwd
  set rev := revOf n fwd with hrev
  set eps0 : Nat → Bool := fun i => decide (m ≤ fwd i) with heps0
  set ys := ysideList n m rev (List.range m) eps0 0 with hys
  set xs := (List.range n).map (fun i => if fwd i < m then fwd i else i + m)
    with hxs
  have hρ : rhoperm n m fwd rev = xs ++ ys := rfl
  have hptr0 : ∀ i, i < 0 → eps0 i = true := by omega
  have hfr := initial_freeCount C n m
  have hysmem : ∀ v ∈ ys, (v ∈ List.range m ∧ rev v = n) ∨
      (∃ p, p < n ∧ eps0 p = false ∧ v = p + m) :=
    ysideList_mem n m rev (List.range m) eps0 0 hptr0 hfr
  have hxs_nodup : xs.Nodup := by
    refine List.Nodup.map_on ?_ (List.nodup_range n)
    intro i hi i' hi' he
    rw [List.mem_range] at hi hi'
    by_cases h1 : fwd i < m
    · by_cases h2 : fwd i' < m
      · rw [if_pos h1, if_pos h2] at he
        exact lsapeFwd_inj C n m i i' hi hi' h1 he
      · rw [if_pos h1, if_neg h2] at he
        omega
    · by_cases h2 : fwd i' < m
      · rw [if_neg h1, if_pos h2] at he
        omega
      · rw [if_neg h1, if_neg h2] at he
        omega
  have hys_nodup : ys.Nodup :=
    ysideList_nodup n m rev (List.range m) eps0 0 hptr0 hfr
      (List.nodup_range m) (fun x hx => List.mem_range.mp hx)
  have hdisj : xs.Disjoint ys := by
    intro a ha hays
    rcases List.mem_map.mp ha with ⟨i, hi, hgi⟩
    rw [List.mem_range] at hi
    rcases hysmem a hays with ⟨h1, h2⟩ | ⟨p, hp1, hp2, hp3⟩
    · rw [List.mem_range] at h1
      by_cases hm : fwd i < m
      · rw [if_pos hm] at hgi
        have : rev (fwd i) ≠ n := (revOf_ne_iff n fwd (fwd i)).mpr ⟨i, hi, rfl⟩
        rw [hgi] at this
        exact this h2
      · rw [if_neg hm] at hgi
        omega
    · by_cases hm : fwd i < m
      · rw [if_pos hm] at hgi
        omega
      · rw [if_neg hm] at hgi
        have hpi : p = i := by omega
        rw [hpi] at hp2
        rw [heps0] at hp2
        simp only [decide_eq_false_iff_not] at hp2
        omega
  have hlen : (rhoperm n m fwd rev).length = n + m := rhoperm_length n m fwd rev
  rw [hρ] at hlen
  simp only [liftedMatching, Bool.and_eq_true, decide_eq_true_eq,
    List.all_eq_true]
  refine ⟨⟨⟨?_, ?_⟩, ?_⟩, ?_⟩
  · exact rhoperm_length n m fwd rev
  · rw [nodupB_iff, hρ]
    exact List.nodup_append.mpr ⟨hxs_nodup, hys_nodup, hdisj⟩
  · intro v hv
    rw [hρ] at hv
    rcases List.mem_append.mp hv with hv | hv
    · rcases List.mem_map.mp hv with ⟨i, hi, hgi⟩
      rw [List.mem_range] at hi
      by_cases hm : fwd i < m
      · rw [if_pos hm] at hgi
        omega
      · rw [if_neg hm] at hgi
        omega
    · rcases hysmem v hv with ⟨h1, _⟩ | ⟨p, hp1, _, hp3⟩
      · rw [List.mem_range] at h1
        omega
      · omega
  · intro x hx
    rw [List.mem_range] at hx
    rcases Nat.lt_or_ge x n with hxn | hxn
    · rw [rhoperm_getD_lt n m fwd rev x hxn]
      by_cases hm : fwd x < m
      · rw [if_pos hm]
        exact Or.inl ⟨hxn, hm⟩
      · rw [if_neg hm]
        exact Or.inr (Or.inl ⟨hxn, by omega⟩)
    · obtain ⟨j, hj, rfl⟩ : ∃ j, j < m ∧ x = n + j := ⟨x - n, by omega, by omega⟩
      rw [rhoperm_getD_ge n m fwd rev j, ← heps0, ← hys]
      have hspec := ysideList_spec n m rev (List.range m) eps0 0 hptr0 hfr j
        (by simpa using hj)
      have hrj : (List.range m).getD j 0 = j := by
        rw [List.getD_eq_getElem _ _ (by simpa using hj)]
        simp
      rw [hrj] at hspec
      rcases hspec with ⟨_, h2⟩ | ⟨_, p, hp1, _, hp3⟩
      · rw [← hys] at h2
        rw [h2]
        exact Or.inr (Or.inr (Or.inl ⟨by omega, hj, by omega⟩))
      · rw [← hys] at hp3
        rw [hp3]
        exact Or.inr (Or.inr (Or.inr ⟨by omega, by omega⟩))

/-- The LSAP objective of `rhoperm` on the lifting equals the LSAPE
objective of the solver's solution on `C`: matched rows keep their cells,
deleted rows pay `C[i,m]` on the deletion diagonal, inserted columns pay
`C[n,j]` on the insertion diagonal, and the ε-ε block contributes `0`. -/
theorem rhoperm_cost (C : Nat → Nat → ℚ) (n m : Nat) :
    lsapSeqCost (computeCostMatrixLSAP C n m) (n + m)
      (rhoperm n m (lsapeFwd C n m) (revOf n (lsapeFwd C n m)))
      = lsapeSeqCost C n m (hungarianLSAPE C n m) := by
  set fwd := lsapeFwd C n m with hfwd
  set rev := revOf n fwd with hrev
  have hXpt : ∀ i, i < n →
      computeCostMatrixLSAP C n m i ((rhoperm n m fwd rev).getD i 0)
        = C i ((hungarianLSAPE C n m).getD i m) := by
    intro i hi
    rw [rhoperm_getD_lt n m fwd rev i hi]
    have hgd : (hungarianLSAPE C n m).getD i m = fwd i := rfl
    rw [hgd]
    by_cases hm : fwd i < m
    · rw [if_pos hm]
      unfold computeCostMatrixLSAP
      rw [if_pos ⟨hi, hm⟩]
    · rw [if_neg hm]
      have hle : fwd i ≤ m := lsapeFwd_le C n m i
      have hfm : fwd i = m := by omega
      unfold computeCostMatrixLSAP
      rw [if_neg (by omega), if_pos ⟨hi, by omega⟩, hfm]
  have hYpt : ∀ j, j < m →
      computeCostMatrixLSAP C n m (n + j) ((rhoperm n m fwd rev).getD (n + j) 0)
        = if (hungarianLSAPE C n m).contains j = true then 0 else C n j := by
    intro j hj
    rw [rhoperm_getD_ge n m fwd rev j]
    have hspec := ysideList_spec n m rev (List.range m)
      (fun i => decide (m ≤ fwd i)) 0 (by omega) (initial_freeCount C n m) j
      (by simpa using hj)
    have hrj : (List.range m).getD j 0 = j := by
      rw [List.getD_eq_getElem _ _ (by simpa using hj)]
      simp
    rw [hrj] at hspec
    rcases hspec with ⟨h1, h2⟩ | ⟨h1, p, hp1, _, hp3⟩
    · rw [h2]
      have hcont : ¬ (hungarianLSAPE C n m).contains j = true := by
        rw [sol_contains_iff]
        intro hex
        exact absurd ((revOf_ne_iff n fwd j).mpr hex) (by simpa using h1)
      rw [if_neg hcont]
      unfold computeCostMatrixLSAP
      rw [if_neg (by omega), if_neg (by omega), if_pos ⟨by omega, hj, rfl⟩]
    · rw [hp3]
      have hcont : (hungarianLSAPE C n m).contains j = true := by
        rw [sol_contains_iff]
        exact (revOf_ne_iff n fwd j).mp h1
      rw [if_pos hcont]
      unfold computeCostMatrixLSAP
      rw [if_neg (by omega), if_neg (by omega), if_neg (by omega),
        if_pos ⟨by omega, by omega⟩]
  have hsum : lsapSeqCost (computeCostMatrixLSAP C n m) (n + m)
      (rhoperm n m fwd rev)
      = (∑ i ∈ Finset.range n, C i ((hungarianLSAPE C n m).getD i m))
        + ∑ j ∈ Finset.range m,
            (if (hungarianLSAPE C n m).contains j = true then 0 else C n j) := by
    show (∑ i ∈ Finset.range (n + m),
        computeCostMatrixLSAP C n m i ((rhoperm n m fwd rev).getD i 0)) = _
    rw [Finset.sum_range_add]
    congr 1
    · exact Finset.sum_congr rfl (fun i hi => hXpt i (Finset.mem_range.mp hi))
    · exact Finset.sum_congr rfl (fun j hj => hYpt j (Finset.mem_range.mp hj))
  rw [hsum]
  rfl

/-- Membership in the lifted matching pool is a permutation property: every
column below `n + m` is hit. -/
theorem lifted_surjective (n m : Nat) (ρL : List Nat)
    (h : liftedMatching n m ρL = true) :
    ∀ v, v < n + m → ∃ r, r < n + m ∧ ρL.getD r 0 = v := by
  have hu := h
  unfold liftedMatching at hu
  simp only [Bool.and_eq_true, List.all_eq_true, decide_eq_true_eq] at hu
  have hlen : ρL.length = n + m := hu.1.1.1
  have hnd : ρL.Nodup := (nodupB_iff _).mp hu.1.1.2
  have hbound : ∀ x ∈ ρL, x < n + m := fun x hx => hu.1.2 x hx
  intro v hv
  have hsub : ρL.toFinset ⊆ Finset.range (n + m) := by
    intro x hx
    exact Finset.mem_range.mpr (hbound x (List.mem_toFinset.mp hx))
  have hcard : (Finset.range (n + m)).card ≤ ρL.toFinset.card := by
    rw [List.toFinset_card_of_nodup hnd, hlen, Finset.card_range]
  have heq : ρL.toFinset = Finset.range (n + m) :=
    Finset.eq_of_subset_of_card_le hsub hcard
  have hvmem : v ∈ ρL := by
    rw [← List.mem_toFinset, heq]
    exact Finset.mem_range.mpr hv
  rcases List.mem_iff_getElem.mp hvmem with ⟨r, hr, hgr⟩
  refine ⟨r, by omega, ?_⟩
  rw [List.getD_eq_getElem _ _ hr]
  exact hgr

theorem filter_nodup_of_pairwise {l : List Nat} {p : Nat → Bool}
    (h : l.Pairwise (fun a b => p a = true → p b = true → a ≠ b)) :
    (l.filter p).Nodup := by
  induction l with
  | nil => simp
  | cons v t ih =>
    rcases List.pairwise_cons.mp h with ⟨hv, ht⟩
    by_cases hpv : p v = true
    · rw [List.filter_cons_of_pos hpv]
      refine List.nodup_cons.mpr ⟨?_, ih ht⟩
      intro hmem
      rcases List.mem_filter.mp hmem with ⟨hmem, hpmem⟩
      exact hv v hmem hpv hpmem rfl
    · rw [List.filter_cons_of_neg hpv]
      exact ih ht

/-- Every perfect matching of the lifting costs at least the LSAPE optimum:
it decodes to a valid LSAPE assignment of equal objective. -/
theorem lifted_cost_ge_opt (C : Nat → Nat → ℚ) (n m : Nat) (ρL : List Nat)
    (h : liftedMatching n m ρL = true) :
    lsapeSeqCost C n m (hungarianLSAPE C n m)
      ≤ lsapSeqCost (computeCostMatrixLSAP C n m) (n + m) ρL := by
  have hu := h
  unfold liftedMatching at hu
  simp only [Bool.and_eq_true, List.all_eq_true, decide_eq_true_eq] at hu
  have hlen : ρL.length = n + m := hu.1.1.1
  have hnd : nodupB ρL = true := hu.1.1.2
  set ρ : Nat → Nat := fun i => ρL.getD i 0 with hρ
  have hall : ∀ i, i < n + m → allowedCell n m i (ρ i) := by
    intro i hi
    exact hu.2 i (List.mem_range.mpr hi)
  have hinj : ∀ a b, a < n + m → b < n + m → ρ a = ρ b → a = b := by
    intro a b ha hb he
    exact nodupB_getD_inj hnd (by omega) (by omega) he
  set f := (List.range n).map (fun i => if ρ i < m then ρ i else m) with hf
  have hfget : ∀ i, i < n → f.getD i m = if ρ i < m then ρ i else m := by
    intro i hi
    rw [hf, List.getD_eq_getElem _ _ (by simpa using hi)]
    simp
  have hfmem : f ∈ allSeqs n m := by
    rw [allSeqs_mem_iff]
    refine ⟨by simp [hf], ?_⟩
    intro v hv
    rcases List.mem_map.mp hv with ⟨i, _, hgi⟩
    by_cases hm : ρ i < m
    · rw [if_pos hm] at hgi
      omega
    · rw [if_neg hm] at hgi
      omega
  have hvalid : validLsapeSeq m f = true := by
    unfold validLsapeSeq
    rw [nodupB_iff]
    apply filter_nodup_of_pairwise
    rw [hf, List.pairwise_map]
    refine List.Pairwise.imp_of_mem ?_
      ((List.nodup_range n).imp (fun hab => hab))
    intro a b ha hb hab h1 h2
    rw [List.mem_range] at ha hb
    simp only [decide_eq_true_eq] at h1 h2
    intro he
    have ha' : ρ a < m := by
      by_contra hge
      rw [if_neg hge] at h1
      omega
    have hb' : ρ b < m := by
      by_contra hge
      rw [if_neg hge] at h2
      omega
    rw [if_pos ha', if_pos hb'] at he
    exact hab (hinj a b (by omega) (by omega) he)
  have hcontains : ∀ j, j < m → (f.contains j = true ↔ ∃ i, i < n ∧ ρ i = j) := by
    intro j hj
    rw [List.elem_iff, hf, List.mem_map]
    constructor
    · rintro ⟨i, hi, hgi⟩
      rw [List.mem_range] at hi
      by_cases hm : ρ i < m
      · rw [if_pos hm] at hgi
        exact ⟨i, hi, hgi⟩
      · rw [if_neg hm] at hgi
        omega
    · rintro ⟨i, hi, hgi⟩
      refine ⟨i, List.mem_range.mpr hi, ?_⟩
      rw [if_pos (by omega)]
      exact hgi
  have hcost : lsapSeqCost (computeCostMatrixLSAP C n m) (n + m) ρL
      = lsapeSeqCost C n m f := by
    have hXpt : ∀ i, i < n →
        computeCostMatrixLSAP C n m i (ρ i) = C i (f.getD i m) := by
      intro i hi
      rw [hfget i hi]
      rcases hall i (by omega) with h1 | h2 | h3 | h4
      · rw [if_pos h1.2]
        unfold computeCostMatrixLSAP
        rw [if_pos ⟨hi, h1.2⟩]
      · rw [if_neg (by omega)]
        unfold computeCostMatrixLSAP
        rw [if_neg (by omega), if_pos ⟨hi, h2.2⟩]
      · omega
      · omega
    have hYpt : ∀ j, j < m →
        computeCostMatrixLSAP C n m (n + j) (ρ (n + j))
          = if f.contains j = true then 0 else C n j := by
      intro j hj
      by_cases hylt : ρ (n + j) < m
      · have hyj : ρ (n + j) = j := by
          rcases hall (n + j) (by omega) with h1 | h2 | h3 | h4
          · omega
          · omega
          · omega
          · omega
        have hcf : ¬ f.contains j = true := by
          rw [hcontains j hj]
          rintro ⟨i, hi, hgi⟩
          have := hinj i (n + j) (by omega) (by omega) (by rw [hgi, hyj])
          omega
        rw [if_neg hcf, hyj]
        unfold computeCostMatrixLSAP
        rw [if_neg (by omega), if_neg (by omega), if_pos ⟨by omega, hj, rfl⟩]
      · have hcf : f.contains j = true := by
          rcases lifted_surjective n m ρL h j (by omega) with ⟨r, hr, hgr⟩
          have hrn : r < n := by
            by_contra hge
            obtain ⟨j', hj', rfl⟩ : ∃ j', j' < m ∧ r = n + j' :=
              ⟨r - n, by omega, by omega⟩
            have : ρ (n + j') = j := hgr
            rcases hall (n + j') (by omega) with h1 | h2 | h3 | h4
            · omega
            · omega
            · have hjj : j' = j := by omega
              rw [hjj] at this
              omega
            · omega
          rw [hcontains j hj]
          exact ⟨r, hrn, hgr⟩
        rw [if_pos hcf]
        rcases hall (n + j) (by omega) with h1 | h2 | h3 | h4
        · omega
        · omega
        · omega
        · unfold computeCostMatrixLSAP
          rw [if_neg (by omega), if_neg (by omega), if_neg (by omega),
            if_pos ⟨by omega, by omega⟩]
    have hsum : lsapSeqCost (computeCostMatrixLSAP C n m) (n + m) ρL
        = (∑ i ∈ Finset.range n, C i (f.getD i m))
          + ∑ j ∈ Finset.range m, (if f.contains j = true then 0 else C n j) := by
      show (∑ i ∈ Finset.range (n + m),
          computeCostMatrixLSAP C n m i (ρL.getD i 0)) = _
      rw [Finset.sum_range_add]
      congr 1
      · exact Finset.sum_congr rfl (fun i hi => hXpt i (Finset.mem_range.mp hi))
      · exact Finset.sum_congr rfl (fun j hj => hYpt j (Finset.mem_range.mp hj))
    rw [hsum]
    rfl
  rw [hcost]
  exact (hungarianLSAPE_mem C n m).2 f (List.mem_filter.mpr ⟨hfmem, hvalid⟩)

/-- The optimal LSAP value of the lifting is the cost of the initial
solution `rhoperm`. -/
theorem lsapOpt_eq_rhoperm_cost (C : Nat → Nat → ℚ) (n m : Nat) :
    lsapOptCost (computeCostMatrixLSAP C n m) n m
      = lsapSeqCost (computeCostMatrixLSAP C n m) (n + m)
          (rhoperm n m (lsapeFwd C n m) (revOf n (lsapeFwd C n m))) := by
  have hρmem : rhoperm n m (lsapeFwd C n m) (revOf n (lsapeFwd C n m))
      ∈ allLiftedMatchings n m := by
    refine List.mem_filter.mpr ⟨?_, rhoperm_liftedMatching C n m⟩
    rw [allSeqs_mem_iff]
    refine ⟨rhoperm_length n m _ _, ?_⟩
    intro v hv
    have hu := rhoperm_liftedMatching C n m
    unfold liftedMatching at hu
    simp only [Bool.and_eq_true, List.all_eq_true, decide_eq_true_eq] at hu
    have := hu.1.2 v hv
    omega
  have hne : allLiftedMatchings n m ≠ [] := List.ne_nil_of_mem hρmem
  rcases argminFirst_spec
    (lsapSeqCost (computeCostMatrixLSAP C n m) (n + m)) _ hne with
    ⟨y, hy, hym, hyle⟩
  have hylift : liftedMatching n m y = true := (List.mem_filter.mp hym).2
  unfold lsapOptCost
  rw [hy]
  simp only [Option.map_some', Option.getD_some]
  apply le_antisymm
  · exact hyle _ hρmem
  · rw [rhoperm_cost]
    exact lifted_cost_ge_opt C n m y hylift

/-- A `(1+1) × (1+1)` LSAPE matrix whose substitution cost equals the
removal-plus-insertion cost, so the lifting has two optimal matchings. -/
def CexC4 : Nat → Nat → ℚ := fun i j =>
  if i = 0 ∧ j = 0 then 2
  else if i = 0 ∧ j = 1 then 1
  else if i = 1 ∧ j = 0 then 1
  else 0

/-- C4 counterexample.  On `CexC4` with `K = 1` the list returned by
`getKOptimalMappings` has two elements — the baseline LSAPE solution plus
one enumerated sibling — not "at most `K = 1`": the enumerator's budget
`k` counts only the *additional* matchings, and the initial solution is
pushed on top of them. -/
theorem C4_at_most_k_counterexample :
    (getKOptimalMappings CexC4 1 1 1).length = 2 := by
  have hsolve : hungarianLSAPE CexC4 1 1 = [0] := by
    norm_num [hungarianLSAPE, allSeqs, argminFirst, validLsapeSeq, nodupB,
      lsapeSeqCost, CexC4, List.range_succ, List.filter]
  have hfwd : lsapeFwd CexC4 1 1 = fun i => [0].getD i 1 := by
    unfold lsapeFwd
    rw [hsolve]
  have hρ0 : rhoperm 1 1 (lsapeFwd CexC4 1 1) (revOf 1 (lsapeFwd CexC4 1 1))
      = [0, 1] := by
    rw [hfwd]
    norm_num [rhoperm, ysideList, revOf, advanceEps, List.range_succ, List.find?]
  simp only [getKOptimalMappings, enumPerfectMatchings]
  rw [hρ0]
  norm_num [allLiftedMatchings, allSeqs, liftedMatching, nodupB, allowedCell,
    lsapOptCost, argminFirst, lsapSeqCost, computeCostMatrixLSAP, CexC4,
    List.range_succ, List.filter]

/-- C4 (amended).  For every `K ≥ 0` the list returned by
`getKOptimalMappings` has at most `K + 1` elements (the LSAPE baseline plus
up to `K` enumerated siblings — not at most `K`); no mapping appears twice;
and every element attains the optimal LSAP value of the lifted matrix. -/
theorem C4_kbest_amended (C : Nat → Nat → ℚ) (n m : Nat) (k : Int)
    (hk : 0 ≤ k) :
    (getKOptimalMappings C n m k).length ≤ k.toNat + 1 ∧
    (getKOptimalMappings C n m k).Nodup ∧
    ∀ ρL ∈ getKOptimalMappings C n m k,
      lsapSeqCost (computeCostMatrixLSAP C n m) (n + m) ρL
        = lsapOptCost (computeCostMatrixLSAP C n m) n m := by
  set CL := computeCostMatrixLSAP C n m with hCL
  set ρ0 := rhoperm n m (lsapeFwd C n m) (revOf n (lsapeFwd C n m)) with hρ0
  have hek : ¬ k < 0 := by omega
  have hsibs : enumPerfectMatchings CL n m ρ0 k
      = ((allLiftedMatchings n m).filter
          (fun ρ => lsapSeqCost CL (n + m) ρ = lsapOptCost CL n m
            && ρ ≠ ρ0)).take k.toNat := by
    unfold enumPerfectMatchings
    rw [if_neg hek]
  have hget : getKOptimalMappings C n m k
      = ρ0 :: enumPerfectMatchings CL n m ρ0 k := rfl
  refine ⟨?_, ?_, ?_⟩
  · rw [hget, hsibs]
    simp only [List.length_cons]
    have hle := List.length_take_le k.toNat
      ((allLiftedMatchings n m).filter
        (fun ρ => lsapSeqCost CL (n + m) ρ = lsapOptCost CL n m && ρ ≠ ρ0))
    omega
  · rw [hget]
    refine List.nodup_cons.mpr ⟨?_, ?_⟩
    · intro hmem
      rw [hsibs] at hmem
      rcases List.mem_filter.mp (List.mem_of_mem_take hmem) with ⟨_, hb⟩
      simp only [Bool.and_eq_true, decide_eq_true_eq] at hb
      exact hb.2 rfl
    · rw [hsibs]
      exact (List.take_sublist _ _).nodup
        (((allSeqs_nodup _ _).filter _).filter _)
  · intro ρL hmem
    rw [hget] at hmem
    rcases List.mem_cons.mp hmem with h | h
    · rw [h, hρ0, hCL]
      exact (lsapOpt_eq_rhoperm_cost C n m).symm
    · rw [hsibs] at h
      rcases List.mem_filter.mp (List.mem_of_mem_take h) with ⟨_, hb⟩
      simp only [Bool.and_eq_true, decide_eq_true_eq] at hb
      exact hb.1

/-- Concrete instantiation of the amended C4 statement. -/
theorem C4_kbest_amended_witness :
    (0 : Int) ≤ 1 ∧ (getKOptimalMappings CexC4 1 1 1).length ≤ (1 : Int).toNat + 1 :=
  ⟨by decide, (C4_kbest_amended CexC4 1 1 1 (by decide)).1⟩

/-! ### C7: the star-augmented cost matrix -/

theorem lsapeSeqCost_nonneg (C : Nat → Nat → ℚ) (n m : Nat) (f : List Nat)
    (h : ∀ i j, 0 ≤ C i j) : 0 ≤ lsapeSeqCost C n m f := by
  unfold lsapeSeqCost
  have h1 : 0 ≤ ((List.range n).map (fun i => C i (f.getD i m))).sum := by
    apply List.sum_nonneg
    intro x hx
    rcases List.mem_map.mp hx with ⟨i, _, rfl⟩
    exact h _ _
  have h2 : 0 ≤ ((List.range m).map
      (fun j => if f.contains j then 0 else C n j)).sum := by
    apply List.sum_nonneg
    intro x hx
    rcases List.mem_map.mp hx with ⟨j, _, rfl⟩
    by_cases hc : f.contains j
    · rw [if_pos hc]
    · rw [if_neg hc]
      exact h _ _
  linarith

theorem lsapeOptCost_nonneg (C : Nat → Nat → ℚ) (n m : Nat)
    (h : ∀ i j, 0 ≤ C i j) : 0 ≤ lsapeOptCost C n m :=
  lsapeSeqCost_nonneg C n m _ h

theorem localEdgeMatrix_nonneg (cf : EditCost) (g1 g2 : Graph) (v1 v2 : Nat)
    (hnn : cf.NonNeg) : ∀ i j, 0 ≤ localEdgeMatrix cf g1 g2 v1 v2 i j := by
  intro i j
  unfold localEdgeMatrix
  split_ifs
  · exact hnn.2.2.2.1 _ _
  · exact hnn.2.2.2.2.1 _
  · exact hnn.2.2.2.2.2 _
  · exact le_refl 0

/-- C7.  For non-negative cost callbacks the star-augmented matrix has the
claimed entries — substitution cell `nodeSub + ` optimal local-edge LSAPE
value, deletion column `nodeDel + Σ edgeDel`, insertion row
`nodeIns + Σ edgeIns`, zero corner — and every entry (including the
sentinel-free outside region) is non-negative. -/
theorem C7_cost_matrix_entries (cf : EditCost) (g1 g2 : Graph)
    (hnn : cf.NonNeg) :
    (∀ i, i < g1.size → ∀ j, j < g2.size →
      computeCostMatrix cf g1 g2 i j
        = cf.nodeSub (g1.nodeLab i) (g2.nodeLab j)
          + lsapeOptCost (localEdgeMatrix cf g1 g2 i j)
              (incidentEdges g1 i).length (incidentEdges g2 j).length) ∧
    (∀ i, i < g1.size →
      computeCostMatrix cf g1 g2 i g2.size
        = cf.nodeDel (g1.nodeLab i)
          + ((incidentEdges g1 i).map (fun e => cf.edgeDel e.2)).sum) ∧
    (∀ j, j < g2.size →
      computeCostMatrix cf g1 g2 g1.size j
        = cf.nodeIns (g2.nodeLab j)
          + ((incidentEdges g2 j).map (fun e => cf.edgeIns e.2)).sum) ∧
    computeCostMatrix cf g1 g2 g1.size g2.size = 0 ∧
    (∀ i j, 0 ≤ computeCostMatrix cf g1 g2 i j) := by
  refine ⟨?_, ?_, ?_, ?_, ?_⟩
  · intro i hi j hj
    unfold computeCostMatrix substitutionCost
    rw [if_pos ⟨hi, hj⟩]
    ring
  · intro i hi
    unfold computeCostMatrix deletionCost
    rw [if_neg (by omega), if_pos ⟨hi, rfl⟩]
    ring
  · intro j hj
    unfold computeCostMatrix insertionCost
    rw [if_neg (by omega), if_neg (by omega), if_pos ⟨rfl, hj⟩]
    ring
  · unfold computeCostMatrix
    rw [if_neg (by omega), if_neg (by omega), if_neg (by omega)]
  · intro i j
    unfold computeCostMatrix
    split_ifs
    · unfold substitutionCost
      exact add_nonneg
        (lsapeOptCost_nonneg _ _ _ (localEdgeMatrix_nonneg cf g1 g2 i j hnn))
        (hnn.1 _ _)
    · unfold deletionCost
      refine add_nonneg (List.sum_nonneg ?_) (hnn.2.1 _)
      intro x hx
      rcases List.mem_map.mp hx with ⟨e, _, rfl⟩
      exact hnn.2.2.2.2.1 _
    · unfold insertionCost
      refine add_nonneg (List.sum_nonneg ?_) (hnn.2.2.1 _)
      intro x hx
      rcases List.mem_map.mp hx with ⟨e, _, rfl⟩
      exact hnn.2.2.2.2.2 _
    · exact le_refl 0

/-- Concrete instantiation of C7: the callbacks `cfEx` are non-negative and
the corner entry of the star matrix on the one-node graphs is `0`. -/
theorem C7_cost_matrix_entries_witness :
    cfEx.NonNeg ∧ computeCostMatrix cfEx gOne gOne 1 1 = 0 := by
  have hnn : cfEx.NonNeg := by
    refine ⟨fun _ _ => ?_, fun _ => ?_, fun _ => ?_, fun _ _ => ?_,
      fun _ => ?_, fun _ => ?_⟩ <;> norm_num [cfEx]
  exact ⟨hnn, (C7_cost_matrix_entries cfEx gOne gOne hnn).2.2.2.1⟩

/-! ### C8: the quadratic-plus-linear cost of a binary mapping -/

/-- `getCost(G1_to_G2, G2_to_G1, n, m)` in the state the claim describes:
`XkD` just recomputed by `QuadraticTerm(g1, g2, G1_to_G2, G2_to_G1, XkD)`
and `Lterm` holding the linear cost of the same mapping on the node-only
matrix `C`, so `getCost = linearCost(XkD, G1_to_G2, G2_to_G1, n, m) + Lterm`. -/
def getCost (cf : EditCost) (g1 g2 : Graph) (fwd rev : Nat → Nat) : ℚ :=
  linearCostMap (ipfpQuadTerm cf g1 g2 (mappingPairs g1.size g2.size fwd rev))
    fwd rev g1.size g2.size
    + linearCostMap (nodeCostMatrix cf g1 g2) fwd rev g1.size g2.size

theorem sum_map_filter_list {α : Type} (l : List α) (p : α → Bool) (f : α → ℚ) :
    ((l.filter p).map f).sum = (l.map (fun x => if p x = true then f x else 0)).sum := by
  induction l with
  | nil => simp
  | cons x t ih =>
    by_cases hx : p x = true
    · rw [List.filter_cons_of_pos hx]
      simp [hx, ih]
    · rw [List.filter_cons_of_neg hx]
      simp [hx, ih]

/-- A sum over the rebuilt mapping list splits into the `G1` rows and the
inserted `G2` columns. -/
theorem mappingPairs_sum (n m : Nat) (fwd rev : Nat → Nat) (F : Nat × Nat × ℚ → ℚ) :
    ((mappingPairs n m fwd rev).map F).sum
      = (∑ i ∈ Finset.range n, F (i, fwd i, 1))
        + ∑ l ∈ Finset.range m, (if n ≤ rev l then F (rev l, l, 1) else 0) := by
  unfold mappingPairs
  rw [List.map_append, List.sum_append]
  congr 1
  · rw [List.map_map]
    rfl
  · rw [List.map_map, sum_map_filter_list]
    show (∑ l ∈ Finset.range m,
      if decide (n ≤ rev l) = true then F (rev l, l, 1) else 0) = _
    exact Finset.sum_congr rfl (fun l _ => by simp)

/-- One term of the `QuadraticTerm` accumulation for a weight-`1` mapping
cell `(i, k)` at target cell `(j, l)`. -/
def quadPairTerm (cf : EditCost) (g1 g2 : Graph) (i k j l : Nat) : ℚ :=
  if (i ≠ j ∨ g1.size ≤ i) ∧ (k ≠ l ∨ g2.size ≤ k) then
    edgeCost cf (if i < g1.size ∧ j < g1.size then g1.edge i j else none)
      (if k < g2.size ∧ l < g2.size then g2.edge k l else none)
  else 0

theorem quadRaw_mappingPairs (cf : EditCost) (g1 g2 : Graph) (n m : Nat)
    (fwd rev : Nat → Nat) (j l : Nat) :
    quadTermEntryRaw cf g1 g2 (mappingPairs n m fwd rev) j l
      = (∑ i ∈ Finset.range n, quadPairTerm cf g1 g2 i (fwd i) j l)
        + ∑ k ∈ Finset.range m,
            (if n ≤ rev k then quadPairTerm cf g1 g2 (rev k) k j l else 0) := by
  unfold quadTermEntryRaw
  rw [mappingPairs_sum]
  congr 1
  · exact Finset.sum_congr rfl (fun i _ => by simp [quadPairTerm])
  · refine Finset.sum_congr rfl (fun k _ => ?_)
    by_cases hk : n ≤ rev k
    · rw [if_pos hk, if_pos hk]
      simp [quadPairTerm]
    · rw [if_neg hk, if_neg hk]

/-- A symmetric double sum with zero diagonal is twice its strict lower
triangle. -/
theorem double_sum_symm (f : Nat → Nat → ℚ) :
    ∀ N : Nat, (∀ i, i < N → f i i = 0) →
      (∀ i j, i < N → j < N → f i j = f j i) →
      (∑ j ∈ Finset.range N, ∑ i ∈ Finset.range N, f i j)
        = 2 * ∑ j ∈ Finset.range N, ∑ i ∈ Finset.range j, f i j := by
  intro N
  induction N with
  | zero => intro _ _; simp
  | succ N ih =>
    intro hd hs
    have hL0 : (∑ j ∈ Finset.range (N+1), ∑ i ∈ Finset.range (N+1), f i j)
        = (∑ j ∈ Finset.range N, ∑ i ∈ Finset.range (N+1), f i j)
          + ∑ i ∈ Finset.range (N+1), f i N := Finset.sum_range_succ _ _
    have hL1 : (∑ j ∈ Finset.range N, ∑ i ∈ Finset.range (N+1), f i j)
        = (∑ j ∈ Finset.range N, ∑ i ∈ Finset.range N, f i j)
          + ∑ j ∈ Finset.range N, f N j := by
      rw [← Finset.sum_add_distrib]
      exact Finset.sum_congr rfl (fun j _ => Finset.sum_range_succ _ _)
    have hL2 : (∑ i ∈ Finset.range (N+1), f i N)
        = (∑ i ∈ Finset.range N, f i N) + f N N := Finset.sum_range_succ _ _
    have hR : (∑ j ∈ Finset.range (N+1), ∑ i ∈ Finset.range j, f i j)
        = (∑ j ∈ Finset.range N, ∑ i ∈ Finset.range j, f i j)
          + ∑ i ∈ Finset.range N, f i N := Finset.sum_range_succ _ _
    have hrow : (∑ j ∈ Finset.range N, f N j) = ∑ i ∈ Finset.range N, f i N :=
      Finset.sum_congr rfl (fun j hj =>
        hs N j (by omega) (by have := Finset.mem_range.mp hj; omega))
    have hdiag : f N N = 0 := hd N (by omega)
    have hih := ih (fun i hi => hd i (by omega))
      (fun i j hi hj => hs i j (by omega) (by omega))
    rw [hL0, hL1, hL2, hR, hrow, hdiag, hih]
    ring

/-- Reindexing a sum over substituted `G1` rows as a sum over substituted
`G2` columns, through a consistent mapping pair. -/
theorem sum_fwd_reindex (n m : Nat) (fwd rev : Nat → Nat)
    (hc : ConsistentPair n m fwd rev) (F : Nat → ℚ) :
    (∑ i ∈ Finset.range n, if fwd i < m then F (fwd i) else 0)
      = ∑ k ∈ Finset.range m, if rev k < n then F k else 0 := by
  rw [← Finset.sum_filter, ← Finset.sum_filter]
  refine Finset.sum_bij' (fun a _ => fwd a) (fun b _ => rev b) ?_ ?_ ?_ ?_ ?_
  · intro a ha
    rcases Finset.mem_filter.mp ha with ⟨har, hfa⟩
    have han := Finset.mem_range.mp har
    refine Finset.mem_filter.mpr ⟨Finset.mem_range.mpr hfa, ?_⟩
    rw [hc.1 a han hfa]
    exact han
  · intro b hb
    rcases Finset.mem_filter.mp hb with ⟨hbr, hrb⟩
    have hbm := Finset.mem_range.mp hbr
    refine Finset.mem_filter.mpr ⟨Finset.mem_range.mpr hrb, ?_⟩
    rw [hc.2 b hbm hrb]
    exact hbm
  · intro a ha
    rcases Finset.mem_filter.mp ha with ⟨har, hfa⟩
    exact hc.1 a (Finset.mem_range.mp har) hfa
  · intro b hb
    rcases Finset.mem_filter.mp hb with ⟨hbr, hrb⟩
    exact hc.2 b (Finset.mem_range.mp hbr) hrb
  · intro a _
    rfl

/-- The `Lterm` of a binary mapping — its linear cost on the node-only
matrix — equals the node part of `GedFromMapping`. -/
theorem linear_node_eq_gedNodeTerm (cf : EditCost) (g1 g2 : Graph)
    (fwd rev : Nat → Nat)
    (hfb : ∀ i, i < g1.size → fwd i ≤ g2.size)
    (hrb : ∀ j, j < g2.size → rev j ≤ g1.size) :
    linearCostMap (nodeCostMatrix cf g1 g2) fwd rev g1.size g2.size
      = gedNodeTerm cf g1 g2 fwd rev := by
  unfold linearCostMap gedNodeTerm
  congr 1
  · show (∑ i ∈ Finset.range g1.size, nodeCostMatrix cf g1 g2 i (fwd i)) = _
    refine Finset.sum_congr rfl (fun i hi => ?_)
    have hin := Finset.mem_range.mp hi
    unfold nodeCostMatrix
    by_cases hm : fwd i < g2.size
    · rw [if_pos ⟨hin, hm⟩, if_pos hm]
    · have hfm : fwd i = g2.size := by have := hfb i hin; omega
      rw [if_neg (by omega), if_pos ⟨hin, hfm⟩, if_neg hm]
  · show (∑ j ∈ Finset.range g2.size,
      if g1.size ≤ rev j then nodeCostMatrix cf g1 g2 (rev j) j else 0) = _
    refine Finset.sum_congr rfl (fun j hj => ?_)
    have hjm := Finset.mem_range.mp hj
    by_cases hr : g1.size ≤ rev j
    · have hrn : rev j = g1.size := by have := hrb j hjm; omega
      rw [if_pos hr, if_pos hr]
      unfold nodeCostMatrix
      rw [if_neg (by omega), if_neg (by omega), if_pos ⟨hrn, hjm⟩]
    · rw [if_neg hr, if_neg hr]

/-- The quadratic term of a binary mapping (before any halving),
contracted against the mapping itself, equals the ordered-pair edge cost of
the mapping: every ordered `G1` pair once, and every ordered `G2` pair with
an inserted endpoint once. -/
theorem quadRaw_contraction (cf : EditCost) (g1 g2 : Graph)
    (fwd rev : Nat → Nat)
    (hc : ConsistentPair g1.size g2.size fwd rev) :
    (∑ j ∈ Finset.range g1.size,
        quadTermEntryRaw cf g1 g2 (mappingPairs g1.size g2.size fwd rev) j (fwd j))
      + (∑ l ∈ Finset.range g2.size,
          (if g1.size ≤ rev l then
            quadTermEntryRaw cf g1 g2 (mappingPairs g1.size g2.size fwd rev) (rev l) l
          else 0))
      = (∑ j ∈ Finset.range g1.size, ∑ i ∈ Finset.range g1.size,
          (if i ≠ j then
            edgeCost cf (g1.edge i j) (mappedEdge g2 g2.size fwd i j) else 0))
        + ∑ l ∈ Finset.range g2.size, ∑ k ∈ Finset.range g2.size,
            (if k ≠ l ∧ (g1.size ≤ rev k ∨ g1.size ≤ rev l) then
              edgeCost cf none (g2.edge k l) else 0) := by
  -- the four blocks of the double sum over mapping cells
  have hexp1 : (∑ j ∈ Finset.range g1.size,
      quadTermEntryRaw cf g1 g2 (mappingPairs g1.size g2.size fwd rev) j (fwd j))
      = (∑ j ∈ Finset.range g1.size, ∑ i ∈ Finset.range g1.size,
          quadPairTerm cf g1 g2 i (fwd i) j (fwd j))
        + ∑ j ∈ Finset.range g1.size, ∑ k ∈ Finset.range g2.size,
            (if g1.size ≤ rev k then
              quadPairTerm cf g1 g2 (rev k) k j (fwd j) else 0) := by
    rw [← Finset.sum_add_distrib]
    exact Finset.sum_congr rfl (fun j _ =>
      quadRaw_mappingPairs cf g1 g2 g1.size g2.size fwd rev j (fwd j))
  have hexp2 : (∑ l ∈ Finset.range g2.size,
      if g1.size ≤ rev l then
        quadTermEntryRaw cf g1 g2 (mappingPairs g1.size g2.size fwd rev) (rev l) l
      else 0)
      = (∑ l ∈ Finset.range g2.size,
          (if g1.size ≤ rev l then
            (∑ i ∈ Finset.range g1.size, quadPairTerm cf g1 g2 i (fwd i) (rev l) l)
          else 0))
        + ∑ l ∈ Finset.range g2.size,
            (if g1.size ≤ rev l then
              (∑ k ∈ Finset.range g2.size,
                (if g1.size ≤ rev k then
                  quadPairTerm cf g1 g2 (rev k) k (rev l) l else 0))
            else 0) := by
    rw [← Finset.sum_add_distrib]
    refine Finset.sum_congr rfl (fun l _ => ?_)
    by_cases hil : g1.size ≤ rev l
    · rw [if_pos hil, if_pos hil, if_pos hil,
        quadRaw_mappingPairs cf g1 g2 g1.size g2.size fwd rev (rev l) l]
    · rw [if_neg hil, if_neg hil, if_neg hil, add_zero]
  -- pointwise evaluation of the quadratic pair terms on mapping cells
  have hpt1 : ∀ i j, i < g1.size → j < g1.size →
      quadPairTerm cf g1 g2 i (fwd i) j (fwd j)
        = (if i ≠ j then
            edgeCost cf (g1.edge i j) (mappedEdge g2 g2.size fwd i j) else 0) := by
    intro i j hi hj
    unfold quadPairTerm mappedEdge
    by_cases hij : i = j
    · subst hij
      rw [if_neg (by rintro ⟨h1, _⟩; rcases h1 with h | h <;> omega),
        if_neg (fun h => h rfl)]
    · have hguard2 : fwd i ≠ fwd j ∨ g2.size ≤ fwd i := by
        by_cases hfi : fwd i < g2.size
        · left
          intro he
          by_cases hfj : fwd j < g2.size
          · have h1 := hc.1 i hi hfi
            have h2 := hc.1 j hj hfj
            rw [he] at h1
            exact hij (h1.symm.trans h2)
          · rw [he] at hfi
            exact hfj hfi
        · right
          omega
      rw [if_pos ⟨Or.inl hij, hguard2⟩, if_pos hij, if_pos ⟨hi, hj⟩]
  have hptB2 : ∀ j k, j < g1.size → k < g2.size → g1.size ≤ rev k →
      quadPairTerm cf g1 g2 (rev k) k j (fwd j)
        = (if fwd j < g2.size ∧ k ≠ fwd j then
            edgeCost cf none (g2.edge k (fwd j)) else 0) := by
    intro j k hj hk hik
    unfold quadPairTerm
    by_cases hfj : fwd j < g2.size
    · by_cases hkf : k = fwd j
      · rw [if_neg (by rintro ⟨_, h2⟩; rcases h2 with h | h <;> omega),
          if_neg (by rintro ⟨_, hne⟩; exact hne hkf)]
      · rw [if_pos ⟨Or.inr hik, Or.inl hkf⟩, if_neg (by omega),
          if_pos ⟨hk, hfj⟩, if_pos ⟨hfj, hkf⟩]
    · have hrhs : (if fwd j < g2.size ∧ k ≠ fwd j then
          edgeCost cf none (g2.edge k (fwd j)) else 0) = 0 :=
        if_neg (by rintro ⟨h, _⟩; exact hfj h)
      rw [hrhs]
      by_cases hguard : (rev k ≠ j ∨ g1.size ≤ rev k) ∧ (k ≠ fwd j ∨ g2.size ≤ k)
      · rw [if_pos hguard, if_neg (by omega),
          if_neg (by rintro ⟨_, h⟩; exact hfj h)]
        rfl
      · exact if_neg hguard
  have hptB3 : ∀ i l, i < g1.size → l < g2.size → g1.size ≤ rev l →
      quadPairTerm cf g1 g2 i (fwd i) (rev l) l
        = (if fwd i < g2.size ∧ fwd i ≠ l then
            edgeCost cf none (g2.edge (fwd i) l) else 0) := by
    intro i l hi hl hil
    unfold quadPairTerm
    by_cases hfi : fwd i < g2.size
    · by_cases hfl : fwd i = l
      · rw [if_neg (by rintro ⟨_, h2⟩; rcases h2 with h | h <;> omega),
          if_neg (by rintro ⟨_, h⟩; exact h hfl)]
      · rw [if_pos ⟨Or.inl (by omega), Or.inl hfl⟩, if_neg (by omega),
          if_pos ⟨hfi, hl⟩, if_pos ⟨hfi, hfl⟩]
    · have hrhs : (if fwd i < g2.size ∧ fwd i ≠ l then
          edgeCost cf none (g2.edge (fwd i) l) else 0) = 0 :=
        if_neg (by rintro ⟨h, _⟩; exact hfi h)
      rw [hrhs]
      by_cases hguard : (i ≠ rev l ∨ g1.size ≤ i) ∧ (fwd i ≠ l ∨ g2.size ≤ fwd i)
      · rw [if_pos hguard, if_neg (by omega),
          if_neg (by rintro ⟨h, _⟩; exact hfi h)]
        rfl
      · exact if_neg hguard
  have hptB4 : ∀ k l, k < g2.size → l < g2.size → g1.size ≤ rev k → g1.size ≤ rev l →
      quadPairTerm cf g1 g2 (rev k) k (rev l) l
        = (if k ≠ l then edgeCost cf none (g2.edge k l) else 0) := by
    intro k l hk hl hik hil
    unfold quadPairTerm
    by_cases hkl : k = l
    · subst hkl
      have hrhs : (if k ≠ k then edgeCost cf none (g2.edge k k) else 0) = 0 :=
        if_neg (fun h => h rfl)
      rw [hrhs]
      exact if_neg (by rintro ⟨_, h2⟩; rcases h2 with h | h <;> omega)
    · rw [if_pos ⟨Or.inr hik, Or.inl hkl⟩, if_neg (by omega),
        if_pos ⟨hk, hl⟩, if_pos hkl]
  -- block 1: the G1-row square block, pointwise
  have hcg : (∑ j ∈ Finset.range g1.size, ∑ i ∈ Finset.range g1.size,
      quadPairTerm cf g1 g2 i (fwd i) j (fwd j))
      = ∑ j ∈ Finset.range g1.size, ∑ i ∈ Finset.range g1.size,
          (if i ≠ j then
            edgeCost cf (g1.edge i j) (mappedEdge g2 g2.size fwd i j) else 0) := by
    refine Finset.sum_congr rfl (fun j hj => Finset.sum_congr rfl (fun i hi => ?_))
    exact hpt1 i j (Finset.mem_range.mp hi) (Finset.mem_range.mp hj)
  -- block 2: inserted column against G1 rows
  have hB2 : (∑ j ∈ Finset.range g1.size, ∑ k ∈ Finset.range g2.size,
      (if g1.size ≤ rev k then quadPairTerm cf g1 g2 (rev k) k j (fwd j) else 0))
      = ∑ l ∈ Finset.range g2.size, ∑ k ∈ Finset.range g2.size,
          (if g1.size ≤ rev k ∧ rev l < g1.size ∧ k ≠ l then
            edgeCost cf none (g2.edge k l) else 0) := by
    rw [Finset.sum_comm]
    refine Eq.trans (Finset.sum_congr rfl (fun k hk => ?_)) Finset.sum_comm
    have hkm := Finset.mem_range.mp hk
    by_cases hik : g1.size ≤ rev k
    · have hstep1 : (∑ j ∈ Finset.range g1.size,
          if g1.size ≤ rev k then quadPairTerm cf g1 g2 (rev k) k j (fwd j) else 0)
          = ∑ j ∈ Finset.range g1.size,
              (if fwd j < g2.size then
                (if k ≠ fwd j then edgeCost cf none (g2.edge k (fwd j)) else 0)
              else 0) := by
        refine Finset.sum_congr rfl (fun j hj => ?_)
        rw [if_pos hik, hptB2 j k (Finset.mem_range.mp hj) hkm hik]
        by_cases hfj : fwd j < g2.size
        · by_cases hkf : k ≠ fwd j
          · rw [if_pos ⟨hfj, hkf⟩, if_pos hfj, if_pos hkf]
          · rw [if_neg (by tauto), if_pos hfj, if_neg hkf]
        · rw [if_neg (by tauto), if_neg hfj]
      rw [hstep1, sum_fwd_reindex g1.size g2.size fwd rev hc
        (fun v => if k ≠ v then edgeCost cf none (g2.edge k v) else 0)]
      refine Finset.sum_congr rfl (fun l _ => ?_)
      by_cases hrl : rev l < g1.size
      · rw [if_pos hrl]
        by_cases hkl : k ≠ l
        · rw [if_pos hkl, if_pos ⟨hik, hrl, hkl⟩]
        · rw [if_neg hkl, if_neg (by tauto)]
      · rw [if_neg hrl, if_neg (by tauto)]
    · have h0 : (∑ j ∈ Finset.range g1.size,
          if g1.size ≤ rev k then quadPairTerm cf g1 g2 (rev k) k j (fwd j) else 0)
          = 0 := Finset.sum_eq_zero (fun j _ => if_neg hik)
      rw [h0]
      exact (Finset.sum_eq_zero (fun l _ => if_neg (by tauto))).symm
  -- block 3: G1 rows against inserted column rows
  have hB3 : (∑ l ∈ Finset.range g2.size,
      (if g1.size ≤ rev l then
        (∑ i ∈ Finset.range g1.size, quadPairTerm cf g1 g2 i (fwd i) (rev l) l)
      else 0))
      = ∑ l ∈ Finset.range g2.size, ∑ k ∈ Finset.range g2.size,
          (if g1.size ≤ rev l ∧ rev k < g1.size ∧ k ≠ l then
            edgeCost cf none (g2.edge k l) else 0) := by
    refine Finset.sum_congr rfl (fun l hl => ?_)
    have hlm := Finset.mem_range.mp hl
    by_cases hil : g1.size ≤ rev l
    · rw [if_pos hil]
      have hstep1 : (∑ i ∈ Finset.range g1.size,
          quadPairTerm cf g1 g2 i (fwd i) (rev l) l)
          = ∑ i ∈ Finset.range g1.size,
              (if fwd i < g2.size then
                (if fwd i ≠ l then edgeCost cf none (g2.edge (fwd i) l) else 0)
              else 0) := by
        refine Finset.sum_congr rfl (fun i hi => ?_)
        rw [hptB3 i l (Finset.mem_range.mp hi) hlm hil]
        by_cases hfi : fwd i < g2.size
        · by_cases hfl : fwd i ≠ l
          · rw [if_pos ⟨hfi, hfl⟩, if_pos hfi, if_pos hfl]
          · rw [if_neg (by tauto), if_pos hfi, if_neg hfl]
        · rw [if_neg (by tauto), if_neg hfi]
      rw [hstep1, sum_fwd_reindex g1.size g2.size fwd rev hc
        (fun v => if v ≠ l then edgeCost cf none (g2.edge v l) else 0)]
      refine Finset.sum_congr rfl (fun k _ => ?_)
      by_cases hrk : rev k < g1.size
      · rw [if_pos hrk]
        by_cases hkl : k ≠ l
        · rw [if_pos hkl, if_pos ⟨hil, hrk, hkl⟩]
        · rw [if_neg hkl, if_neg (by tauto)]
      · rw [if_neg hrk, if_neg (by tauto)]
    · rw [if_neg hil]
      exact (Finset.sum_eq_zero (fun k _ => if_neg (by tauto))).symm
  -- block 4: inserted against inserted
  have hB4 : (∑ l ∈ Finset.range g2.size,
      (if g1.size ≤ rev l then
        (∑ k ∈ Finset.range g2.size,
          (if g1.size ≤ rev k then
            quadPairTerm cf g1 g2 (rev k) k (rev l) l else 0))
      else 0))
      = ∑ l ∈ Finset.range g2.size, ∑ k ∈ Finset.range g2.size,
          (if g1.size ≤ rev l ∧ g1.size ≤ rev k ∧ k ≠ l then
            edgeCost cf none (g2.edge k l) else 0) := by
    refine Finset.sum_congr rfl (fun l hl => ?_)
    have hlm := Finset.mem_range.mp hl
    by_cases hil : g1.size ≤ rev l
    · rw [if_pos hil]
      refine Finset.sum_congr rfl (fun k hk => ?_)
      have hkm := Finset.mem_range.mp hk
      by_cases hik : g1.size ≤ rev k
      · rw [if_pos hik, hptB4 k l hkm hlm hik hil]
        by_cases hkl : k ≠ l
        · rw [if_pos hkl, if_pos ⟨hil, hik, hkl⟩]
        · rw [if_neg hkl, if_neg (by tauto)]
      · rw [if_neg hik, if_neg (by tauto)]
    · rw [if_neg hil]
      exact (Finset.sum_eq_zero (fun k _ => if_neg (by tauto))).symm
  -- the three insertion blocks cover every ordered pair with an inserted
  -- endpoint exactly once
  have hrest : (∑ j ∈ Finset.range g1.size, ∑ k ∈ Finset.range g2.size,
        (if g1.size ≤ rev k then quadPairTerm cf g1 g2 (rev k) k j (fwd j) else 0))
      + (∑ l ∈ Finset.range g2.size,
          (if g1.size ≤ rev l then
            (∑ i ∈ Finset.range g1.size, quadPairTerm cf g1 g2 i (fwd i) (rev l) l)
          else 0))
      + (∑ l ∈ Finset.range g2.size,
          (if g1.size ≤ rev l then
            (∑ k ∈ Finset.range g2.size,
              (if g1.size ≤ rev k then
                quadPairTerm cf g1 g2 (rev k) k (rev l) l else 0))
          else 0))
      = ∑ l ∈ Finset.range g2.size, ∑ k ∈ Finset.range g2.size,
          (if k ≠ l ∧ (g1.size ≤ rev k ∨ g1.size ≤ rev l) then
            edgeCost cf none (g2.edge k l) else 0) := by
    rw [hB2, hB3, hB4, ← Finset.sum_add_distrib, ← Finset.sum_add_distrib]
    refine Finset.sum_congr rfl (fun l _ => ?_)
    rw [← Finset.sum_add_distrib, ← Finset.sum_add_distrib]
    refine Finset.sum_congr rfl (fun k _ => ?_)
    by_cases hkl : k = l
    · subst hkl
      rw [if_neg (by tauto), if_neg (by tauto), if_neg (by tauto)]
      ring
    · by_cases hik : g1.size ≤ rev k
      · by_cases hil : g1.size ≤ rev l
        · rw [if_neg (by omega), if_neg (by omega),
            if_pos ⟨hil, hik, hkl⟩, if_pos ⟨hkl, Or.inl hik⟩]
          ring
        · rw [if_pos ⟨hik, by omega, hkl⟩, if_neg (by tauto),
            if_neg (by tauto), if_pos ⟨hkl, Or.inl hik⟩]
          ring
      · by_cases hil : g1.size ≤ rev l
        · rw [if_neg (by tauto), if_pos ⟨hil, by omega, hkl⟩,
            if_neg (by tauto), if_pos ⟨hkl, Or.inr hil⟩]
          ring
        · rw [if_neg (by tauto), if_neg (by tauto), if_neg (by tauto),
            if_neg (by tauto)]
          ring
  rw [hexp1, hexp2]
  linarith [hcg, hrest]

/-- The quadratic term of a binary mapping, contracted against the mapping
itself, equals the (unordered-pair) edge part of `GedFromMapping`, provided
both adjacency structures are stored symmetrically, the halving branch is
taken, and the mapping pair is consistent. -/
theorem quad_edge_eq_gedEdgeTerm (cf : EditCost) (g1 g2 : Graph)
    (fwd rev : Nat → Nat)
    (hd : (g1.directed && g2.directed) = false)
    (hs1 : g1.Symm) (hs2 : g2.Symm)
    (hc : ConsistentPair g1.size g2.size fwd rev) :
    linearCostMap (ipfpQuadTerm cf g1 g2 (mappingPairs g1.size g2.size fwd rev))
      fwd rev g1.size g2.size
      = gedEdgeTermUndirected cf g1 g2 fwd rev := by
  have hQ : ∀ j l, ipfpQuadTerm cf g1 g2 (mappingPairs g1.size g2.size fwd rev) j l
      = quadTermEntryRaw cf g1 g2 (mappingPairs g1.size g2.size fwd rev) j l * (1/2) := by
    intro j l
    unfold ipfpQuadTerm quadTermEntry
    rw [hd, if_pos rfl]
  have hLHS : linearCostMap
      (ipfpQuadTerm cf g1 g2 (mappingPairs g1.size g2.size fwd rev))
      fwd rev g1.size g2.size
      = ((∑ j ∈ Finset.range g1.size,
            quadTermEntryRaw cf g1 g2 (mappingPairs g1.size g2.size fwd rev) j (fwd j))
          + ∑ l ∈ Finset.range g2.size,
              (if g1.size ≤ rev l then
                quadTermEntryRaw cf g1 g2 (mappingPairs g1.size g2.size fwd rev) (rev l) l
              else 0)) * (1/2) := by
    show (∑ j ∈ Finset.range g1.size,
        ipfpQuadTerm cf g1 g2 (mappingPairs g1.size g2.size fwd rev) j (fwd j))
        + (∑ l ∈ Finset.range g2.size,
            if g1.size ≤ rev l then
              ipfpQuadTerm cf g1 g2 (mappingPairs g1.size g2.size fwd rev) (rev l) l
            else 0) = _
    rw [add_mul, Finset.sum_mul, Finset.sum_mul]
    congr 1
    · exact Finset.sum_congr rfl (fun j _ => hQ j (fwd j))
    · refine Finset.sum_congr rfl (fun l _ => ?_)
      by_cases hil : g1.size ≤ rev l
      · rw [if_pos hil, if_pos hil, hQ]
      · rw [if_neg hil, if_neg hil, zero_mul]
  -- doubling: both ordered sums fold onto their strict triangles
  have hT1 : (∑ j ∈ Finset.range g1.size, ∑ i ∈ Finset.range g1.size,
      (if i ≠ j then
        edgeCost cf (g1.edge i j) (mappedEdge g2 g2.size fwd i j) else 0))
      = 2 * ∑ j ∈ Finset.range g1.size, ∑ i ∈ Finset.range j,
          edgeCost cf (g1.edge i j) (mappedEdge g2 g2.size fwd i j) := by
    rw [double_sum_symm _ g1.size (fun i _ => if_neg (fun h => h rfl))
      (fun i j hi hj => ?_)]
    · congr 1
      refine Finset.sum_congr rfl (fun j hj => Finset.sum_congr rfl (fun i hi => ?_))
      exact if_pos (by have := Finset.mem_range.mp hi; omega)
    · by_cases hij : i = j
      · subst hij
        rfl
      · rw [if_pos hij, if_pos (fun h => hij h.symm)]
        unfold mappedEdge
        rw [hs1 i j]
        by_cases hfi : fwd i < g2.size
        · by_cases hfj : fwd j < g2.size
          · rw [if_pos ⟨hfi, hfj⟩, if_pos ⟨hfj, hfi⟩, hs2 (fwd i) (fwd j)]
          · rw [if_neg (by tauto), if_neg (by tauto)]
        · rw [if_neg (by tauto), if_neg (by tauto)]
  have hT2 : (∑ l ∈ Finset.range g2.size, ∑ k ∈ Finset.range g2.size,
      (if k ≠ l ∧ (g1.size ≤ rev k ∨ g1.size ≤ rev l) then
        edgeCost cf none (g2.edge k l) else 0))
      = 2 * ∑ l ∈ Finset.range g2.size, ∑ k ∈ Finset.range l,
          (if g1.size ≤ rev k ∨ g1.size ≤ rev l then
            edgeCost cf none (g2.edge k l) else 0) := by
    rw [double_sum_symm _ g2.size (fun k _ => if_neg (by tauto))
      (fun k l hk hl => ?_)]
    · congr 1
      refine Finset.sum_congr rfl (fun l hl => Finset.sum_congr rfl (fun k hk => ?_))
      have hklt := Finset.mem_range.mp hk
      by_cases hcond : g1.size ≤ rev k ∨ g1.size ≤ rev l
      · rw [if_pos ⟨by omega, hcond⟩, if_pos hcond]
      · rw [if_neg (by tauto), if_neg hcond]
    · by_cases hkl : k = l
      · subst hkl
        rfl
      · by_cases hcond : g1.size ≤ rev k ∨ g1.size ≤ rev l
        · rw [if_pos ⟨hkl, hcond⟩, if_pos ⟨fun h => hkl h.symm, hcond.symm⟩,
            hs2 k l]
        · rw [if_neg (by tauto), if_neg (by tauto)]
  rw [hLHS, quadRaw_contraction cf g1 g2 fwd rev hc]
  have hged : gedEdgeTermUndirected cf g1 g2 fwd rev
      = (∑ j ∈ Finset.range g1.size, ∑ i ∈ Finset.range j,
          edgeCost cf (g1.edge i j) (mappedEdge g2 g2.size fwd i j))
        + ∑ l ∈ Finset.range g2.size, ∑ k ∈ Finset.range l,
            (if g1.size ≤ rev k ∨ g1.size ≤ rev l then
              edgeCost cf none (g2.edge k l) else 0) := rfl
  rw [hged]
  linarith [hT1, hT2]

/-- The quadratic term of a binary mapping on a both-directed pair (no
halving), contracted against the mapping itself, equals the ordered-pair
edge part of `GedFromMapping`; only consistency of the pair is needed. -/
theorem quad_edge_eq_gedEdgeTerm_directed (cf : EditCost) (g1 g2 : Graph)
    (fwd rev : Nat → Nat)
    (hd : (g1.directed && g2.directed) = true)
    (hc : ConsistentPair g1.size g2.size fwd rev) :
    linearCostMap (ipfpQuadTerm cf g1 g2 (mappingPairs g1.size g2.size fwd rev))
      fwd rev g1.size g2.size
      = gedEdgeTermDirected cf g1 g2 fwd rev := by
  have hQ : ∀ j l, ipfpQuadTerm cf g1 g2 (mappingPairs g1.size g2.size fwd rev) j l
      = quadTermEntryRaw cf g1 g2 (mappingPairs g1.size g2.size fwd rev) j l := by
    intro j l
    unfold ipfpQuadTerm quadTermEntry
    rw [hd, if_neg (by simp)]
  have hLHS : linearCostMap
      (ipfpQuadTerm cf g1 g2 (mappingPairs g1.size g2.size fwd rev))
      fwd rev g1.size g2.size
      = (∑ j ∈ Finset.range g1.size,
          quadTermEntryRaw cf g1 g2 (mappingPairs g1.size g2.size fwd rev) j (fwd j))
        + ∑ l ∈ Finset.range g2.size,
            (if g1.size ≤ rev l then
              quadTermEntryRaw cf g1 g2 (mappingPairs g1.size g2.size fwd rev) (rev l) l
            else 0) := by
    show (∑ j ∈ Finset.range g1.size,
        ipfpQuadTerm cf g1 g2 (mappingPairs g1.size g2.size fwd rev) j (fwd j))
        + (∑ l ∈ Finset.range g2.size,
            if g1.size ≤ rev l then
              ipfpQuadTerm cf g1 g2 (mappingPairs g1.size g2.size fwd rev) (rev l) l
            else 0) = _
    congr 1
    · exact Finset.sum_congr rfl (fun j _ => hQ j (fwd j))
    · refine Finset.sum_congr rfl (fun l _ => ?_)
      by_cases hil : g1.size ≤ rev l
      · rw [if_pos hil, if_pos hil, hQ]
      · rw [if_neg hil, if_neg hil]
  rw [hLHS, quadRaw_contraction cf g1 g2 fwd rev hc]
  rfl

/-- C8 counterexample.  On the reachable mixed pair `gD2` (directed, one
edge `0 → 1`) / `gU2` (undirected) with the consistent identity mapping,
the quadratic-plus-linear path halves the ordered-pair sum of the
asymmetric adjacency (`(4 + 2)/2 + 2 = 5`) while `GedFromMapping` counts
the unordered pair once (`2 + 2 = 4`): the two scoring paths disagree, so
the claim does not hold for every consistent mapping pair. -/
theorem C8_mixed_pair_divergence_counterexample :
    gD2.directed = true ∧ gU2.directed = false ∧
    ConsistentPair gD2.size gU2.size id id ∧
    getCost cfEx gD2 gU2 id id = 5 ∧
    mappingCost cfEx gD2 gU2 id id = 4 := by
  refine ⟨rfl, rfl, ⟨fun i _ _ => rfl, fun j _ _ => rfl⟩, ?_, ?_⟩
  · norm_num [getCost, linearCostMap, ipfpQuadTerm, quadTermEntry,
      quadTermEntryRaw, mappingPairs, nodeCostMatrix, edgeCost, cfEx, gD2,
      gU2, List.range_succ, List.filter]
  · norm_num [mappingCost, gedFromMapping, gedNodeTerm,
      gedEdgeTermUndirected, mappedEdge, edgeCost, cfEx, gD2, gU2,
      List.range_succ]

/-- C8 (amended).  The two scoring paths agree exactly (over rationals) for
every consistent in-range mapping pair whenever the pair of graphs is
both-directed (no halving, ordered pairs) or both adjacency structures are
stored symmetrically (halving, unordered pairs) — the two situations the
scorer is defined for.  On a mixed pair with an asymmetric adjacency the
halved quadratic path diverges from the once-per-edge scorer. -/
theorem C8_getCost_eq_mappingCost_amended (cf : EditCost) (g1 g2 : Graph)
    (fwd rev : Nat → Nat)
    (hc : ConsistentPair g1.size g2.size fwd rev)
    (hfb : ∀ i, i < g1.size → fwd i ≤ g2.size)
    (hrb : ∀ j, j < g2.size → rev j ≤ g1.size)
    (hsym : (g1.directed && g2.directed) = true ∨ (g1.Symm ∧ g2.Symm)) :
    getCost cf g1 g2 fwd rev = mappingCost cf g1 g2 fwd rev := by
  by_cases hD : (g1.directed && g2.directed) = true
  · unfold getCost mappingCost gedFromMapping
    rw [hD, if_pos rfl,
      quad_edge_eq_gedEdgeTerm_directed cf g1 g2 fwd rev hD hc,
      linear_node_eq_gedNodeTerm cf g1 g2 fwd rev hfb hrb]
    ring
  · have hd : (g1.directed && g2.directed) = false := by
      revert hD
      cases g1.directed && g2.directed <;> simp
    rcases hsym with hT | ⟨hs1, hs2⟩
    · exact absurd hT hD
    · unfold getCost mappingCost gedFromMapping
      rw [hd, if_neg (by simp),
        quad_edge_eq_gedEdgeTerm cf g1 g2 fwd rev hd hs1 hs2 hc,
        linear_node_eq_gedNodeTerm cf g1 g2 fwd rev hfb hrb]
      ring

/-! ### C1: the multistart pipeline against the bipartite baseline -/

/-- Cost callbacks distinguishing labels: substitution `8` (free on equal
labels), node deletion `4`, node insertion `3`, edge substitution `6`
(free on equal attributes), edge deletion `8`, edge insertion `7`. -/
def cfC1 : EditCost where
  nodeSub := fun a b => if a = b then 0 else 8
  nodeDel := fun _ => 4
  nodeIns := fun _ => 3
  edgeSub := fun a b => if a = b then 0 else 6
  edgeDel := fun _ => 8
  edgeIns := fun _ => 7

/-- Two isolated nodes with label `0`. -/
def g1C1 : Graph where
  size := 2
  nodeLab := fun _ => 0
  edge := fun _ _ => none
  directed := false

/-- Two nodes with labels `0` and `1` joined by an edge with attribute `1`
(stored symmetrically). -/
def g2C1 : Graph where
  size := 2
  nodeLab := fun i => if i = 0 then 0 else 1
  edge := fun i j => if (i = 0 ∧ j = 1) ∨ (i = 1 ∧ j = 0) then some 1 else none
  directed := false

/-- A matrix given by a literal list of rows (`0` outside). -/
def matOf (rows : List (List ℚ)) : Nat → Nat → ℚ := fun i j =>
  ((rows.getD i []).getD j 0)

theorem tabulate_eq (n m : Nat) (f : Nat → Nat → ℚ) (rows : List (List ℚ))
    (h : (List.range n).map (fun i => (List.range m).map (f i)) = rows) :
    tabulate n m f = matOf rows := by
  unfold tabulate matOf
  rw [h]

theorem ipfpLoop_one (cf : EditCost) (g1 g2 : Graph) (eps : ℚ) (st : IPFPState) :
    ipfpLoop cf g1 g2 eps 1 st = (ipfpStep cf g1 g2 eps st).1 := by
  unfold ipfpLoop
  by_cases h : (ipfpStep cf g1 g2 eps st).2 <;> simp [h, ipfpLoop]

/-- The star-augmented LSAPE matrix of the C1 instance. -/
def CstarC1 : Nat → Nat → ℚ := fun i j =>
  if i < 2 ∧ j = 0 then 7
  else if i < 2 ∧ j = 1 then 15
  else if i < 2 ∧ j = 2 then 4
  else if i = 2 ∧ j ≤ 1 then 10
  else 0

theorem computeCostMatrix_C1_eval :
    computeCostMatrix cfC1 g1C1 g2C1 = CstarC1 := by
  have hE1 : ∀ v, incidentEdges g1C1 v = [] := by
    intro v
    simp [incidentEdges, g1C1]
  have hE20 : incidentEdges g2C1 0 = [(1, 1)] := by
    norm_num [incidentEdges, g2C1, List.range_succ, List.filterMap_cons]
  have hE21 : incidentEdges g2C1 1 = [(0, 1)] := by
    norm_num [incidentEdges, g2C1, List.range_succ, List.filterMap_cons]
  have hlab1 : ∀ v, g1C1.nodeLab v = 0 := fun _ => rfl
  have hlab20 : g2C1.nodeLab 0 = 0 := rfl
  have hlab21 : g2C1.nodeLab 1 = 1 := rfl
  have hsub0 : ∀ v1, substitutionCost cfC1 g1C1 g2C1 v1 0 = 7 := by
    intro v1
    norm_num [substitutionCost, lsapeOptCost, hungarianLSAPE, allSeqs,
      validLsapeSeq, nodupB, argminFirst, lsapeSeqCost, localEdgeMatrix,
      hE1, hE20, hlab1, hlab20, cfC1, List.range_succ, List.filter]
  have hsub1 : ∀ v1, substitutionCost cfC1 g1C1 g2C1 v1 1 = 15 := by
    intro v1
    norm_num [substitutionCost, lsapeOptCost, hungarianLSAPE, allSeqs,
      validLsapeSeq, nodupB, argminFirst, lsapeSeqCost, localEdgeMatrix,
      hE1, hE21, hlab1, hlab21, cfC1, List.range_succ, List.filter]
  have hdel : ∀ v1, deletionCost cfC1 g1C1 v1 = 4 := by
    intro v1
    norm_num [deletionCost, hE1, hlab1, cfC1]
  have hins0 : insertionCost cfC1 g2C1 0 = 10 := by
    norm_num [insertionCost, hE20, hlab20, cfC1]
  have hins1 : insertionCost cfC1 g2C1 1 = 10 := by
    norm_num [insertionCost, hE21, hlab21, cfC1]
  funext i j
  show (if i < 2 ∧ j < 2 then substitutionCost cfC1 g1C1 g2C1 i j
    else if i < 2 ∧ j = 2 then deletionCost cfC1 g1C1 i
    else if i = 2 ∧ j < 2 then insertionCost cfC1 g2C1 j
    else 0) = CstarC1 i j
  unfold CstarC1
  by_cases hi : i < 2
  · by_cases hj0 : j = 0
    · subst hj0
      rw [if_pos ⟨hi, by omega⟩, hsub0 i, if_pos ⟨hi, rfl⟩]
    · by_cases hj1 : j = 1
      · subst hj1
        rw [if_pos ⟨hi, by omega⟩, hsub1 i, if_neg (by omega), if_pos ⟨hi, rfl⟩]
      · by_cases hj2 : j = 2
        · subst hj2
          rw [if_neg (by omega), if_pos ⟨hi, rfl⟩, hdel i, if_neg (by omega),
            if_neg (by omega), if_pos ⟨hi, rfl⟩]
        · rw [if_neg (by omega), if_neg (by omega), if_neg (by omega),
            if_neg (by omega), if_neg (by omega), if_neg (by omega),
            if_neg (by omega)]
  · by_cases hi2 : i = 2
    · subst hi2
      by_cases hj0 : j = 0
      · subst hj0
        rw [if_neg (by omega), if_neg (by omega), if_pos ⟨rfl, by omega⟩,
          hins0, if_neg (by omega), if_neg (by omega), if_neg (by omega),
          if_pos ⟨rfl, by omega⟩]
      · by_cases hj1 : j = 1
        · subst hj1
          rw [if_neg (by omega), if_neg (by omega), if_pos ⟨rfl, by omega⟩,
            hins1, if_neg (by omega), if_neg (by omega), if_neg (by omega),
            if_pos ⟨rfl, by omega⟩]
        · rw [if_neg (by omega), if_neg (by omega), if_neg (by omega),
            if_neg (by omega), if_neg (by omega), if_neg (by omega),
            if_neg (by omega)]
    · rw [if_neg (by omega), if_neg (by omega), if_neg (by omega),
        if_neg (by omega), if_neg (by omega), if_neg (by omega),
        if_neg (by omega)]

theorem starSolve_C1 : hungarianLSAPE CstarC1 2 2 = [0, 2] := by
  norm_num [hungarianLSAPE, allSeqs, validLsapeSeq, nodupB, argminFirst,
    lsapeSeqCost, CstarC1, List.range_succ, List.filter]

theorem rho0_C1 :
    rhoperm 2 2 (lsapeFwd CstarC1 2 2) (revOf 2 (lsapeFwd CstarC1 2 2))
      = [0, 3, 2, 1] := by
  have hfwd : lsapeFwd CstarC1 2 2 = fun i => [0, 2].getD i 2 := by
    unfold lsapeFwd
    rw [starSolve_C1]
  rw [hfwd]
  norm_num [rhoperm, ysideList, revOf, advanceEps, List.range_succ, List.find?]

theorem allLifted_C1 :
    allLiftedMatchings 2 2
      = [[0, 1, 2, 3], [0, 1, 3, 2], [0, 3, 2, 1], [1, 0, 2, 3], [1, 0, 3, 2],
        [1, 3, 0, 2], [2, 0, 3, 1], [2, 1, 0, 3], [2, 3, 0, 1]] := by
  decide

theorem lsapOpt_C1 : lsapOptCost (computeCostMatrixLSAP CstarC1 2 2) 2 2 = 21 := by
  norm_num [lsapOptCost, allLifted_C1, argminFirst, lsapSeqCost,
    computeCostMatrixLSAP, CstarC1, List.range_succ]

theorem seeds_C1 :
    getKOptimalMappings CstarC1 2 2 1 = [[0, 3, 2, 1], [2, 0, 3, 1]] := by
  have henum : enumPerfectMatchings (computeCostMatrixLSAP CstarC1 2 2) 2 2
      [0, 3, 2, 1] 1 = [[2, 0, 3, 1]] := by
    norm_num [enumPerfectMatchings, allLifted_C1, lsapOpt_C1, lsapSeqCost,
      computeCostMatrixLSAP, CstarC1, List.filter, List.range_succ, List.take]
  simp only [getKOptimalMappings]
  rw [rho0_C1, henum]

/-- The decoded forward mapping of the first seed `[0, 3, 2, 1]`. -/
def dfwdS1C1 : Nat → Nat := decodeFwd g2C1.size (fun i => [0, 3, 2, 1].getD i 0)

/-- The decoded backward mapping of the first seed. -/
def drevS1C1 : Nat → Nat :=
  decodeRev g1C1.size g2C1.size (fun i => [0, 3, 2, 1].getD i 0)

/-- The initial IPFP state of the first seed. -/
def stS1C1 : IPFPState := ipfpInit cfC1 g1C1 g2C1 dfwdS1C1 drevS1C1

theorem stS1C1_S : stS1C1.S = [14] := by
  norm_num [stS1C1, ipfpInit, linearCostMat, ipfpQuadTerm, quadTermEntry,
    quadTermEntryRaw, matrixPairs, mappingsToMatrix, dfwdS1C1, drevS1C1,
    decodeFwd, decodeRev, nodeCostMatrix, edgeCost, cfC1, g1C1, g2C1,
    List.range_succ, List.filterMap_cons, List.filter]

theorem stS1C1_L : stS1C1.Lterm = 7 := by
  norm_num [stS1C1, ipfpInit, linearCostMat, mappingsToMatrix, dfwdS1C1,
    drevS1C1, decodeFwd, decodeRev, nodeCostMatrix, cfC1, g1C1, g2C1,
    List.range_succ, List.filter]

theorem gradS1C1 : ipfpGradient cfC1 g1C1 g2C1 stS1C1
    = matOf [[7, 8, 4], [7, 15, 4], [10, 10, 0]] := by
  unfold ipfpGradient
  apply tabulate_eq
  norm_num [ipfpQuadTerm, quadTermEntry, quadTermEntryRaw, matrixPairs,
    stS1C1, ipfpInit, mappingsToMatrix, dfwdS1C1, drevS1C1, decodeFwd,
    decodeRev, nodeCostMatrix, edgeCost, cfC1, g1C1, g2C1, List.range_succ,
    List.filterMap_cons, List.filter, List.getLast?]

theorem dirSolveS1C1 :
    hungarianLSAPE (ipfpGradient cfC1 g1C1 g2C1 stS1C1) 2 2 = [1, 0] := by
  rw [gradS1C1]
  norm_num [hungarianLSAPE, allSeqs, validLsapeSeq, nodupB, argminFirst,
    lsapeSeqCost, matOf, List.range_succ, List.filter]

theorem dirFwdS1C1 :
    ipfpDirFwd cfC1 g1C1 g2C1 stS1C1 = fun i => [1, 0].getD i 2 := by
  unfold ipfpDirFwd lsapeFwd
  rw [show g1C1.size = 2 from rfl, show g2C1.size = 2 from rfl, dirSolveS1C1]

theorem dirRevS1C1 :
    ipfpDirRev cfC1 g1C1 g2C1 stS1C1 = fun j => [1, 0].getD j 2 := by
  unfold ipfpDirRev
  rw [show g1C1.size = 2 from rfl, dirFwdS1C1]
  funext j
  by_cases hj0 : j = 0
  · subst hj0
    norm_num [revOf, List.find?, List.range_succ]
  · by_cases hj1 : j = 1
    · subst hj1
      norm_num [revOf, List.find?, List.range_succ]
    · have h2 : [1, 0].getD j 2 = 2 := by
        rcases j with _ | _ | j <;> simp_all
      rw [h2]
      norm_num [revOf, List.find?, List.range_succ, hj0, Ne.symm hj0,
        Ne.symm hj1]

theorem RkS1C1 : ipfpRk cfC1 g1C1 g2C1 stS1C1 = 15 := by
  unfold ipfpRk
  rw [gradS1C1, dirFwdS1C1, dirRevS1C1, show g1C1.size = 2 from rfl,
    show g2C1.size = 2 from rfl]
  norm_num [linearCostMap, matOf, List.range_succ]

theorem LnewS1C1 : ipfpLnew cfC1 g1C1 g2C1 stS1C1 = 8 := by
  unfold ipfpLnew
  rw [dirFwdS1C1, dirRevS1C1, show g1C1.size = 2 from rfl,
    show g2C1.size = 2 from rfl]
  norm_num [linearCostMap, nodeCostMatrix, cfC1, g1C1, g2C1, List.range_succ]

theorem Sk1S1C1 : ipfpSk1 cfC1 g1C1 g2C1 stS1C1 = 15 := by
  unfold ipfpSk1
  rw [LnewS1C1, dirFwdS1C1, dirRevS1C1, show g1C1.size = 2 from rfl,
    show g2C1.size = 2 from rfl]
  norm_num [linearCostMap, ipfpQuadTerm, quadTermEntry, quadTermEntryRaw,
    mappingPairs, edgeCost, cfC1, g1C1, g2C1, List.range_succ, List.filter]

theorem alphaS1C1 : ipfpAlphaOf cfC1 g1C1 g2C1 stS1C1 = -6 := by
  unfold ipfpAlphaOf
  rw [RkS1C1, Sk1S1C1, stS1C1_S, stS1C1_L, show stS1C1.R = [] from rfl,
    show stS1C1.k = 0 from rfl]
  norm_num [getAlpha]

theorem betaS1C1 : ipfpBetaOf cfC1 g1C1 g2C1 stS1C1 = 7 := by
  unfold ipfpBetaOf
  rw [RkS1C1, Sk1S1C1, stS1C1_S, stS1C1_L, show stS1C1.R = [] from rfl,
    show stS1C1.k = 0 from rfl]
  norm_num [getBeta]

theorem XkS1C1 : (ipfpStep cfC1 g1C1 g2C1 (1/1000) stS1C1).1.Xk
    = matOf [[4/7, 3/7, 0], [3/7, 0, 4/7], [0, 4/7, 0]] := by
  have hbranch : ipfpBranch (ipfpAlphaOf cfC1 g1C1 g2C1 stS1C1)
      (ipfpBetaOf cfC1 g1C1 g2C1 stS1C1) = .lineSearch := by
    rw [alphaS1C1, betaS1C1]
    norm_num [ipfpBranch, ipfpT0]
  unfold ipfpStep
  simp only [hbranch]
  rw [alphaS1C1, betaS1C1, dirFwdS1C1, dirRevS1C1]
  apply tabulate_eq
  norm_num [ipfpT0, stS1C1, ipfpInit, mappingsToMatrix, dfwdS1C1, drevS1C1,
    decodeFwd, decodeRev, mappingPairs, g1C1, g2C1, List.range_succ,
    List.filter]

theorem projS1C1 : tabulate (g1C1.size+1) (g2C1.size+1)
    (fun i j => 1 - (ipfpAlgorithm cfC1 g1C1 g2C1 1 (1/1000) dfwdS1C1 drevS1C1).Xk i j)
    = matOf [[3/7, 4/7, 1], [4/7, 1, 3/7], [1, 3/7, 1]] := by
  have halg : ipfpAlgorithm cfC1 g1C1 g2C1 1 (1/1000) dfwdS1C1 drevS1C1
      = (ipfpStep cfC1 g1C1 g2C1 (1/1000) stS1C1).1 := by
    unfold ipfpAlgorithm
    rw [ipfpLoop_one]
    rfl
  rw [halg, XkS1C1]
  apply tabulate_eq
  norm_num [matOf, g1C1, g2C1, List.range_succ]

theorem projSolveS1C1 :
    hungarianLSAPE (matOf [[3/7, 4/7, 1], [4/7, 1, 3/7], [1, 3/7, 1]]) 2 2
      = [1, 0] := by
  norm_num [hungarianLSAPE, allSeqs, validLsapeSeq, nodupB, argminFirst,
    lsapeSeqCost, matOf, List.range_succ, List.filter]

theorem seedCost_S1C1 :
    seedCost (ipfpRefinement cfC1 1 (1/1000)) g1C1 g2C1 [0, 3, 2, 1] = 15 := by
  unfold seedCost seedRefined ipfpRefinement
  show mappingCost cfC1 g1C1 g2C1
    (ipfpGetBetterMapping cfC1 g1C1 g2C1 1 (1/1000) dfwdS1C1 drevS1C1).1
    (ipfpGetBetterMapping cfC1 g1C1 g2C1 1 (1/1000) dfwdS1C1 drevS1C1).2 = 15
  simp only [ipfpGetBetterMapping]
  rw [projS1C1]
  unfold lsapeFwd
  rw [show g1C1.size = 2 from rfl, show g2C1.size = 2 from rfl, projSolveS1C1]
  norm_num [mappingCost, gedFromMapping, gedNodeTerm, gedEdgeTermUndirected,
    mappedEdge, edgeCost, revOf, cfC1, g1C1, g2C1, List.range_succ, List.find?]

/-- The decoded forward mapping of the second seed `[2, 0, 3, 1]`. -/
def dfwdS2C1 : Nat → Nat := decodeFwd g2C1.size (fun i => [2, 0, 3, 1].getD i 0)

/-- The decoded backward mapping of the second seed. -/
def drevS2C1 : Nat → Nat :=
  decodeRev g1C1.size g2C1.size (fun i => [2, 0, 3, 1].getD i 0)

/-- The initial IPFP state of the second seed. -/
def stS2C1 : IPFPState := ipfpInit cfC1 g1C1 g2C1 dfwdS2C1 drevS2C1

theorem stS2C1_S : stS2C1.S = [14] := by
  norm_num [stS2C1, ipfpInit, linearCostMat, ipfpQuadTerm, quadTermEntry,
    quadTermEntryRaw, matrixPairs, mappingsToMatrix, dfwdS2C1, drevS2C1,
    decodeFwd, decodeRev, nodeCostMatrix, edgeCost, cfC1, g1C1, g2C1,
    List.range_succ, List.filterMap_cons, List.filter]

theorem stS2C1_L : stS2C1.Lterm = 7 := by
  norm_num [stS2C1, ipfpInit, linearCostMat, mappingsToMatrix, dfwdS2C1,
    drevS2C1, decodeFwd, decodeRev, nodeCostMatrix, cfC1, g1C1, g2C1,
    List.range_succ, List.filter]

theorem gradS2C1 : ipfpGradient cfC1 g1C1 g2C1 stS2C1
    = matOf [[7, 15, 4], [7, 8, 4], [10, 10, 0]] := by
  unfold ipfpGradient
  apply tabulate_eq
  norm_num [ipfpQuadTerm, quadTermEntry, quadTermEntryRaw, matrixPairs,
    stS2C1, ipfpInit, mappingsToMatrix, dfwdS2C1, drevS2C1, decodeFwd,
    decodeRev, nodeCostMatrix, edgeCost, cfC1, g1C1, g2C1, List.range_succ,
    List.filterMap_cons, List.filter, List.getLast?]

theorem dirSolveS2C1 :
    hungarianLSAPE (ipfpGradient cfC1 g1C1 g2C1 stS2C1) 2 2 = [0, 1] := by
  rw [gradS2C1]
  norm_num [hungarianLSAPE, allSeqs, validLsapeSeq, nodupB, argminFirst,
    lsapeSeqCost, matOf, List.range_succ, List.filter]

theorem dirFwdS2C1 :
    ipfpDirFwd cfC1 g1C1 g2C1 stS2C1 = fun i => [0, 1].getD i 2 := by
  unfold ipfpDirFwd lsapeFwd
  rw [show g1C1.size = 2 from rfl, show g2C1.size = 2 from rfl, dirSolveS2C1]

theorem dirRevS2C1 :
    ipfpDirRev cfC1 g1C1 g2C1 stS2C1 = fun j => [0, 1].getD j 2 := by
  unfold ipfpDirRev
  rw [show g1C1.size = 2 from rfl, dirFwdS2C1]
  funext j
  by_cases hj0 : j = 0
  · subst hj0
    norm_num [revOf, List.find?, List.range_succ]
  · by_cases hj1 : j = 1
    · subst hj1
      norm_num [revOf, List.find?, List.range_succ]
    · have h2 : [0, 1].getD j 2 = 2 := by
        rcases j with _ | _ | j <;> simp_all
      rw [h2]
      norm_num [revOf, List.find?, List.range_succ, hj0, Ne.symm hj0,
        Ne.symm hj1]

theorem RkS2C1 : ipfpRk cfC1 g1C1 g2C1 stS2C1 = 15 := by
  unfold ipfpRk
  rw [gradS2C1, dirFwdS2C1, dirRevS2C1, show g1C1.size = 2 from rfl,
    show g2C1.size = 2 from rfl]
  norm_num [linearCostMap, matOf, List.range_succ]

theorem LnewS2C1 : ipfpLnew cfC1 g1C1 g2C1 stS2C1 = 8 := by
  unfold ipfpLnew
  rw [dirFwdS2C1, dirRevS2C1, show g1C1.size = 2 from rfl,
    show g2C1.size = 2 from rfl]
  norm_num [linearCostMap, nodeCostMatrix, cfC1, g1C1, g2C1, List.range_succ]

theorem Sk1S2C1 : ipfpSk1 cfC1 g1C1 g2C1 stS2C1 = 15 := by
  unfold ipfpSk1
  rw [LnewS2C1, dirFwdS2C1, dirRevS2C1, show g1C1.size = 2 from rfl,
    show g2C1.size = 2 from rfl]
  norm_num [linearCostMap, ipfpQuadTerm, quadTermEntry, quadTermEntryRaw,
    mappingPairs, edgeCost, cfC1, g1C1, g2C1, List.range_succ, List.filter]

theorem alphaS2C1 : ipfpAlphaOf cfC1 g1C1 g2C1 stS2C1 = -6 := by
  unfold ipfpAlphaOf
  rw [RkS2C1, Sk1S2C1, stS2C1_S, stS2C1_L, show stS2C1.R = [] from rfl,
    show stS2C1.k = 0 from rfl]
  norm_num [getAlpha]

theorem betaS2C1 : ipfpBetaOf cfC1 g1C1 g2C1 stS2C1 = 7 := by
  unfold ipfpBetaOf
  rw [RkS2C1, Sk1S2C1, stS2C1_S, stS2C1_L, show stS2C1.R = [] from rfl,
    show stS2C1.k = 0 from rfl]
  norm_num [getBeta]

theorem XkS2C1 : (ipfpStep cfC1 g1C1 g2C1 (1/1000) stS2C1).1.Xk
    = matOf [[3/7, 0, 4/7], [4/7, 3/7, 0], [0, 4/7, 0]] := by
  have hbranch : ipfpBranch (ipfpAlphaOf cfC1 g1C1 g2C1 stS2C1)
      (ipfpBetaOf cfC1 g1C1 g2C1 stS2C1) = .lineSearch := by
    rw [alphaS2C1, betaS2C1]
    norm_num [ipfpBranch, ipfpT0]
  unfold ipfpStep
  simp only [hbranch]
  rw [alphaS2C1, betaS2C1, dirFwdS2C1, dirRevS2C1]
  apply tabulate_eq
  norm_num [ipfpT0, stS2C1, ipfpInit, mappingsToMatrix, dfwdS2C1, drevS2C1,
    decodeFwd, decodeRev, mappingPairs, g1C1, g2C1, List.range_succ,
    List.filter]

theorem projS2C1 : tabulate (g1C1.size+1) (g2C1.size+1)
    (fun i j => 1 - (ipfpAlgorithm cfC1 g1C1 g2C1 1 (1/1000) dfwdS2C1 drevS2C1).Xk i j)
    = matOf [[4/7, 1, 3/7], [3/7, 4/7, 1], [1, 3/7, 1]] := by
  have halg : ipfpAlgorithm cfC1 g1C1 g2C1 1 (1/1000) dfwdS2C1 drevS2C1
      = (ipfpStep cfC1 g1C1 g2C1 (1/1000) stS2C1).1 := by
    unfold ipfpAlgorithm
    rw [ipfpLoop_one]
    rfl
  rw [halg, XkS2C1]
  apply tabulate_eq
  norm_num [matOf, g1C1, g2C1, List.range_succ]

theorem projSolveS2C1 :
    hungarianLSAPE (matOf [[4/7, 1, 3/7], [3/7, 4/7, 1], [1, 3/7, 1]]) 2 2
      = [0, 1] := by
  norm_num [hungarianLSAPE, allSeqs, validLsapeSeq, nodupB, argminFirst,
    lsapeSeqCost, matOf, List.range_succ, List.filter]

theorem seedCost_S2C1 :
    seedCost (ipfpRefinement cfC1 1 (1/1000)) g1C1 g2C1 [2, 0, 3, 1] = 15 := by
  unfold seedCost seedRefined ipfpRefinement
  show mappingCost cfC1 g1C1 g2C1
    (ipfpGetBetterMapping cfC1 g1C1 g2C1 1 (1/1000) dfwdS2C1 drevS2C1).1
    (ipfpGetBetterMapping cfC1 g1C1 g2C1 1 (1/1000) dfwdS2C1 drevS2C1).2 = 15
  simp only [ipfpGetBetterMapping]
  rw [projS2C1]
  unfold lsapeFwd
  rw [show g1C1.size = 2 from rfl, show g2C1.size = 2 from rfl, projSolveS2C1]
  norm_num [mappingCost, gedFromMapping, gedNodeTerm, gedEdgeTermUndirected,
    mappedEdge, edgeCost, revOf, cfC1, g1C1, g2C1, List.range_succ, List.find?]

theorem bipartite_C1_eval : bipartiteGedCost cfC1 g1C1 g2C1 = 14 := by
  unfold bipartiteGedCost bipartiteMapping
  rw [computeCostMatrix_C1_eval, show g1C1.size = 2 from rfl,
    show g2C1.size = 2 from rfl]
  unfold lsapeFwd
  rw [starSolve_C1]
  norm_num [gedFromMapping, gedNodeTerm, gedEdgeTermUndirected, mappedEdge,
    edgeCost, revOf, cfC1, g1C1, g2C1, List.range_succ, List.find?]

theorem multistart_C1_eval :
    (multistartGed cfC1 g1C1 g2C1 1 (1/1000) 1).1 = 15 := by
  unfold multistartGed
  rw [getBestSeq_eq_fold, computeCostMatrix_C1_eval,
    show g1C1.size = 2 from rfl, show g2C1.size = 2 from rfl, seeds_C1]
  simp only [List.map_cons, List.map_nil, List.foldl_cons, List.foldl_nil]
  rw [seedCost_S1C1, seedCost_S2C1]
  norm_num [selectStep]

/-- C1 counterexample.  On a pair of two-node graphs with `K = 1` and one
IPFP iteration per seed, the multistart pipeline returns `15` while the
LSAPE-only bipartite approximation returns the mapping of cost `14`: both
seeds cost `14`, but the IPFP refinement moves each seed to a mapping of
cost `15` and the driver compares only the refined mappings, so the claimed
inequality `multistart ≤ bipartite` fails. -/
theorem C1_multistart_not_below_bipartite_counterexample :
    bipartiteGedCost cfC1 g1C1 g2C1 = 14 ∧
    (multistartGed cfC1 g1C1 g2C1 1 (1/1000) 1).1 = 15 :=
  ⟨bipartite_C1_eval, multistart_C1_eval⟩

/-- C1 (amended).  The guarantee the code actually provides is relative to
the *refined* seeds only: the multistart result is the cost of the refined
mapping of one of the enumerated seeds, and is `≤` the refined cost of
every enumerated seed.  No comparison with the unrefined (bipartite)
mapping is ever made, and when the IPFP refinement worsens every seed the
result exceeds the bipartite cost. -/
theorem C1_multistart_first_min_amended (cf : EditCost) (g1 g2 : Graph)
    (maxIter : Nat) (eps : ℚ) (k : Int)
    (hnn : ∀ ρL ∈ getKOptimalMappings (computeCostMatrix cf g1 g2)
        g1.size g2.size k,
      0 ≤ seedCost (ipfpRefinement cf maxIter eps) g1 g2 ρL) :
    (∃ ρL ∈ getKOptimalMappings (computeCostMatrix cf g1 g2) g1.size g2.size k,
      (multistartGed cf g1 g2 maxIter eps k).1
        = seedCost (ipfpRefinement cf maxIter eps) g1 g2 ρL) ∧
    ∀ ρL ∈ getKOptimalMappings (computeCostMatrix cf g1 g2) g1.size g2.size k,
      (multistartGed cf g1 g2 maxIter eps k).1
        ≤ seedCost (ipfpRefinement cf maxIter eps) g1 g2 ρL := by
  have hmap : ∀ p ∈ (getKOptimalMappings (computeCostMatrix cf g1 g2)
      g1.size g2.size k).map (fun ρL =>
        (seedCost (ipfpRefinement cf maxIter eps) g1 g2 ρL,
          seedRefined (ipfpRefinement cf maxIter eps) g1 g2 ρL)), 0 ≤ p.1 := by
    intro p hp
    rcases List.mem_map.mp hp with ⟨ρL, hρ, rfl⟩
    exact hnn ρL hρ
  have hne : (getKOptimalMappings (computeCostMatrix cf g1 g2)
      g1.size g2.size k).map (fun ρL =>
        (seedCost (ipfpRefinement cf maxIter eps) g1 g2 ρL,
          seedRefined (ipfpRefinement cf maxIter eps) g1 g2 ρL)) ≠ [] := by
    simp [getKOptimalMappings]
  have hfold : multistartGed cf g1 g2 maxIter eps k
      = ((getKOptimalMappings (computeCostMatrix cf g1 g2)
          g1.size g2.size k).map (fun ρL =>
            (seedCost (ipfpRefinement cf maxIter eps) g1 g2 ρL,
              seedRefined (ipfpRefinement cf maxIter eps) g1 g2 ρL))).foldl
          selectStep (-1, (fun _ => g2.size), (fun _ => g1.size)) := by
    unfold multistartGed
    rw [getBestSeq_eq_fold]
  rcases selectFold_spec _ (-1, (fun _ => g2.size), (fun _ => g1.size))
    hmap rfl hne with ⟨j, hj, heq, hle, _⟩
  rw [List.length_map] at hj
  have hjl : ((getKOptimalMappings (computeCostMatrix cf g1 g2)
      g1.size g2.size k).map (fun ρL =>
        (seedCost (ipfpRefinement cf maxIter eps) g1 g2 ρL,
          seedRefined (ipfpRefinement cf maxIter eps) g1 g2 ρL))).getD j
        (-1, (fun _ => g2.size), (fun _ => g1.size))
      = (seedCost (ipfpRefinement cf maxIter eps) g1 g2
          ((getKOptimalMappings (computeCostMatrix cf g1 g2)
            g1.size g2.size k).getD j []),
        seedRefined (ipfpRefinement cf maxIter eps) g1 g2
          ((getKOptimalMappings (computeCostMatrix cf g1 g2)
            g1.size g2.size k).getD j [])) := by
    rw [List.getD_eq_getElem _ _ (by simpa using hj), List.getElem_map,
      List.getD_eq_getElem _ _ hj]
  constructor
  · refine ⟨(getKOptimalMappings (computeCostMatrix cf g1 g2)
      g1.size g2.size k).getD j [], ?_, ?_⟩
    · rw [List.getD_eq_getElem _ _ hj]
      exact List.getElem_mem _
    · rw [hfold, heq, hjl]
  · intro ρL hρ
    have hmem := hle (seedCost (ipfpRefinement cf maxIter eps) g1 g2 ρL,
      seedRefined (ipfpRefinement cf maxIter eps) g1 g2 ρL)
      (List.mem_map_of_mem _ hρ)
    rw [hjl] at hmem
    rw [hfold, heq, hjl]
    simpa using hmem

theorem seedsW_C1 :
    getKOptimalMappings (computeCostMatrix cfEx gOne gOne) gOne.size gOne.size 0
      = [[0, 1]] := by
  have hsolveW : hungarianLSAPE (computeCostMatrix cfEx gOne gOne) 1 1 = [0] := by
    norm_num [computeCostMatrix, substitutionCost, deletionCost, insertionCost,
      lsapeOptCost, hungarianLSAPE, allSeqs, validLsapeSeq, nodupB,
      argminFirst, lsapeSeqCost, localEdgeMatrix, incidentEdges, cfEx, gOne,
      List.range_succ, List.filter]
  have hfwdW : lsapeFwd (computeCostMatrix cfEx gOne gOne) 1 1
      = fun i => [0].getD i 1 := by
    unfold lsapeFwd
    rw [hsolveW]
  have hρ0W : rhoperm 1 1 (lsapeFwd (computeCostMatrix cfEx gOne gOne) 1 1)
      (revOf 1 (lsapeFwd (computeCostMatrix cfEx gOne gOne) 1 1)) = [0, 1] := by
    rw [hfwdW]
    norm_num [rhoperm, ysideList, revOf, advanceEps, List.range_succ,
      List.find?]
  show getKOptimalMappings (computeCostMatrix cfEx gOne gOne) 1 1 0 = [[0, 1]]
  simp only [getKOptimalMappings, enumPerfectMatchings]
  rw [hρ0W]
  norm_num

theorem seedCostW_C1 :
    seedCost (ipfpRefinement cfEx 0 1) gOne gOne [0, 1] = 1 := by
  have hprojsolveW : hungarianLSAPE (matOf [[0, 1], [1, 1]]) 1 1 = [0] := by
    norm_num [hungarianLSAPE, allSeqs, validLsapeSeq, nodupB, argminFirst,
      lsapeSeqCost, matOf, List.range_succ, List.filter]
  unfold seedCost seedRefined ipfpRefinement
  simp only [ipfpGetBetterMapping]
  have halg : ipfpAlgorithm cfEx gOne gOne 0 1
      (decodeFwd gOne.size (fun i => [0, 1].getD i 0))
      (decodeRev gOne.size gOne.size (fun i => [0, 1].getD i 0))
      = ipfpInit cfEx gOne gOne
          (decodeFwd gOne.size (fun i => [0, 1].getD i 0))
          (decodeRev gOne.size gOne.size (fun i => [0, 1].getD i 0)) := rfl
  rw [halg]
  have hproj : tabulate (gOne.size+1) (gOne.size+1)
      (fun i j => 1 - (ipfpInit cfEx gOne gOne
        (decodeFwd gOne.size (fun i => [0, 1].getD i 0))
        (decodeRev gOne.size gOne.size (fun i => [0, 1].getD i 0))).Xk i j)
      = matOf [[0, 1], [1, 1]] := by
    apply tabulate_eq
    norm_num [ipfpInit, mappingsToMatrix, decodeFwd, decodeRev, gOne,
      List.range_succ, List.filter]
  rw [hproj]
  unfold lsapeFwd
  rw [show gOne.size = 1 from rfl, hprojsolveW]
  norm_num [mappingCost, gedFromMapping, gedNodeTerm, gedEdgeTermUndirected,
    mappedEdge, edgeCost, revOf, cfEx, gOne, List.range_succ, List.find?]

/-- Concrete instantiation of the amended C1 statement on the one-node
graphs. -/
theorem C1_multistart_first_min_amended_witness :
    (∀ ρL ∈ getKOptimalMappings (computeCostMatrix cfEx gOne gOne)
        gOne.size gOne.size 0,
      0 ≤ seedCost (ipfpRefinement cfEx 0 1) gOne gOne ρL) ∧
    ∀ ρL ∈ getKOptimalMappings (computeCostMatrix cfEx gOne gOne)
        gOne.size gOne.size 0,
      (multistartGed cfEx gOne gOne 0 1 0).1
        ≤ seedCost (ipfpRefinement cfEx 0 1) gOne gOne ρL := by
  have hnn : ∀ ρL ∈ getKOptimalMappings (computeCostMatrix cfEx gOne gOne)
      gOne.size gOne.size 0,
      0 ≤ seedCost (ipfpRefinement cfEx 0 1) gOne gOne ρL := by
    intro ρL hρ
    rw [seedsW_C1] at hρ
    rcases List.mem_singleton.mp hρ with rfl
    rw [seedCostW_C1]
    norm_num
  exact ⟨hnn, (C1_multistart_first_min_amended cfEx gOne gOne 0 1 0 hnn).2⟩

/-- Concrete instantiation of the amended C8 statement on the one-node
graphs with the identity mapping (symmetric-storage branch). -/
theorem C8_getCost_eq_mappingCost_amended_witness :
    ConsistentPair gOne.size gOne.size (fun _ => 0) (fun _ => 0) ∧
    getCost cfEx gOne gOne (fun _ => 0) (fun _ => 0)
      = mappingCost cfEx gOne gOne (fun _ => 0) (fun _ => 0) := by
  have hc : ConsistentPair gOne.size gOne.size (fun _ => 0) (fun _ => 0) :=
    ⟨fun i hi _ => by have h : i < 1 := hi; show (0 : Nat) = i; omega,
      fun j hj _ => by have h : j < 1 := hj; show (0 : Nat) = j; omega⟩
  refine ⟨hc, C8_getCost_eq_mappingCost_amended cfEx gOne gOne _ _ hc
    (fun i _ => Nat.zero_le _) (fun j _ => Nat.zero_le _)
    (Or.inr ⟨fun _ _ => rfl, fun _ _ => rfl⟩)⟩

end GedLib
